import Mathlib

/-!
# The LINE bot client (`linebot/client.go`): constructor, URL composition, request headers

A shallow embedding of `linebot/client.go` and of the Go standard-library
functions it calls (`path.Join`, `path.Clean`, `url.ParseRequestURI`,
`url.Parse`, `URL.String`, `http.NewRequest`, `Header.Set`), followed by
theorems about the constructor `New`, the options `WithHTTPClient` and
`WithEndpointBase`, the URL composer `Client.url` and the request builders
`Client.get` and `Client.post`.

Conventions of the embedding.

* A Go `string` is a sequence of bytes.  It is represented by a Lean `String`
  whose characters stand for the bytes (code points 0 to 255); ASCII text is
  represented by itself.  The library functions are written over `List Char`.
* A Go pointer that may be `nil` is an `Option`; `*http.Client` values are
  compared by identity, so they are represented by their address.
* A Go function returning `(value, error)` returns an `Except GoError value`.
* A run-time panic (nil pointer dereference) is the outer `none` of an `Option`.
* The standard-library definitions follow the Go 1.21 sources; loops that scan
  a string by index are recursions on the unread suffix of the string.
-/

/-- Go error values produced by the modelled code: `errors.New`, the error
types of `net/url`, and `fmt.Errorf` with a single quoted argument. -/
inductive GoError where
  | errorString (s : String)
  | EscapeError (s : String)
  | InvalidHostError (s : String)
  | Errorf (format arg : String)
  | urlError (Op URL : String) (Err : GoError)
  deriving DecidableEq, Repr

deriving instance DecidableEq for Except

/-! ## `strings` -/

namespace strings

/-- Go `strings.HasPrefix`. -/
def HasPrefix (s pre : List Char) : Bool := pre.isPrefixOf s

/-- Go `strings.HasSuffix`. -/
def HasSuffix (s suf : List Char) : Bool := suf.reverse.isPrefixOf s.reverse

/-- Go `strings.Cut` for a one-byte separator: the text before the first
separator, the text after it, and whether the separator was found. -/
def Cut (sep : Char) : List Char → List Char × List Char × Bool
  | [] => ([], [], false)
  | c :: s =>
    if c = sep then ([], s, true)
    else ((c :: (Cut sep s).1), (Cut sep s).2.1, (Cut sep s).2.2)

/-- Go `strings.Contains` for a one-byte substring. -/
def Contains (s : List Char) (c : Char) : Bool := s.contains c

/-- Go `strings.Count` for a one-byte substring. -/
def Count (s : List Char) (c : Char) : Nat := s.count c

/-- Go `strings.LastIndex` for a one-byte substring; `none` is Go's `-1`. -/
def LastIndex : List Char → Char → Option Nat
  | [], _ => none
  | x :: s, c =>
    match LastIndex s c with
    | some i => some (i + 1)
    | none => if x = c then some 0 else none

/-- Go `strings.Index`; `none` is Go's `-1`. -/
def Index : List Char → List Char → Option Nat
  | [], sub => if sub = [] then some 0 else none
  | x :: s, sub =>
    if sub.isPrefixOf (x :: s) then some 0 else (Index s sub).map (· + 1)

/-- Lower-case one ASCII byte. -/
def toLowerByte (c : Char) : Char :=
  if 'A'.toNat ≤ c.toNat ∧ c.toNat ≤ 'Z'.toNat then Char.ofNat (c.toNat + 32) else c

/-- Go `strings.ToLower` on ASCII text (it is applied to URL schemes only,
which consist of ASCII letters, digits, `+`, `-` and `.`). -/
def ToLower (s : List Char) : List Char := s.map toLowerByte

/-- Go `strings.TrimSuffix` for a one-byte suffix. -/
def TrimSuffix (s : List Char) (c : Char) : List Char :=
  if s.getLast? = some c then s.dropLast else s

end strings

/-! ## `path` -/

namespace path

/-- The inner loop of the `..` case of `path.Clean`,
`for out.w > dotdot && out.index(out.w) != '/' { out.w-- }`.
The buffer holds the bytes written so far, most recent first; `last` is
`out.index(out.w)`, the byte that the preceding `out.w--` dropped. -/
def backtrackLoop (dotdot : Nat) : Char → List Char → List Char
  | _, [] => []
  | last, c :: out =>
    if (c :: out).length > dotdot && last != '/' then backtrackLoop dotdot c out
    else c :: out

/-- The statements `out.w--; for out.w > dotdot && out.index(out.w) != '/' { out.w-- }`. -/
def backtrack (dotdot : Nat) : List Char → List Char
  | [] => []
  | c :: out => backtrackLoop dotdot c out

/-- The main loop `for r < n { switch ... }` of `path.Clean`.

* `rest` is the unread part `path[r:]` of the input;
* `out` is the `lazybuf`: the bytes written so far (`out.w` of them), most
  recent first, so `out.append(c)` is `c :: out` and `out.w` is `out.length`;
* `dotdot` is the index in the buffer where `..` must stop.

Every iteration reads at least one byte, so `path.length` iterations are
enough (`cleanLoop_fuel`); the first argument bounds their number. -/
def cleanLoop (rooted : Bool) : Nat → List Char → List Char → Nat → List Char
  | 0, _, out, _ => out
  | fuel + 1, rest, out, dotdot =>
    match rest with
    | [] => out
    | c :: t =>
      if c = '/' then
        -- empty path element
        cleanLoop rooted fuel t out dotdot
      else if c = '.' ∧ (t = [] ∨ t.head? = some '/') then
        -- . element
        cleanLoop rooted fuel t out dotdot
      else if c = '.' ∧ t.head? = some '.' ∧ (t.tail = [] ∨ t.tail.head? = some '/') then
        -- .. element: remove to last /
        if out.length > dotdot then
          -- can backtrack
          cleanLoop rooted fuel t.tail (backtrack dotdot out) dotdot
        else if !rooted then
          -- cannot backtrack, but not rooted, so append .. element
          let out1 := if out.length > 0 then '/' :: out else out
          let out2 := '.' :: '.' :: out1
          cleanLoop rooted fuel t.tail out2 out2.length
        else
          cleanLoop rooted fuel t.tail out dotdot
      else
        -- real path element: add slash if needed, then copy the element
        let out1 :=
          if rooted && out.length != 1 || !rooted && out.length != 0 then '/' :: out else out
        cleanLoop rooted fuel (rest.dropWhile (· != '/'))
          ((rest.takeWhile (· != '/')).reverse ++ out1) dotdot

/-- Go `path.Clean` on the bytes of a path. -/
def cleanBytes (p : List Char) : List Char :=
  if p = [] then ['.']
  else
    let out :=
      if p.head? = some '/' then cleanLoop true p.length (p.drop 1) ['/'] 1
      else cleanLoop false p.length p [] 0
    -- Turn empty string into "."
    if out.length = 0 then ['.'] else out.reverse

/-- Go `path.Clean`. -/
def Clean (path : String) : String := String.mk (cleanBytes path.data)

/-- The loop of `path.Join` that concatenates the elements into `buf`,
skipping leading empty elements and separating the rest by `/`. -/
def joinBuf : List String → List Char → List Char
  | [], buf => buf
  | e :: es, buf =>
    if buf.length > 0 || e != "" then
      joinBuf es ((if buf.length > 0 then buf ++ ['/'] else buf) ++ e.data)
    else joinBuf es buf

/-- Go `path.Join`. -/
def Join (elem : List String) : String :=
  if (elem.map String.length).sum = 0 then ""
  else Clean (String.mk (joinBuf elem []))

end path

/-! ## `net/url` -/

namespace url

/-- The escaping modes of `net/url`. -/
inductive encoding where
  | encodePath
  | encodePathSegment
  | encodeHost
  | encodeZone
  | encodeUserPassword
  | encodeQueryComponent
  | encodeFragment
  deriving DecidableEq, Repr

open encoding

/-- Go `url.Userinfo`. -/
structure Userinfo where
  username : String
  password : String
  passwordSet : Bool
  deriving DecidableEq, Repr

/-- Go `url.URL`; the default of every field is Go's zero value. -/
structure URL where
  Scheme : String := ""
  Opaque : String := ""
  User : Option Userinfo := none
  Host : String := ""
  Path : String := ""
  RawPath : String := ""
  OmitHost : Bool := false
  ForceQuery : Bool := false
  RawQuery : String := ""
  Fragment : String := ""
  RawFragment : String := ""
  deriving DecidableEq, Repr

/-- An ASCII letter. -/
def isAlpha (c : Char) : Bool :=
  ('a'.toNat ≤ c.toNat ∧ c.toNat ≤ 'z'.toNat) ∨ ('A'.toNat ≤ c.toNat ∧ c.toNat ≤ 'Z'.toNat)

/-- An ASCII digit. -/
def isDigit (c : Char) : Bool := '0'.toNat ≤ c.toNat ∧ c.toNat ≤ '9'.toNat

/-- Go `ishex`. -/
def ishex (c : Char) : Bool :=
  isDigit c ∨ ('a'.toNat ≤ c.toNat ∧ c.toNat ≤ 'f'.toNat) ∨
    ('A'.toNat ≤ c.toNat ∧ c.toNat ≤ 'F'.toNat)

/-- Go `unhex`. -/
def unhex (c : Char) : Nat :=
  if isDigit c then c.toNat - '0'.toNat
  else if 'a'.toNat ≤ c.toNat ∧ c.toNat ≤ 'f'.toNat then c.toNat - 'a'.toNat + 10
  else if 'A'.toNat ≤ c.toNat ∧ c.toNat ≤ 'F'.toNat then c.toNat - 'A'.toNat + 10
  else 0

/-- The byte `'` (0x27). -/
def apostrophe : Char := Char.ofNat 39

/-- The byte `"` (0x22). -/
def dquote : Char := Char.ofNat 34

/-- The reserved characters of RFC 3986 §2.2 that `shouldEscape` treats by mode. -/
def reserved : List Char := ['$', '&', '+', ',', '/', ':', ';', '=', '?', '@']

/-- Go `shouldEscape`: whether the byte `c` is escaped as `%XX` in `mode`. -/
def shouldEscape (c : Char) (mode : encoding) : Bool :=
  if isAlpha c ∨ isDigit c then false
  else if (mode = encodeHost ∨ mode = encodeZone) ∧
      c ∈ ['!', '$', '&', apostrophe, '(', ')', '*', '+', ',', ';', '=', ':', '[', ']',
        '<', '>', dquote] then
    false
  else if c ∈ ['-', '_', '.', '~'] then false
  else if c ∈ reserved ∧ mode = encodePath then c = '?'
  else if c ∈ reserved ∧ mode = encodePathSegment then
    c = '/' ∨ c = ';' ∨ c = ',' ∨ c = '?'
  else if c ∈ reserved ∧ mode = encodeUserPassword then
    c = '@' ∨ c = '/' ∨ c = '?' ∨ c = ':'
  else if c ∈ reserved ∧ mode = encodeQueryComponent then true
  else if c ∈ reserved ∧ mode = encodeFragment then false
  else if mode = encodeFragment ∧ c ∈ ['!', '(', ')', '*'] then false
  else true

/-- The first loop of Go `unescape`: check that every `%` starts a well-formed
escape that the mode allows; `none` when the string passes. -/
def unescapeCheck (mode : encoding) : List Char → Option GoError
  | [] => none
  | '%' :: a :: b :: s =>
    if !ishex a || !ishex b then some (.EscapeError (String.mk ['%', a, b]))
    else if mode = encodeHost ∧ unhex a < 8 ∧ ['%', a, b] ≠ ['%', '2', '5'] then
      some (.EscapeError (String.mk ['%', a, b]))
    else if mode = encodeZone ∧ ['%', a, b] ≠ ['%', '2', '5'] ∧
        unhex a * 16 + unhex b ≠ ' '.toNat ∧
        shouldEscape (Char.ofNat (unhex a * 16 + unhex b)) encodeHost then
      some (.EscapeError (String.mk ['%', a, b]))
    else unescapeCheck mode s
  | '%' :: s => some (.EscapeError (String.mk ('%' :: s)))
  | c :: s =>
    if (mode = encodeHost ∨ mode = encodeZone) ∧ c.toNat < 128 ∧ shouldEscape c encodeHost then
      some (.InvalidHostError (String.mk [c]))
    else unescapeCheck mode s

/-- The second loop of Go `unescape`: replace every `%XX` by its byte, and `+`
by a space in query components.  (Go returns the input itself when it holds
neither; this loop then rebuilds the same string.) -/
def unescapeBuild (mode : encoding) : List Char → List Char
  | [] => []
  | '%' :: a :: b :: s => Char.ofNat (unhex a * 16 + unhex b) :: unescapeBuild mode s
  | '+' :: s => (if mode = encodeQueryComponent then ' ' else '+') :: unescapeBuild mode s
  | c :: s => c :: unescapeBuild mode s

/-- Go `unescape`. -/
def unescape (s : List Char) (mode : encoding) : Except GoError (List Char) :=
  match unescapeCheck mode s with
  | some err => .error err
  | none => .ok (unescapeBuild mode s)

/-- Go `upperhex[n]`. -/
def upperhex (n : Nat) : Char := "0123456789ABCDEF".data.getD n '0'

/-- The escaped form of one byte in Go `escape`. -/
def escapeByte (mode : encoding) (c : Char) : List Char :=
  if c = ' ' ∧ mode = encodeQueryComponent then ['+']
  else if shouldEscape c mode then ['%', upperhex (c.toNat / 16 % 16), upperhex (c.toNat % 16)]
  else [c]

/-- Go `escape`. -/
def escape : List Char → encoding → List Char
  | [], _ => []
  | c :: s, mode => escapeByte mode c ++ escape s mode

/-- Go `validEncoded`. -/
def validEncoded (s : List Char) (mode : encoding) : Bool :=
  s.all fun c =>
    if c ∈ ['!', '$', '&', apostrophe, '(', ')', '*', '+', ',', ';', '=', ':', '@'] then true
    else if c ∈ ['[', ']'] then true
    else if c = '%' then true
    else !shouldEscape c mode

/-- Go `stringContainsCTLByte`. -/
def stringContainsCTLByte (s : List Char) : Bool :=
  s.any fun b => b.toNat < ' '.toNat || b.toNat = 127

/-- The loop of Go `getScheme`; `i` is the index of the next byte and `s` the
unread part of `rawURL`. -/
def getSchemeLoop (rawURL : List Char) : Nat → List Char → Except GoError (List Char × List Char)
  | _, [] => .ok ([], rawURL)
  | i, c :: s =>
    if isAlpha c then getSchemeLoop rawURL (i + 1) s
    else if isDigit c ∨ c = '+' ∨ c = '-' ∨ c = '.' then
      if i = 0 then .ok ([], rawURL) else getSchemeLoop rawURL (i + 1) s
    else if c = ':' then
      if i = 0 then .error (.errorString "missing protocol scheme")
      else .ok (rawURL.take i, s)
    else
      -- an invalid character, so there is no valid scheme
      .ok ([], rawURL)

/-- Go `getScheme`: the scheme and the rest of the URL after `scheme:`. -/
def getScheme (rawURL : List Char) : Except GoError (List Char × List Char) :=
  getSchemeLoop rawURL 0 rawURL

/-- Go `validOptionalPort`. -/
def validOptionalPort : List Char → Bool
  | [] => true
  | c :: port => c = ':' && port.all isDigit

/-- Go `validUserinfo`. -/
def validUserinfo (s : List Char) : Bool :=
  s.all fun r =>
    isAlpha r || isDigit r ||
      r ∈ ['-', '.', '_', ':', '~', '!', '$', '&', apostrophe, '(', ')', '*', '+', ',', ';',
        '=', '%', '@']

/-- Go `parseHost`. -/
def parseHost (host : List Char) : Except GoError (List Char) :=
  if strings.HasPrefix host ['['] then
    -- an IP literal, such as "[fe80::1]", "[fe80::1%25en0]", "[fe80::1]:80"
    match strings.LastIndex host ']' with
    | none => .error (.errorString "missing ']' in host")
    | some i =>
      let colonPort := host.drop (i + 1)
      if !validOptionalPort colonPort then
        .error (.Errorf "invalid port %q after host" (String.mk colonPort))
      else
        match strings.Index (host.take i) ['%', '2', '5'] with
        | some zone =>
          match unescape (host.take zone) encodeHost with
          | .error err => .error err
          | .ok host1 =>
            match unescape ((host.take i).drop zone) encodeZone with
            | .error err => .error err
            | .ok host2 =>
              match unescape (host.drop i) encodeHost with
              | .error err => .error err
              | .ok host3 => .ok (host1 ++ host2 ++ host3)
        | none => unescape host encodeHost
  else
    match strings.LastIndex host ':' with
    | some i =>
      let colonPort := host.drop i
      if !validOptionalPort colonPort then
        .error (.Errorf "invalid port %q after host" (String.mk colonPort))
      else unescape host encodeHost
    | none => unescape host encodeHost

/-- The user-information part of Go `parseAuthority`. -/
def parseUserinfo (userinfo : List Char) : Except GoError Userinfo :=
  if !validUserinfo userinfo then .error (.errorString "net/url: invalid userinfo")
  else if !strings.Contains userinfo ':' then
    match unescape userinfo encodeUserPassword with
    | .error err => .error err
    | .ok name => .ok { username := String.mk name, password := "", passwordSet := false }
  else
    match unescape (strings.Cut ':' userinfo).1 encodeUserPassword with
    | .error err => .error err
    | .ok username =>
      match unescape (strings.Cut ':' userinfo).2.1 encodeUserPassword with
      | .error err => .error err
      | .ok password =>
        .ok { username := String.mk username, password := String.mk password,
              passwordSet := true }

/-- Go `parseAuthority`: the user information and the host of `[user[:pass]@]host`. -/
def parseAuthority (authority : List Char) : Except GoError (Option Userinfo × List Char) :=
  match strings.LastIndex authority '@' with
  | none =>
    match parseHost authority with
    | .error err => .error err
    | .ok host => .ok (none, host)
  | some i =>
    match parseHost (authority.drop (i + 1)) with
    | .error err => .error err
    | .ok host =>
      match parseUserinfo (authority.take i) with
      | .error err => .error err
      | .ok user => .ok (some user, host)

/-- Go `(*URL).setPath`: set `Path` and, when the default escaping of the path
differs from the text that was parsed, `RawPath`. -/
def URL.setPath (u : URL) (p : List Char) : Except GoError URL :=
  match unescape p encodePath with
  | .error err => .error err
  | .ok path =>
    .ok { u with
      Path := String.mk path
      RawPath := if p = escape path encodePath then "" else String.mk p }

/-- Go `(*URL).setFragment`. -/
def URL.setFragment (u : URL) (f : List Char) : Except GoError URL :=
  match unescape f encodeFragment with
  | .error err => .error err
  | .ok frag =>
    .ok { u with
      Fragment := String.mk frag
      RawFragment := if f = escape frag encodeFragment then "" else String.mk f }

/-- The end of Go `parse`, from the authority on: `u` holds the scheme and the
query, `rest` is what is left to parse. -/
def parseHier (u : URL) (rest : List Char) (viaRequest : Bool) : Except GoError URL :=
  if (u.Scheme ≠ "" ∨ (!viaRequest ∧ !strings.HasPrefix rest ['/', '/', '/'])) ∧
      strings.HasPrefix rest ['/', '/'] then
    let authority := (strings.Cut '/' (rest.drop 2)).1
    let rest1 := (rest.drop 2).drop authority.length
    match parseAuthority authority with
    | .error err => .error err
    | .ok (user, host) => URL.setPath { u with User := user, Host := String.mk host } rest1
  else if u.Scheme ≠ "" ∧ strings.HasPrefix rest ['/'] then
    -- OmitHost is set to true when rawURL has an empty host (authority)
    URL.setPath { u with OmitHost := true } rest
  else URL.setPath u rest

/-- The part of Go `parse` that follows `getScheme`: `scheme` is the scheme
found and `rest0` the text after it. -/
def parseAfterScheme (scheme rest0 : List Char) (viaRequest : Bool) : Except GoError URL :=
  let forceQuery : Bool := strings.HasSuffix rest0 ['?'] ∧ strings.Count rest0 '?' = 1
  let rest := if forceQuery then rest0.dropLast else (strings.Cut '?' rest0).1
  let rawQuery := if forceQuery then [] else (strings.Cut '?' rest0).2.1
  let u : URL :=
    { Scheme := String.mk (strings.ToLower scheme), ForceQuery := forceQuery,
      RawQuery := String.mk rawQuery }
  if !strings.HasPrefix rest ['/'] then
    if u.Scheme ≠ "" then
      -- rootless paths are opaque
      .ok { u with Opaque := String.mk rest }
    else if viaRequest then .error (.errorString "invalid URI for request")
    else if strings.Contains (strings.Cut '/' rest).1 ':' then
      .error (.errorString "first path segment in URL cannot contain colon")
    else parseHier u rest viaRequest
  else parseHier u rest viaRequest

/-- Go `parse`: parse a URL from a string in one of two contexts.  If
`viaRequest` is true, the URL is assumed to have arrived via an HTTP request,
in which case only absolute URLs or path-absolute relative URLs are allowed. -/
def parse (rawURL : List Char) (viaRequest : Bool) : Except GoError URL :=
  if stringContainsCTLByte rawURL then
    .error (.errorString "net/url: invalid control character in URL")
  else if rawURL = [] ∧ viaRequest then .error (.errorString "empty url")
  else if rawURL = ['*'] then .ok { Path := "*" }
  else
    -- Split off possible leading "http:", "mailto:", etc.
    match getScheme rawURL with
    | .error err => .error err
    | .ok (scheme, rest0) => parseAfterScheme scheme rest0 viaRequest

/-- Go `url.Parse`: a URL, absolute or relative, with an optional fragment. -/
def Parse (rawURL : String) : Except GoError URL :=
  -- Cut off #frag
  let u := (strings.Cut '#' rawURL.data).1
  let frag := (strings.Cut '#' rawURL.data).2.1
  match parse u false with
  | .error err => .error (.urlError "parse" (String.mk u) err)
  | .ok url =>
    if frag = [] then .ok url
    else
      match URL.setFragment url frag with
      | .error err => .error (.urlError "parse" rawURL err)
      | .ok url1 => .ok url1

/-- Go `url.ParseRequestURI`: a URL as received in an HTTP request, which is
interpreted only as an absolute URI or an absolute path; the string is assumed
not to have a #fragment suffix. -/
def ParseRequestURI (rawURL : String) : Except GoError URL :=
  match parse rawURL.data true with
  | .error err => .error (.urlError "parse" rawURL err)
  | .ok url => .ok url

/-- Go `(*Userinfo).String`. -/
def Userinfo.String (u : Userinfo) : List Char :=
  escape u.username.data encodeUserPassword ++
    (if u.passwordSet then ':' :: escape u.password.data encodeUserPassword else [])

/-- The test `p, err := unescape(raw, mode); err == nil && p == want` of
`EscapedPath` and `EscapedFragment`. -/
def unescapesTo (raw : List Char) (mode : encoding) (want : List Char) : Bool :=
  match unescape raw mode with
  | .ok p => p = want
  | .error _ => false

/-- Go `(*URL).EscapedPath`. -/
def URL.EscapedPath (u : URL) : List Char :=
  if u.RawPath ≠ "" ∧ validEncoded u.RawPath.data encodePath ∧
      unescapesTo u.RawPath.data encodePath u.Path.data then
    u.RawPath.data
  else if u.Path = "*" then ['*']
  else escape u.Path.data encodePath

/-- Go `(*URL).EscapedFragment`. -/
def URL.EscapedFragment (u : URL) : List Char :=
  if u.RawFragment ≠ "" ∧ validEncoded u.RawFragment.data encodeFragment ∧
      unescapesTo u.RawFragment.data encodeFragment u.Fragment.data then
    u.RawFragment.data
  else escape u.Fragment.data encodeFragment

/-- The part of Go `(*URL).String` that writes `scheme:` and, for a URL that is
not opaque, the authority. -/
def URL.stringAuthority (u : URL) : List Char :=
  (if u.Scheme ≠ "" then u.Scheme.data ++ [':'] else []) ++
    (if u.Scheme ≠ "" ∨ u.Host ≠ "" ∨ u.User ≠ none then
      if u.OmitHost ∧ u.Host = "" ∧ u.User = none then []
      else
        (if u.Host ≠ "" ∨ u.Path ≠ "" ∨ u.User ≠ none then ['/', '/'] else []) ++
          (match u.User with
            | some ui => Userinfo.String ui ++ ['@']
            | none => []) ++
          (if u.Host ≠ "" then escape u.Host.data encodeHost else [])
    else [])

/-- Go `(*URL).String`: reassemble the URL into a valid URL string. -/
def URL.String (u : URL) : String :=
  String.mk
    ((if u.Opaque ≠ "" then
        (if u.Scheme ≠ "" then u.Scheme.data ++ [':'] else []) ++ u.Opaque.data
      else
        let buf := URL.stringAuthority u
        let path := URL.EscapedPath u
        let buf1 := if path ≠ [] ∧ path.head? ≠ some '/' ∧ u.Host ≠ "" then buf ++ ['/'] else buf
        let buf2 :=
          if buf1.length = 0 ∧ strings.Contains (strings.Cut '/' path).1 ':' then
            buf1 ++ ['.', '/']
          else buf1
        buf2 ++ path) ++
      (if u.ForceQuery ∨ u.RawQuery ≠ "" then '?' :: u.RawQuery.data else []) ++
      (if u.Fragment ≠ "" then '#' :: URL.EscapedFragment u else []))

end url

/-! ## `net/http` -/

namespace http

/-- A `*http.Client`: `none` is `nil`, `some a` the client stored at address `a`.
Two pointers are the same instance exactly when they are equal. -/
abbrev ClientRef := Option Nat

/-- Go `http.DefaultClient`, the shared default client. -/
def DefaultClient : ClientRef := some 0

/-- Go `http.Header`, a non-nil `map[string][]string`: the values stored under
each key, `none` for a key that is absent. -/
abbrev Header := String → Option (List String)

/-- Go `make(Header)`: the empty header map. -/
def Header.empty : Header := fun _ => none

/-- The byte 0x60 (grave accent). -/
def grave : Char := Char.ofNat 96

/-- Go `validHeaderFieldByte`: the bytes of an RFC 7230 token. -/
def validHeaderFieldByte (c : Char) : Bool :=
  url.isAlpha c || url.isDigit c ||
    c ∈ ['!', '#', '$', '%', '&', url.apostrophe, '*', '+', '-', '.', '^', '_', grave, '|', '~']

/-- The case conversion of Go `canonicalMIMEHeaderKey`: first letter upper
case and upper case after each dash; `upper` says whether the next letter is
to be upper case. -/
def canonicalCase : Bool → List Char → List Char
  | _, [] => []
  | upper, c :: s =>
    let c1 :=
      if upper ∧ 'a'.toNat ≤ c.toNat ∧ c.toNat ≤ 'z'.toNat then Char.ofNat (c.toNat - 32)
      else if ¬ upper ∧ 'A'.toNat ≤ c.toNat ∧ c.toNat ≤ 'Z'.toNat then Char.ofNat (c.toNat + 32)
      else c
    c1 :: canonicalCase (c1 = '-') s

/-- Go `textproto.CanonicalMIMEHeaderKey`: a key made of token bytes is put in
canonical case, any other key is returned unchanged. -/
def CanonicalMIMEHeaderKey (s : String) : String :=
  if s.data.all validHeaderFieldByte then String.mk (canonicalCase true s.data) else s

/-- Go `Header.Set`: set the entries of `key` to the single element `value`,
replacing any existing values. -/
def Header.Set (h : Header) (key value : String) : Header :=
  fun k => if k = CanonicalMIMEHeaderKey key then some [value] else h k

/-- The fields of Go `http.Request` that `NewRequest` derives from its
arguments; `β` is the type of request bodies (`io.Reader`). -/
structure Request (β : Type) where
  Method : String
  URL : url.URL
  Header : Header
  Body : Option β
  Host : String

/-- Go `validMethod`: a non-empty token (the token bytes are those of
`validHeaderFieldByte`). -/
def validMethod (method : String) : Bool :=
  method.data.length > 0 && method.data.all validHeaderFieldByte

/-- Go `removeEmptyPort`: `host:` becomes `host`. -/
def removeEmptyPort (host : List Char) : List Char :=
  let hasPort : Bool :=
    match strings.LastIndex host ':', strings.LastIndex host ']' with
    | some i, some j => i > j
    | some _, none => true
    | none, _ => false
  if hasPort then strings.TrimSuffix host ':' else host

/-- Go `http.NewRequest`. -/
def NewRequest {β : Type} (method urlStr : String) (body : Option β) :
    Except GoError (Request β) :=
  let method := if method = "" then "GET" else method
  if !validMethod method then .error (.Errorf "net/http: invalid method %q" method)
  else
    match url.Parse urlStr with
    | .error err => .error err
    | .ok u =>
      -- The host's colon:port should be normalized.
      let host := String.mk (removeEmptyPort u.Host.data)
      .ok { Method := method, URL := { u with Host := host }, Header := Header.empty,
            Body := body, Host := host }

/-- The two ways in which `Client.do` sends a request: `ctxhttp.Do(ctx, client, req)`
and `client.Do(req)`.  `κ` is the type of contexts, `β` of request bodies and
`ρ` of what sending returns (Go: `(*http.Response, error)`). -/
structure Transport (κ β ρ : Type) where
  ctxhttpDo : κ → ClientRef → Request β → ρ
  clientDo : ClientRef → Request β → ρ

end http

/-! ## `linebot/client.go` -/

namespace linebot

/-- APIEndpoint constants. -/
def APIEndpointBase : String := "https://api.line.me"

def APIEndpointPushMessage : String := "/v2/bot/message/push"
def APIEndpointReplyMessage : String := "/v2/bot/message/reply"
def APIEndpointMulticast : String := "/v2/bot/message/multicast"
def APIEndpointGetMessageContent : String := "/v2/bot/message/%s/content"
def APIEndpointLeaveGroup : String := "/v2/bot/group/%s/leave"
def APIEndpointLeaveRoom : String := "/v2/bot/room/%s/leave"
def APIEndpointGetProfile : String := "/v2/bot/profile/%s"

/-- Client type. -/
structure Client where
  ChannelSecret : String
  ChannelToken : String
  /-- A `*url.URL`; default APIEndpointBase. -/
  EndpointBase : Option url.URL
  /-- A `*http.Client`; default `http.DefaultClient`. -/
  HttpClient : http.ClientRef
  deriving DecidableEq, Repr

/-- ClientOption type, `func(*Client) error`.  An option receives the client
under construction, which it may modify, and returns an error or `nil`.  Being
an arbitrary Go function it may also act on the rest of the program state,
which is a value of type `σ`. -/
abbrev ClientOption (σ : Type) := Client → σ → Option GoError × Client × σ

/-- The loop `for _, option := range options` of `New`: apply the options in
order and stop at the first one that returns an error. -/
def applyOptions {σ : Type} : List (ClientOption σ) → Client → σ → Except GoError Client × σ
  | [], c, w => (.ok c, w)
  | option :: options, c, w =>
    match option c w with
    | (some err, _, w1) => (.error err, w1)
    | (none, c1, w1) => applyOptions options c1 w1

/-- New returns a new bot client instance. -/
def New {σ : Type} (channelSecret channelToken : String) (options : List (ClientOption σ))
    (w : σ) : Except GoError Client × σ :=
  if channelSecret = "" then (.error (.errorString "missing channel secret"), w)
  else if channelToken = "" then (.error (.errorString "missing channel access token"), w)
  else
    match applyOptions options
        { ChannelSecret := channelSecret, ChannelToken := channelToken,
          EndpointBase := none, HttpClient := http.DefaultClient } w with
    | (.error err, w1) => (.error err, w1)
    | (.ok c, w1) =>
      match c.EndpointBase with
      | none =>
        match url.ParseRequestURI APIEndpointBase with
        | .error err => (.error err, w1)
        | .ok u => (.ok { c with EndpointBase := some u }, w1)
      | some _ => (.ok c, w1)

/-- WithHTTPClient function. -/
def WithHTTPClient {σ : Type} (c : http.ClientRef) : ClientOption σ :=
  fun client w => (none, { client with HttpClient := c }, w)

/-- WithEndpointBase function. -/
def WithEndpointBase {σ : Type} (endpointBase : String) : ClientOption σ :=
  fun client w =>
    match url.ParseRequestURI endpointBase with
    | .error err => (some err, client, w)
    | .ok u => (none, { client with EndpointBase := some u }, w)

/-- The method `url`; `none` is the panic of `*client.EndpointBase` on a nil
pointer. -/
def Client.url (client : Client) (endpoint : String) : Option String :=
  match client.EndpointBase with
  | none => none
  | some u => some (url.URL.String { u with Path := path.Join [u.Path, endpoint] })

/-- The method `do`; `version` is the package constant `version`, and `ctx` an
interface value that may be `nil`. -/
def Client.do {κ β ρ : Type} (version : String) (T : http.Transport κ β ρ) (client : Client)
    (ctx : Option κ) (req : http.Request β) : ρ :=
  let req1 := { req with
    Header := req.Header.Set "Authorization" ("Bearer " ++ client.ChannelToken) }
  let req2 := { req1 with Header := req1.Header.Set "User-Agent" ("LINE-BotSDK-Go/" ++ version) }
  match ctx with
  | some ctx => T.ctxhttpDo ctx client.HttpClient req2
  | none => T.clientDo client.HttpClient req2

/-- The method `get`.  The result is `none` when the call panics, an error when
the request cannot be built, and otherwise what the transport returns. -/
def Client.get {κ β ρ : Type} (version : String) (T : http.Transport κ β ρ) (client : Client)
    (ctx : Option κ) (endpoint : String) : Option (Except GoError ρ) :=
  match client.url endpoint with
  | none => none
  | some urlStr =>
    match http.NewRequest "GET" urlStr none with
    | .error err => some (.error err)
    | .ok req => some (.ok (client.do version T ctx req))

/-- The method `post` (its `log.Println(req)` writes to the log only). -/
def Client.post {κ β ρ : Type} (version : String) (T : http.Transport κ β ρ) (client : Client)
    (ctx : Option κ) (endpoint : String) (body : Option β) : Option (Except GoError ρ) :=
  match client.url endpoint with
  | none => none
  | some urlStr =>
    match http.NewRequest "POST" urlStr body with
    | .error err => some (.error err)
    | .ok req =>
      let req1 := { req with
        Header := req.Header.Set "Content-Type" "application/json; charset=UTF-8" }
      some (.ok (client.do version T ctx req1))

end linebot

/-! ## Vocabulary of the statements about `path` -/

namespace path

/-- The elements of a path: the pieces between its `/` separators. -/
def splitSlash : List Char → List (List Char)
  | [] => [[]]
  | c :: s =>
    if c = '/' then [] :: splitSlash s
    else
      match splitSlash s with
      | e :: es => (c :: e) :: es
      | [] => [[c]]

/-- The `default` case of the loop of `path.Clean`. -/
def pushSeg (rooted : Bool) (out : List Char) (e : List Char) : List Char :=
  e.reverse ++ (if rooted && out.length != 1 || !rooted && out.length != 0 then '/' :: out else out)

/-- What one iteration of the loop does with a whole element. -/
def step (rooted : Bool) (st : List Char × Nat) (e : List Char) : List Char × Nat :=
  if e = [] ∨ e = ['.'] then st
  else if e = ['.', '.'] then
    if st.1.length > st.2 then (backtrack st.2 st.1, st.2)
    else if !rooted then
      ('.' :: '.' :: (if st.1.length > 0 then '/' :: st.1 else st.1),
        ('.' :: '.' :: (if st.1.length > 0 then '/' :: st.1 else st.1)).length)
    else st
  else (pushSeg rooted st.1 e, st.2)

/-- The buffer and the `dotdot` index after the elements of `s` have been
read, one after the other. -/
def run (rooted : Bool) (st : List Char × Nat) (s : List Char) : List Char × Nat :=
  (splitSlash s).foldl (step rooted) st

/-- The buffer (most recent byte first) that holds `k` elements `..`. -/
def dots : Nat → List Char
  | 0 => []
  | k + 1 => '.' :: '.' :: (if (dots k).length > 0 then '/' :: dots k else dots k)

/-- The buffer before any real element is written. -/
def base (rooted : Bool) (k : Nat) : List Char := if rooted then ['/'] else dots k

/-- The buffer that holds `k` leading `..` elements and then the real elements
`segs` (most recent first). -/
def renderRev (rooted : Bool) (k : Nat) (segs : List (List Char)) : List Char :=
  segs.foldr (fun s out => pushSeg rooted out s) (base rooted k)

/-- The effect of one path element on the list of elements held in the buffer. -/
def astep (rooted : Bool) (A : Nat × List (List Char)) (e : List Char) :
    Nat × List (List Char) :=
  if e = [] ∨ e = ['.'] then A
  else if e = ['.', '.'] then
    match A.2 with
    | _ :: segs => (A.1, segs)
    | [] => if rooted then A else (A.1 + 1, [])
  else (A.1, e :: A.2)

/-- A real path element: not empty, not `.`, not `..`, and without `/`. -/
def RealElement (s : List Char) : Prop := s ≠ [] ∧ s ≠ ['.'] ∧ s ≠ ['.', '.'] ∧ '/' ∉ s

/-- The states of the element list that the loop can reach. -/
def Valid (rooted : Bool) (A : Nat × List (List Char)) : Prop :=
  (rooted = true → A.1 = 0) ∧ ∀ s ∈ A.2, RealElement s

/-- The end of `path.Clean`: an empty buffer stands for `.`. -/
def finish (out : List Char) : List Char := if out.length = 0 then ['.'] else out.reverse

/-- The element list that the elements `E` leave in an empty buffer. -/
def anorm (rooted : Bool) (E : List (List Char)) : Nat × List (List Char) :=
  E.foldl (astep rooted) (0, [])

/-- No two consecutive separators. -/
def NoDoubleSlash (l : List Char) : Prop := List.Chain' (fun a b => ¬ (a = '/' ∧ b = '/')) l

/-- The elements held in the buffer, oldest first. -/
def elemsOf (A : Nat × List (List Char)) : List (List Char) :=
  List.replicate A.1 ['.', '.'] ++ A.2.reverse

/-- The bytes of `path.Join` of two elements. -/
def joinBytes (a b : List Char) : List Char :=
  if a = [] then (if b = [] then [] else cleanBytes b) else cleanBytes (a ++ '/' :: b)

/-- Whether the path has an element `..`. -/
def hasDotDot (p : List Char) : Prop := ['.', '.'] ∈ splitSlash p

instance (p : List Char) : Decidable (hasDotDot p) :=
  inferInstanceAs (Decidable (['.', '.'] ∈ splitSlash p))

/-- An element other than the empty element and `.`. -/
def isSegment (s : List Char) : Bool := !(decide (s = []) || decide (s = ['.']))

/-- The segments of a path: its elements other than the empty element and `.`. -/
def segments (p : List Char) : List (List Char) := (splitSlash p).filter isSegment

/-- Append one segment to a path, with a separator unless the path is `/`. -/
def appendSeg (p s : List Char) : List Char :=
  if p = ['/'] then p ++ s else p ++ '/' :: s

end path

/-! ## Vocabulary of the statements about `net/url` -/

namespace url

/-- A lower-case ASCII letter. -/
def isLower (c : Char) : Bool := 'a'.toNat ≤ c.toNat ∧ c.toNat ≤ 'z'.toNat

/-- A byte of a plain host name: a letter, a digit, `.` or `-`. -/
def plainHostByte (c : Char) : Bool := isAlpha c || isDigit c || c = '.' || c = '-'

/-- A byte of a plain path: a letter, a digit, `/`, `.`, `-`, `_` or `~`. -/
def plainPathByte (c : Char) : Bool :=
  isAlpha c || isDigit c || c = '/' || c = '.' || c = '-' || c = '_' || c = '~'

/-- A byte that the parser and the serialiser copy unchanged wherever it
stands in a plain URL. -/
def Inert (c : Char) : Prop :=
  c ≠ '%' ∧ c ≠ '+' ∧ c ≠ '?' ∧ c ≠ '#' ∧ c ≠ '@' ∧ c ≠ '[' ∧ c ≠ ' ' ∧
    ¬ (c.toNat < ' '.toNat ∨ c.toNat = 127)

instance (c : Char) : Decidable (Inert c) := by
  unfold Inert
  exact inferInstance

/-- The host part `name` or `name:port` of a URL; an empty `port` stands for
no port. -/
def hostPort (name port : List Char) : List Char :=
  if port = [] then name else name ++ ':' :: port

/-- The text `scheme://name[:port][/path]` is a plain absolute URL when the
scheme is made of lower-case letters, the name is a non-empty plain host name,
the port is made of digits, and the path is empty or begins with `/` and is
made of plain path bytes. -/
def PlainURL (scheme name port path : List Char) : Prop :=
  scheme ≠ [] ∧ (∀ c ∈ scheme, isLower c = true) ∧
    name ≠ [] ∧ (∀ c ∈ name, plainHostByte c = true) ∧
    (∀ c ∈ port, isDigit c = true) ∧
    (path = [] ∨ path.head? = some '/') ∧ (∀ c ∈ path, plainPathByte c = true)

instance (scheme name port path : List Char) : Decidable (PlainURL scheme name port path) := by
  unfold PlainURL
  exact inferInstance

/-- The text of a plain absolute URL. -/
def plainText (scheme name port path : List Char) : String :=
  String.mk (scheme ++ ':' :: '/' :: '/' :: (hostPort name port ++ path))

/-- The URL value of a plain absolute URL. -/
def plainValue (scheme name port path : List Char) : URL :=
  { Scheme := String.mk scheme, Host := String.mk (hostPort name port), Path := String.mk path }

/-- A byte that may follow the first letter of a scheme. -/
def schemeByte (c : Char) : Prop :=
  isAlpha c = true ∨ isDigit c = true ∨ c = '+' ∨ c = '-' ∨ c = '.'

/-- Unescaping what `escapeByte` writes for `c` gives back `c`. -/
def StepOK (m1 m2 : encoding) (c : Char) : Prop :=
  ∀ t, unescapeCheck m2 (escapeByte m1 c ++ t) = unescapeCheck m2 t ∧
    unescapeBuild m2 (escapeByte m1 c ++ t) = c :: unescapeBuild m2 t

/-- In a bracketed host (an IP literal), every byte from the first `%` on, that
is the zone and what follows it, is ASCII. -/
def ZoneASCII (H : List Char) : Prop :=
  H.head? = some '[' → ∀ c ∈ H.dropWhile (fun c => c != '%'), c.toNat < 128

instance (H : List Char) : Decidable (ZoneASCII H) := by
  unfold ZoneASCII
  exact inferInstance

/-- The user information as `URL.String` writes it, with the `@` after it. -/
def userText (user : Option Userinfo) : List Char :=
  match user with
  | some ui => Userinfo.String ui ++ ['@']
  | none => []

/-- The query as `URL.String` writes it. -/
def queryText (forceQuery : Bool) (rawQuery : List Char) : List Char :=
  if forceQuery = true ∨ rawQuery ≠ [] then '?' :: rawQuery else []

end url

/-! ## Vocabulary of the statements about `linebot/client.go` -/

namespace http

/-- The transport that returns the request it is handed, whichever way it is
called: what `Client.get` and `Client.post` return through it is the request
they send. -/
def Transport.record (κ β : Type) : Transport κ β (Request β) :=
  { ctxhttpDo := fun _ _ req => req, clientDo := fun _ req => req }

/-- Send a request the way `Client.do` does: through `ctxhttp.Do` when there is
a context, through `client.Do` otherwise. -/
def Transport.send {κ β ρ : Type} (T : Transport κ β ρ) (ctx : Option κ) (c : ClientRef)
    (req : Request β) : ρ :=
  match ctx with
  | some ctx => T.ctxhttpDo ctx c req
  | none => T.clientDo c req

end http

namespace linebot

/-- A call of one of the two option constructors of the package. -/
inductive OptionCall where
  | WithHTTPClient (c : http.ClientRef)
  | WithEndpointBase (endpointBase : String)
  deriving DecidableEq, Repr

/-- The option that the call returns. -/
def OptionCall.toOption {σ : Type} : OptionCall → ClientOption σ
  | .WithHTTPClient c => linebot.WithHTTPClient c
  | .WithEndpointBase s => linebot.WithEndpointBase s

/-- The argument of a `WithHTTPClient` call. -/
def OptionCall.httpClient? : OptionCall → Option http.ClientRef
  | .WithHTTPClient c => some c
  | .WithEndpointBase _ => none

/-- The argument of a `WithEndpointBase` call. -/
def OptionCall.endpointBase? : OptionCall → Option String
  | .WithHTTPClient _ => none
  | .WithEndpointBase s => some s

/-- The client passed to the last `WithHTTPClient` of the list, or the default
client if there is none. -/
def lastHTTPClient (calls : List OptionCall) : http.ClientRef :=
  ((calls.filterMap OptionCall.httpClient?).getLast?).getD http.DefaultClient

/-- The string passed to the last `WithEndpointBase` of the list, or the
canonical API root if there is none. -/
def lastEndpointBase (calls : List OptionCall) : String :=
  ((calls.filterMap OptionCall.endpointBase?).getLast?).getD APIEndpointBase

/-- The client and program state after every option of the list has been
applied once, in the order of the list, whatever the options return. -/
def runOptions {σ : Type} (options : List (ClientOption σ)) (c : Client) (w : σ) : Client × σ :=
  options.foldl (fun s option => ((option s.1 s.2).2.1, (option s.1 s.2).2.2)) (c, w)

/-- The client that `New` starts from. -/
def newClient (channelSecret channelToken : String) : Client :=
  { ChannelSecret := channelSecret, ChannelToken := channelToken,
    EndpointBase := none, HttpClient := http.DefaultClient }

end linebot

/-! # Theorems -/

/-! ## `path.Clean` and `path.Join` -/

namespace path

theorem splitSlash_ne_nil (s : List Char) : splitSlash s ≠ [] := by
  induction s with
  | nil => simp [splitSlash]
  | cons c s ih =>
    unfold splitSlash
    split
    · simp
    · split <;> simp

theorem splitSlash_cons_slash (s : List Char) : splitSlash ('/' :: s) = [] :: splitSlash s := by
  simp [splitSlash]

theorem splitSlash_cons_of_ne (c : Char) (s : List Char) (hc : c ≠ '/') :
    splitSlash (c :: s) = (c :: (splitSlash s).headD []) :: (splitSlash s).tail := by
  have h := splitSlash_ne_nil s
  rw [splitSlash, if_neg hc]
  cases hs : splitSlash s with
  | nil => exact absurd hs h
  | cons e es => simp

theorem splitSlash_take_drop (s : List Char) :
    splitSlash s = s.takeWhile (· != '/') ::
      (match s.dropWhile (· != '/') with
        | [] => []
        | _ :: t => splitSlash t) := by
  induction s with
  | nil => simp [splitSlash]
  | cons c s ih =>
    by_cases hc : c = '/'
    · subst hc
      simp [splitSlash_cons_slash, List.takeWhile, List.dropWhile]
    · have hb : (c != '/') = true := by simp [hc]
      rw [splitSlash_cons_of_ne c s hc, ih]
      simp [List.takeWhile_cons, List.dropWhile_cons, hb]

theorem run_nil (rooted : Bool) (st : List Char × Nat) : run rooted st [] = st := by
  simp [run, splitSlash, step]

theorem run_cons_slash (rooted : Bool) (st : List Char × Nat) (t : List Char) :
    run rooted st ('/' :: t) = run rooted st t := by
  simp [run, splitSlash_cons_slash, step]

theorem run_take_drop (rooted : Bool) (st : List Char × Nat) (s : List Char) :
    run rooted st s =
      run rooted (step rooted st (s.takeWhile (· != '/'))) (s.dropWhile (· != '/')) := by
  conv_lhs => rw [run, splitSlash_take_drop]
  cases h : s.dropWhile (· != '/') with
  | nil => simp [run_nil]
  | cons d t =>
    have hd : d = '/' := by
      have := List.head_dropWhile_not (· != '/') s (by simp [h])
      simpa [h] using this
    subst hd
    simp [run, splitSlash_cons_slash, step]

theorem takeWhile_eq_nil_iff_sep (t : List Char) :
    t.takeWhile (· != '/') = [] ↔ (t = [] ∨ t.head? = some '/') := by
  cases t with
  | nil => simp
  | cons d t => by_cases hd : d = '/' <;> simp [List.takeWhile_cons, hd]

theorem dropWhile_of_sep (t : List Char) (h : t = [] ∨ t.head? = some '/') :
    t.dropWhile (· != '/') = t := by
  cases t with
  | nil => simp
  | cons d t =>
    have hd : d = '/' := by simpa using h
    simp [List.dropWhile_cons, hd]

theorem length_dropWhile_le (t : List Char) : (t.dropWhile (· != '/')).length ≤ t.length := by
  induction t with
  | nil => simp
  | cons d t ih =>
    rw [List.dropWhile_cons]
    split
    · simp; omega
    · simp

theorem cleanLoop_eq_run (rooted : Bool) :
    ∀ (fuel : Nat) (rest out : List Char) (dd : Nat), rest.length ≤ fuel →
      cleanLoop rooted fuel rest out dd = (run rooted (out, dd) rest).1 := by
  intro fuel
  induction fuel with
  | zero =>
    intro rest out dd h
    have : rest = [] := by simpa using h
    subst this
    simp [cleanLoop, run_nil]
  | succ fuel ih =>
    intro rest out dd h
    cases rest with
    | nil => simp [cleanLoop, run_nil]
    | cons c t =>
      have ht : t.length ≤ fuel := by simpa using h
      rw [cleanLoop]
      by_cases h1 : c = '/'
      · subst h1
        rw [if_pos rfl, run_cons_slash]
        exact ih t out dd ht
      · rw [if_neg h1]
        have hb : (c != '/') = true := by simp [h1]
        by_cases h2 : c = '.' ∧ (t = [] ∨ t.head? = some '/')
        · rw [if_pos h2, run_take_drop]
          obtain ⟨hc, hsep⟩ := h2
          subst hc
          have e1 : List.takeWhile (· != '/') ('.' :: t) = ['.'] := by
            rw [List.takeWhile_cons]; simp [(takeWhile_eq_nil_iff_sep t).2 hsep]
          have e2 : List.dropWhile (· != '/') ('.' :: t) = t := by
            rw [List.dropWhile_cons]; simp [dropWhile_of_sep t hsep]
          rw [e1, e2, ih t out dd ht]
          simp [step]
        · rw [if_neg h2]
          by_cases h3 : c = '.' ∧ t.head? = some '.' ∧ (t.tail = [] ∨ t.tail.head? = some '/')
          · rw [if_pos h3, run_take_drop]
            obtain ⟨hc, hd, hsep⟩ := h3
            subst hc
            cases t with
            | nil => simp at hd
            | cons d t2 =>
              have hd' : d = '.' := by simpa using hd
              subst hd'
              simp only [List.tail_cons] at hsep ⊢
              have ht2 : t2.length ≤ fuel := by simp at ht; omega
              have e1 : List.takeWhile (· != '/') ('.' :: '.' :: t2) = ['.', '.'] := by
                rw [List.takeWhile_cons, List.takeWhile_cons]
                simp [(takeWhile_eq_nil_iff_sep t2).2 hsep]
              have e2 : List.dropWhile (· != '/') ('.' :: '.' :: t2) = t2 := by
                rw [List.dropWhile_cons, List.dropWhile_cons]; simp [dropWhile_of_sep t2 hsep]
              rw [e1, e2]
              by_cases hw : out.length > dd
              · rw [if_pos hw, ih _ _ _ ht2]
                simp [step, hw]
              · rw [if_neg hw]
                cases rooted with
                | false =>
                  have := ih t2 ('.' :: '.' :: (if out.length > 0 then '/' :: out else out))
                    ('.' :: '.' :: (if out.length > 0 then '/' :: out else out)).length ht2
                  simpa [step, hw] using this
                | true =>
                  have := ih t2 out dd ht2
                  simpa [step, hw] using this
          · rw [if_neg h3, run_take_drop]
            have hlen : (List.dropWhile (· != '/') (c :: t)).length ≤ fuel := by
              rw [List.dropWhile_cons]
              simp only [hb, if_true]
              exact le_trans (length_dropWhile_le t) ht
            have hstep : step rooted (out, dd) (List.takeWhile (· != '/') (c :: t)) =
                (pushSeg rooted out (List.takeWhile (· != '/') (c :: t)), dd) := by
              have hne1 : List.takeWhile (· != '/') (c :: t) ≠ [] := by
                rw [List.takeWhile_cons]; simp [hb]
              have hne2 : List.takeWhile (· != '/') (c :: t) ≠ ['.'] := by
                rw [List.takeWhile_cons]
                simp only [hb, if_true]
                intro hh
                injection hh with hh1 hh2
                exact h2 ⟨hh1, (takeWhile_eq_nil_iff_sep t).1 hh2⟩
              have hne3 : List.takeWhile (· != '/') (c :: t) ≠ ['.', '.'] := by
                rw [List.takeWhile_cons]
                simp only [hb, if_true]
                intro hh
                injection hh with hh1 hh2
                cases t with
                | nil => simp at hh2
                | cons d t2 =>
                  rw [List.takeWhile_cons] at hh2
                  split at hh2
                  · injection hh2 with hh3 hh4
                    exact h3 ⟨hh1, by simp [hh3], by
                      simpa using (takeWhile_eq_nil_iff_sep t2).1 hh4⟩
                  · simp at hh2
              simp [step, hne1, hne2, hne3]
            rw [hstep, ih _ _ _ hlen]
            simp [pushSeg]

theorem backtrackLoop_pop (dd : Nat) :
    ∀ (l : List Char) (last : Char) (R : List Char), last ≠ '/' → (∀ c ∈ l, c ≠ '/') →
      dd ≤ R.length → backtrackLoop dd last (l ++ '/' :: R) = R := by
  intro l
  induction l with
  | nil =>
    intro last R hl _ hR
    have hcond : (decide (('/' :: R).length > dd) && (last != '/')) = true := by
      simp only [List.length_cons, Bool.and_eq_true, decide_eq_true_eq, bne_iff_ne]
      exact ⟨by omega, hl⟩
    simp only [List.nil_append]
    rw [backtrackLoop, if_pos hcond]
    cases R with
    | nil => rfl
    | cons c R => rw [backtrackLoop]; simp
  | cons c l ih =>
    intro last R hl hcl hR
    have hc : c ≠ '/' := hcl c (by simp)
    have h1 : (c :: (l ++ '/' :: R)).length > dd := by simp; omega
    simp only [List.cons_append]
    rw [backtrackLoop]
    simp only [h1, decide_True, Bool.true_and, bne_iff_ne, ne_eq, hl, not_false_eq_true, if_true]
    exact ih c R hc (fun x hx => hcl x (by simp [hx])) hR

theorem backtrackLoop_stop (dd : Nat) :
    ∀ (l : List Char) (last : Char) (R : List Char), last ≠ '/' → (∀ c ∈ l, c ≠ '/') →
      R.length = dd → backtrackLoop dd last (l ++ R) = R := by
  intro l
  induction l with
  | nil =>
    intro last R _ _ hR
    cases R with
    | nil => rfl
    | cons c R =>
      simp only [List.nil_append]
      rw [backtrackLoop, if_neg]
      simp only [Bool.and_eq_true, decide_eq_true_eq, not_and]
      intro h
      omega
  | cons c l ih =>
    intro last R hl hcl hR
    have hc : c ≠ '/' := hcl c (by simp)
    have h1 : (c :: (l ++ R)).length > dd := by simp; omega
    simp only [List.cons_append]
    rw [backtrackLoop]
    simp only [h1, decide_True, Bool.true_and, bne_iff_ne, ne_eq, hl, not_false_eq_true, if_true]
    exact ih c R hc (fun x hx => hcl x (by simp [hx])) hR

theorem backtrack_pushSeg (rooted : Bool) (dd : Nat) (R s : List Char) (hs : s ≠ [])
    (hslash : '/' ∉ s) (hR : dd ≤ R.length)
    (hdd : ¬ (rooted && R.length != 1 || !rooted && R.length != 0) = true → R.length = dd) :
    backtrack dd (pushSeg rooted R s) = R := by
  have hrev : s.reverse ≠ [] := by simpa using hs
  obtain ⟨c, l, hcl⟩ := List.exists_cons_of_ne_nil hrev
  have hmem : ∀ x ∈ c :: l, x ≠ '/' := by
    intro x hx h
    rw [← hcl] at hx
    exact hslash (by simpa [h] using hx)
  have hc : c ≠ '/' := hmem c (by simp)
  have hl : ∀ x ∈ l, x ≠ '/' := fun x hx => hmem x (by simp [hx])
  unfold pushSeg
  rw [hcl]
  by_cases hcond : (rooted && R.length != 1 || !rooted && R.length != 0) = true
  · rw [if_pos hcond]
    simp only [List.cons_append, backtrack]
    exact backtrackLoop_pop dd l c R hc hl hR
  · rw [if_neg hcond]
    simp only [List.cons_append, backtrack]
    exact backtrackLoop_stop dd l c R hc hl (hdd hcond)

theorem length_base_le_renderRev (rooted : Bool) (k : Nat) (segs : List (List Char)) :
    (base rooted k).length ≤ (renderRev rooted k segs).length := by
  induction segs with
  | nil => simp [renderRev]
  | cons s segs ih =>
    have : renderRev rooted k (s :: segs) = pushSeg rooted (renderRev rooted k segs) s := rfl
    rw [this, pushSeg]
    split <;> simp <;> omega

theorem renderRev_cons (rooted : Bool) (k : Nat) (s : List Char) (segs : List (List Char)) :
    renderRev rooted k (s :: segs) = pushSeg rooted (renderRev rooted k segs) s := rfl

theorem step_renderRev (rooted : Bool) (A : Nat × List (List Char)) (e : List Char)
    (hA : Valid rooted A) (he : '/' ∉ e) :
    step rooted (renderRev rooted A.1 A.2, (base rooted A.1).length) e =
        (renderRev rooted (astep rooted A e).1 (astep rooted A e).2,
          (base rooted (astep rooted A e).1).length) ∧
      Valid rooted (astep rooted A e) := by
  obtain ⟨k, segs⟩ := A
  obtain ⟨hk, hsegs⟩ := hA
  simp only at hk hsegs ⊢
  by_cases h1 : e = [] ∨ e = ['.']
  · simp only [step, astep, if_pos h1]
    exact ⟨trivial, hk, hsegs⟩
  · by_cases h2 : e = ['.', '.']
    · simp only [step, astep, if_neg h1, if_pos h2]
      cases segs with
      | cons s segs =>
        have hs := hsegs s (by simp)
        have hlen := length_base_le_renderRev rooted k segs
        have hgt : (renderRev rooted k (s :: segs)).length > (base rooted k).length := by
          rw [renderRev_cons, pushSeg]
          have : 0 < s.length := List.length_pos.2 hs.1
          split <;> simp only [List.length_append, List.length_reverse, List.length_cons] <;>
            omega
        simp only [hgt, if_true]
        refine ⟨?_, hk, fun x hx => hsegs x (by simp [hx])⟩
        rw [renderRev_cons, backtrack_pushSeg rooted _ _ s hs.1 hs.2.2.2 hlen]
        intro hcond
        cases rooted with
        | true =>
          have h0 : (renderRev true k segs).length = 1 := by simpa using hcond
          simp [base, h0]
        | false =>
          have h0 : (renderRev false k segs).length = 0 := by simpa using hcond
          omega
      | nil =>
        have hle : ¬ (renderRev rooted k []).length > (base rooted k).length := by
          simp [renderRev]
        simp only [hle, if_false]
        cases rooted with
        | true => exact ⟨by simp, hk, hsegs⟩
        | false =>
          refine ⟨?_, by simp, by simp⟩
          simp [renderRev, base, dots]
    · simp only [step, astep, if_neg h1, if_neg h2]
      refine ⟨by simp [renderRev_cons], hk, ?_⟩
      intro x hx
      rcases List.mem_cons.1 hx with rfl | hx
      · exact ⟨fun h => h1 (Or.inl h), fun h => h1 (Or.inr h), h2, he⟩
      · exact hsegs x hx

theorem not_mem_splitSlash (s : List Char) : ∀ e ∈ splitSlash s, '/' ∉ e := by
  induction s with
  | nil => simp [splitSlash]
  | cons c s ih =>
    by_cases hc : c = '/'
    · subst hc
      rw [splitSlash_cons_slash]
      intro e he
      rcases List.mem_cons.1 he with rfl | he
      · simp
      · exact ih e he
    · rw [splitSlash_cons_of_ne c s hc]
      have hne := splitSlash_ne_nil s
      intro e he
      rcases List.mem_cons.1 he with rfl | he
      · have hmem : (splitSlash s).headD [] ∈ splitSlash s := by
          cases hs : splitSlash s with
          | nil => exact absurd hs hne
          | cons a l => simp
        have := ih _ hmem
        simp only [List.mem_cons, not_or]
        exact ⟨fun h => hc h.symm, this⟩
      · exact ih e (List.mem_of_mem_tail he)

theorem foldl_step_renderRev (rooted : Bool) :
    ∀ (E : List (List Char)) (A : Nat × List (List Char)), Valid rooted A →
      (∀ e ∈ E, '/' ∉ e) →
      E.foldl (step rooted) (renderRev rooted A.1 A.2, (base rooted A.1).length) =
          (renderRev rooted (E.foldl (astep rooted) A).1 (E.foldl (astep rooted) A).2,
            (base rooted (E.foldl (astep rooted) A).1).length) ∧
        Valid rooted (E.foldl (astep rooted) A) := by
  intro E
  induction E with
  | nil => intro A hA _; exact ⟨rfl, hA⟩
  | cons e E ih =>
    intro A hA hE
    have h := step_renderRev rooted A e hA (hE e (by simp))
    simp only [List.foldl_cons]
    rw [h.1]
    exact ih (astep rooted A e) h.2 (fun x hx => hE x (by simp [hx]))

theorem valid_anorm (rooted : Bool) (p : List Char) : Valid rooted (anorm rooted (splitSlash p)) :=
  (foldl_step_renderRev rooted (splitSlash p) (0, []) ⟨fun _ => rfl, by simp⟩
    (not_mem_splitSlash p)).2

theorem cleanBytes_eq (p : List Char) (hp : p ≠ []) :
    cleanBytes p =
      finish (renderRev (decide (p.head? = some '/'))
        (anorm (decide (p.head? = some '/')) (splitSlash p)).1
        (anorm (decide (p.head? = some '/')) (splitSlash p)).2) := by
  unfold cleanBytes
  rw [if_neg hp]
  cases p with
  | nil => exact absurd rfl hp
  | cons c t =>
    by_cases hc : c = '/'
    · subst hc
      have h := (foldl_step_renderRev true (splitSlash ('/' :: t)) (0, []) ⟨fun _ => rfl, by simp⟩
        (not_mem_splitSlash _)).1
      have hcore := cleanLoop_eq_run true ('/' :: t).length t ['/'] 1 (by simp)
      rw [← run_cons_slash, run] at hcore
      have hb : renderRev true 0 [] = ['/'] := rfl
      have hl : (base true 0).length = 1 := rfl
      simp only [hb, hl] at h
      simp only [List.head?_cons, decide_True, if_true, List.drop_one, List.tail_cons]
      rw [hcore, h]
      rfl
    · have h := (foldl_step_renderRev false (splitSlash (c :: t)) (0, []) ⟨fun h => by simp at h, by simp⟩
        (not_mem_splitSlash _)).1
      have hcore := cleanLoop_eq_run false (c :: t).length (c :: t) [] 0 (le_refl _)
      rw [run] at hcore
      have hb : renderRev false 0 [] = [] := rfl
      have hl : (base false 0).length = 0 := rfl
      simp only [hb, hl] at h
      have hd : ¬ ((c :: t).head? = some '/') := by simpa using hc
      simp only [hd, decide_False, if_false]
      rw [hcore, h]
      rfl

theorem noDoubleSlash_of_no_slash (l : List Char) (h : ∀ c ∈ l, c ≠ '/') : NoDoubleSlash l := by
  induction l with
  | nil => exact List.chain'_nil
  | cons c l ih =>
    rw [NoDoubleSlash, List.chain'_cons']
    exact ⟨fun y _ hh => h c (by simp) hh.1, ih (fun x hx => h x (by simp [hx]))⟩

theorem head_dots (k : Nat) : ∀ c ∈ (dots k).head?, c = '.' := by
  cases k <;> simp [dots]

theorem noDoubleSlash_dots (k : Nat) : NoDoubleSlash (dots k) := by
  induction k with
  | zero => exact List.chain'_nil
  | succ k ih =>
    rw [dots, NoDoubleSlash, List.chain'_cons, List.chain'_cons']
    refine ⟨by simp, ?_, ?_⟩
    · intro y _ h; simp at h
    · split
      · rw [List.chain'_cons']
        refine ⟨?_, ih⟩
        intro y hy h
        have := head_dots k y hy
        rw [this] at h
        simp at h
      · exact ih

/-- The last byte written is a separator only in the buffer `/` of a rooted path. -/
theorem head_renderRev (rooted : Bool) (A : Nat × List (List Char)) (hA : Valid rooted A)
    (h : (renderRev rooted A.1 A.2).head? = some '/') :
    rooted = true ∧ (renderRev rooted A.1 A.2).length = 1 := by
  obtain ⟨k, segs⟩ := A
  cases segs with
  | nil =>
    cases rooted with
    | true => simp [renderRev, base]
    | false =>
      have h' : (dots k).head? = some '/' := by simpa [renderRev, base] using h
      have := head_dots k '/' (by simp [h'])
      simp at this
  | cons s segs =>
    exfalso
    have hs := hA.2 s (by simp)
    simp only [renderRev_cons, pushSeg] at h
    obtain ⟨c, l, hcl⟩ := List.exists_cons_of_ne_nil (show s.reverse ≠ [] by simpa using hs.1)
    rw [hcl] at h
    simp only [List.cons_append, List.head?_cons, Option.some.injEq] at h
    have : c ∈ s := by
      have : c ∈ s.reverse := by rw [hcl]; simp
      simpa using this
    exact hs.2.2.2 (h ▸ this)

theorem noDoubleSlash_renderRev (rooted : Bool) (k : Nat) (segs : List (List Char))
    (hA : Valid rooted (k, segs)) : NoDoubleSlash (renderRev rooted k segs) := by
  induction segs with
  | nil =>
    cases rooted with
    | true => simp [renderRev, base, NoDoubleSlash]
    | false => exact noDoubleSlash_dots k
  | cons s segs ih =>
    have hA' : Valid rooted (k, segs) := ⟨hA.1, fun x hx => hA.2 x (by simp [hx])⟩
    have hs := hA.2 s (by simp)
    have hns : ∀ c ∈ s.reverse, c ≠ '/' := by
      intro c hc h
      exact hs.2.2.2 (by simpa [h] using hc)
    rw [renderRev_cons, pushSeg, NoDoubleSlash, List.chain'_append]
    refine ⟨noDoubleSlash_of_no_slash _ hns, ?_, ?_⟩
    · split
      · rename_i hcond
        rw [List.chain'_cons']
        refine ⟨?_, ih hA'⟩
        intro y hy h
        have hy' : (renderRev rooted k segs).head? = some '/' := by
          rw [← h.2]; simpa using hy
        obtain ⟨hr, hlen⟩ := head_renderRev rooted (k, segs) hA' hy'
        subst hr
        simp only at hlen
        simp [hlen] at hcond
      · exact ih hA'
    · intro x hx y _ h
      exact hns x (List.mem_of_mem_getLast? hx) h.1

theorem noDoubleSlash_fin (l : List Char) (h : NoDoubleSlash l) : NoDoubleSlash (finish l) := by
  unfold finish
  split
  · simp [NoDoubleSlash]
  · rw [NoDoubleSlash, List.chain'_reverse]
    exact List.Chain'.imp (fun a b hab hba => hab ⟨hba.2, hba.1⟩) h

theorem noDoubleSlash_cleanBytes (p : List Char) : NoDoubleSlash (cleanBytes p) := by
  by_cases hp : p = []
  · subst hp
    simp [cleanBytes, NoDoubleSlash]
  · rw [cleanBytes_eq p hp]
    exact noDoubleSlash_fin _ (noDoubleSlash_renderRev _ _ _ (valid_anorm _ p))

theorem not_infix_of_noDoubleSlash (l : List Char) (h : NoDoubleSlash l) :
    ¬ (['/', '/'] <:+: l) := by
  intro hinf
  have := List.Chain'.infix h hinf
  simp [List.chain'_cons] at this

theorem splitSlash_append (a b : List Char) :
    splitSlash (a ++ '/' :: b) = splitSlash a ++ splitSlash b := by
  induction a with
  | nil => simp [splitSlash]
  | cons c a ih =>
    by_cases hc : c = '/'
    · subst hc
      simp [splitSlash_cons_slash, ih]
    · have hne := splitSlash_ne_nil a
      rw [List.cons_append, splitSlash_cons_of_ne c _ hc, splitSlash_cons_of_ne c _ hc, ih]
      cases hs : splitSlash a with
      | nil => exact absurd hs hne
      | cons e es => simp

theorem splitSlash_of_no_slash (s : List Char) (h : '/' ∉ s) : splitSlash s = [s] := by
  induction s with
  | nil => rfl
  | cons c s ih =>
    have hc : c ≠ '/' := fun hh => h (by simp [hh])
    have hs : '/' ∉ s := fun hh => h (by simp [hh])
    rw [splitSlash_cons_of_ne c s hc, ih hs]
    rfl

theorem astep_noop (rooted : Bool) (A : Nat × List (List Char)) (e : List Char)
    (h : e = [] ∨ e = ['.']) : astep rooted A e = A := by
  simp [astep, h]

theorem astep_realElement (rooted : Bool) (A : Nat × List (List Char)) (e : List Char)
    (h : RealElement e) : astep rooted A e = (A.1, e :: A.2) := by
  simp [astep, h.1, h.2.1, h.2.2.1]

theorem foldl_astep_dots (rooted : Bool) (S : Nat × List (List Char)) (k : Nat) :
    (splitSlash (dots k).reverse).foldl (astep rooted) S =
      (List.replicate k ['.', '.']).foldl (astep rooted) S := by
  induction k with
  | zero => simp [dots, splitSlash, astep]
  | succ k ih =>
    rw [List.replicate_succ', List.foldl_append, ← ih, dots]
    by_cases hk : (dots k).length > 0
    · rw [if_pos hk]
      have : ('.' :: '.' :: '/' :: dots k).reverse = (dots k).reverse ++ '/' :: ['.', '.'] := by
        simp
      rw [this, splitSlash_append, List.foldl_append]
      rfl
    · rw [if_neg hk]
      have h0 : dots k = [] := by
        cases hd : dots k with
        | nil => rfl
        | cons a l => simp [hd] at hk
      rw [h0]
      simp [splitSlash, astep]

theorem length_renderRev_cons (rooted : Bool) (k : Nat) (s : List Char) (segs : List (List Char))
    (hs : s ≠ []) :
    (base rooted k).length < (renderRev rooted k (s :: segs)).length := by
  have hlen := length_base_le_renderRev rooted k segs
  have : 0 < s.length := List.length_pos.2 hs
  rw [renderRev_cons, pushSeg]
  split <;> simp only [List.length_append, List.length_reverse, List.length_cons] <;> omega

/-- Reading back the buffer re-creates the elements it holds. -/
theorem foldl_astep_renderRev (r' : Bool) (k : Nat) (segs : List (List Char))
    (hA : Valid r' (k, segs)) (rooted : Bool) (S : Nat × List (List Char)) :
    (splitSlash (renderRev r' k segs).reverse).foldl (astep rooted) S =
      (elemsOf (k, segs)).foldl (astep rooted) S := by
  induction segs with
  | nil =>
    cases r' with
    | true =>
      have hk : k = 0 := hA.1 rfl
      subst hk
      simp [renderRev, base, elemsOf, splitSlash, astep]
    | false =>
      simp only [renderRev, base, elemsOf, List.foldr_nil, List.reverse_nil, List.append_nil]
      exact foldl_astep_dots rooted S k
  | cons s segs ih =>
    have hA' : Valid r' (k, segs) := ⟨hA.1, fun x hx => hA.2 x (by simp [hx])⟩
    have hs := hA.2 s (by simp)
    have hsplit := splitSlash_of_no_slash s hs.2.2.2
    have helems : elemsOf (k, s :: segs) = elemsOf (k, segs) ++ [s] := by
      simp [elemsOf]
    rw [helems, List.foldl_append, ← ih hA', renderRev_cons, pushSeg]
    by_cases hcond : (r' && (renderRev r' k segs).length != 1 ||
        !r' && (renderRev r' k segs).length != 0) = true
    · rw [if_pos hcond]
      have : (s.reverse ++ '/' :: renderRev r' k segs).reverse =
          (renderRev r' k segs).reverse ++ '/' :: s := by simp
      rw [this, splitSlash_append, List.foldl_append, hsplit]
    · rw [if_neg hcond]
      have hnil : segs = [] := by
        cases segs with
        | nil => rfl
        | cons t segs =>
          exfalso
          have ht := hA.2 t (by simp)
          have hlt := length_renderRev_cons r' k t segs ht.1
          cases r' with
          | true =>
            have h1 : (renderRev true k (t :: segs)).length = 1 := by simpa using hcond
            simp [base] at hlt
            omega
          | false =>
            have h1 : (renderRev false k (t :: segs)).length = 0 := by simpa using hcond
            omega
      subst hnil
      cases r' with
      | true =>
        simp [renderRev, base, splitSlash_cons_slash, hsplit, splitSlash, astep]
      | false =>
        have h1 : (renderRev false k []).length = 0 := by simpa using hcond
        have h0 : renderRev false k [] = [] := List.length_eq_zero.1 h1
        simp [h0, hsplit, splitSlash, astep]

theorem foldl_astep_fin (r' : Bool) (A : Nat × List (List Char)) (hA : Valid r' A)
    (rooted : Bool) (S : Nat × List (List Char)) :
    (splitSlash (finish (renderRev r' A.1 A.2))).foldl (astep rooted) S =
      (elemsOf A).foldl (astep rooted) S := by
  have h := foldl_astep_renderRev r' A.1 A.2 hA rooted S
  unfold finish
  split
  · rename_i h0
    have hnil : renderRev r' A.1 A.2 = [] := List.length_eq_zero.1 h0
    rw [hnil] at h
    rw [← h]
    simp [splitSlash, astep]
  · exact h

theorem foldl_astep_realElements (rooted : Bool) :
    ∀ (segs : List (List Char)) (A : Nat × List (List Char)), (∀ s ∈ segs, RealElement s) →
      segs.reverse.foldl (astep rooted) A = (A.1, segs ++ A.2) := by
  intro segs
  induction segs with
  | nil => intro A _; rfl
  | cons s segs ih =>
    intro A h
    rw [List.reverse_cons, List.foldl_append, ih A (fun x hx => h x (by simp [hx]))]
    simp [astep_realElement rooted _ s (h s (by simp))]

theorem foldl_astep_replicate (k : Nat) :
    (List.replicate k ['.', '.']).foldl (astep false) (0, []) = (k, []) := by
  induction k with
  | zero => rfl
  | succ k ih =>
    rw [List.replicate_succ', List.foldl_append, ih]
    simp [astep]

theorem anorm_elemsOf (rooted : Bool) (A : Nat × List (List Char)) (hA : Valid rooted A) :
    anorm rooted (elemsOf A) = A := by
  obtain ⟨k, segs⟩ := A
  unfold anorm elemsOf
  rw [List.foldl_append]
  cases rooted with
  | true =>
    have hk : k = 0 := hA.1 rfl
    subst hk
    simp [foldl_astep_realElements true segs (0, []) hA.2]
  | false =>
    rw [foldl_astep_replicate, foldl_astep_realElements false segs (k, []) hA.2]
    simp

/-- Cleaning is idempotent on element lists: reading a cleaned path back gives
the element list it was written from. -/
theorem anorm_fin (rooted : Bool) (A : Nat × List (List Char)) (hA : Valid rooted A) :
    anorm rooted (splitSlash (finish (renderRev rooted A.1 A.2))) = A := by
  unfold anorm
  rw [foldl_astep_fin rooted A hA rooted (0, [])]
  exact anorm_elemsOf rooted A hA

theorem valid_foldl_astep (rooted : Bool) (E : List (List Char)) (A : Nat × List (List Char))
    (hA : Valid rooted A) (hE : ∀ e ∈ E, '/' ∉ e) : Valid rooted (E.foldl (astep rooted) A) :=
  (foldl_step_renderRev rooted E A hA hE).2

/-- Replacing a sequence of elements by its cleaned form does not change what
it does to a buffer, provided the cleaned form is relative or the sequence has
no `..` element. -/
theorem foldl_astep_anorm (r' : Bool) (E : List (List Char)) (hE : ∀ e ∈ E, '/' ∉ e)
    (hr : r' = true → ['.', '.'] ∉ E) (rooted : Bool) (S : Nat × List (List Char)) :
    (elemsOf (anorm r' E)).foldl (astep rooted) S = E.foldl (astep rooted) S := by
  induction E using List.reverseRecOn with
  | nil => rfl
  | append_singleton E e ih =>
    have hE' : ∀ x ∈ E, '/' ∉ x := fun x hx => hE x (by simp [hx])
    have hr' : r' = true → ['.', '.'] ∉ E := fun h hm => hr h (by simp [hm])
    have ih := ih hE' hr'
    have hN : Valid r' (anorm r' E) := valid_foldl_astep r' E (0, []) ⟨fun _ => rfl, by simp⟩ hE'
    have hstep : anorm r' (E ++ [e]) = astep r' (anorm r' E) e := by
      simp [anorm, List.foldl_append]
    rw [hstep, List.foldl_append, ← ih]
    simp only [List.foldl_cons, List.foldl_nil]
    generalize anorm r' E = N at hN ⊢
    obtain ⟨k, segs⟩ := N
    by_cases h1 : e = [] ∨ e = ['.']
    · rw [astep_noop r' _ e h1, astep_noop rooted _ e h1]
    · by_cases h2 : e = ['.', '.']
      · subst h2
        have hfalse : r' = false := by
          cases r' with
          | false => rfl
          | true => exact absurd (by simp) (hr rfl)
        subst hfalse
        cases segs with
        | cons s segs =>
          have hs : RealElement s := hN.2 s (by simp)
          have e1 : astep false (k, s :: segs) ['.', '.'] = (k, segs) := by simp [astep]
          have e2 : elemsOf (k, s :: segs) = elemsOf (k, segs) ++ [s] := by simp [elemsOf]
          rw [e1, e2, List.foldl_append]
          simp only [List.foldl_cons, List.foldl_nil]
          rw [astep_realElement rooted _ s hs]
          simp [astep]
        | nil =>
          have e1 : astep false (k, []) ['.', '.'] = (k + 1, []) := by simp [astep]
          have e2 : elemsOf (k + 1, ([] : List (List Char))) = elemsOf (k, []) ++ [['.', '.']] := by
            simp [elemsOf, List.replicate_succ']
          rw [e1, e2, List.foldl_append]
          rfl
      · have he : RealElement e :=
          ⟨fun h => h1 (Or.inl h), fun h => h1 (Or.inr h), h2, hE e (by simp)⟩
        have e2 : elemsOf (k, e :: segs) = elemsOf (k, segs) ++ [e] := by simp [elemsOf]
        rw [astep_realElement r' _ e he, e2, List.foldl_append]
        rfl

theorem getLast_dots (k : Nat) : ∀ c ∈ (dots k).getLast?, c = '.' := by
  induction k with
  | zero => simp [dots]
  | succ k ih =>
    rw [dots]
    split
    · rename_i hk
      intro c hc
      have hne : dots k ≠ [] := by
        intro h; simp [h] at hk
      rw [List.getLast?_cons_cons, List.getLast?_cons_cons] at hc
      obtain ⟨d, l, hdl⟩ := List.exists_cons_of_ne_nil hne
      rw [hdl, List.getLast?_cons_cons, ← hdl] at hc
      exact ih c hc
    · rename_i hk
      have h0 : dots k = [] := by
        cases hd : dots k with
        | nil => rfl
        | cons a l => simp [hd] at hk
      simp [h0]

theorem getLast_renderRev_rooted (k : Nat) (segs : List (List Char)) :
    (renderRev true k segs).getLast? = some '/' := by
  induction segs with
  | nil => rfl
  | cons s segs ih =>
    rw [renderRev_cons, pushSeg, List.getLast?_append]
    split
    · rw [List.getLast?_cons, ih]; rfl
    · rw [ih]; rfl

theorem getLast_renderRev_unrooted (k : Nat) (segs : List (List Char))
    (hA : Valid false (k, segs)) : (renderRev false k segs).getLast? ≠ some '/' := by
  induction segs with
  | nil =>
    intro h
    have := getLast_dots k '/' (by simpa [renderRev, base] using h)
    simp at this
  | cons s segs ih =>
    have hA' : Valid false (k, segs) := ⟨hA.1, fun x hx => hA.2 x (by simp [hx])⟩
    have hs := hA.2 s (by simp)
    have ih := ih hA'
    rw [renderRev_cons, pushSeg, List.getLast?_append]
    cases hR : renderRev false k segs with
    | nil =>
      simp only [List.length_nil, bne_self_eq_false, Bool.and_false, Bool.or_false,
        Bool.false_eq_true, if_false, Bool.not_false, Bool.false_and, List.getLast?_nil,
        Option.none_or, List.getLast?_reverse]
      intro h
      exact hs.2.2.2 (List.mem_of_mem_head? h)
    | cons d R =>
      rw [hR] at ih
      have hcond : (false && (d :: R).length != 1 || !false && (d :: R).length != 0) = true := by
        simp
      rw [if_pos hcond, List.getLast?_cons_cons]
      cases hl : (d :: R).getLast? with
      | none => simp at hl
      | some x =>
        rw [hl] at ih
        simpa using ih

theorem fin_ne_nil (l : List Char) : finish l ≠ [] := by
  unfold finish
  split
  · simp
  · rename_i h
    intro h'
    apply h
    simpa using h'

theorem head_fin_renderRev (rooted : Bool) (A : Nat × List (List Char)) (hA : Valid rooted A) :
    decide ((finish (renderRev rooted A.1 A.2)).head? = some '/') = rooted := by
  obtain ⟨k, segs⟩ := A
  cases rooted with
  | true =>
    have h := getLast_renderRev_rooted k segs
    have hne : (renderRev true k segs).length ≠ 0 := by
      intro h0
      rw [List.length_eq_zero.1 h0] at h
      simp at h
    simp [finish, hne, h]
  | false =>
    have h := getLast_renderRev_unrooted k segs hA
    unfold finish
    split
    · simp
    · simpa using h

theorem Join_pair (a b : String) : (Join [a, b]).data = joinBytes a.data b.data := by
  obtain ⟨la⟩ := a
  obtain ⟨lb⟩ := b
  cases la with
  | nil =>
    cases lb with
    | nil => rfl
    | cons d lb =>
      have h1 : ¬ ((List.map String.length [String.mk [], String.mk (d :: lb)]).sum = 0) := by
        simp [String.length]
      have h2 : (String.mk (d :: lb) != "") = true := by
        simp only [bne_iff_ne, ne_eq]
        intro h
        have := congrArg String.data h
        simp at this
      have h3 : (String.mk [] != "") = false := by
        simp only [bne_eq_false_iff_eq]
      simp only [Join, if_neg h1, joinBuf, List.length_nil, gt_iff_lt, lt_self_iff_false,
        decide_False, h3, Bool.or_self, Bool.false_eq_true, if_false, h2, Bool.or_true, if_true,
        List.nil_append, Clean, joinBytes]
      simp
  | cons c la =>
    have h1 : ¬ ((List.map String.length [String.mk (c :: la), String.mk lb]).sum = 0) := by
      simp [String.length]
    have h2 : (String.mk (c :: la) != "") = true := by
      simp only [bne_iff_ne, ne_eq]
      intro h
      have := congrArg String.data h
      simp at this
    simp only [Join, if_neg h1, joinBuf, List.length_nil, gt_iff_lt, lt_self_iff_false,
      decide_False, h2, Bool.or_true, if_true, if_false, List.nil_append, Clean, joinBytes,
      List.length_cons, Nat.zero_lt_succ, decide_True, Bool.true_or]
    simp

/-- The cleaned form of `a/b` in terms of element lists. -/
theorem cleanBytes_append (a b : List Char) (ha : a ≠ []) :
    cleanBytes (a ++ '/' :: b) =
      finish (renderRev (decide (a.head? = some '/'))
        ((splitSlash b).foldl (astep (decide (a.head? = some '/')))
          (anorm (decide (a.head? = some '/')) (splitSlash a))).1
        ((splitSlash b).foldl (astep (decide (a.head? = some '/')))
          (anorm (decide (a.head? = some '/')) (splitSlash a))).2) := by
  have hne : a ++ '/' :: b ≠ [] := by simp
  have hh : (a ++ '/' :: b).head? = a.head? := by
    cases a with
    | nil => exact absurd rfl ha
    | cons c a => rfl
  rw [cleanBytes_eq _ hne, hh, splitSlash_append]
  simp [anorm, List.foldl_append]

theorem cleanBytes_ne_nil (p : List Char) : cleanBytes p ≠ [] := by
  by_cases hp : p = []
  · subst hp; simp [cleanBytes]
  · rw [cleanBytes_eq p hp]; exact fin_ne_nil _

/-- `path.Clean` is idempotent. -/
theorem cleanBytes_idem (p : List Char) : cleanBytes (cleanBytes p) = cleanBytes p := by
  by_cases hp : p = []
  · subst hp; decide
  · have hv := valid_anorm (decide (p.head? = some '/')) p
    rw [cleanBytes_eq _ (cleanBytes_ne_nil p)]
    rw [cleanBytes_eq p hp, head_fin_renderRev _ _ hv, anorm_fin _ _ hv]

/-- Cleaning the first part of a path beforehand does not change the result. -/
theorem cleanBytes_clean_append (b c : List Char) (hb : b ≠ []) :
    cleanBytes (cleanBytes b ++ '/' :: c) = cleanBytes (b ++ '/' :: c) := by
  have hv := valid_anorm (decide (b.head? = some '/')) b
  rw [cleanBytes_append _ c (cleanBytes_ne_nil b), cleanBytes_append b c hb]
  rw [cleanBytes_eq b hb, head_fin_renderRev _ _ hv, anorm_fin _ _ hv]

theorem foldl_astep_nil_elem (rooted : Bool) (S : Nat × List (List Char)) :
    (splitSlash []).foldl (astep rooted) S = S := by
  simp [splitSlash, astep]

/-- Cleaning the second part of a path beforehand does not change the result
when the cleaned second part is relative or has no `..` element. -/
theorem cleanBytes_append_clean (a y : List Char) (ha : a ≠ []) (hy : y ≠ [])
    (h : y.head? = some '/' → ¬ hasDotDot y) :
    cleanBytes (a ++ '/' :: cleanBytes y) = cleanBytes (a ++ '/' :: y) := by
  have hv := valid_anorm (decide (y.head? = some '/')) y
  rw [cleanBytes_append a _ ha, cleanBytes_append a y ha]
  have key : ∀ S, (splitSlash (cleanBytes y)).foldl (astep (decide (a.head? = some '/'))) S =
      (splitSlash y).foldl (astep (decide (a.head? = some '/'))) S := by
    intro S
    rw [cleanBytes_eq y hy, foldl_astep_fin _ _ hv]
    exact foldl_astep_anorm _ _ (not_mem_splitSlash y) (by simpa [hasDotDot] using h) _ S
  rw [key]

theorem head_cleanBytes (p : List Char) (hp : p ≠ []) :
    (cleanBytes p).head? = some '/' ↔ p.head? = some '/' := by
  have hv := valid_anorm (decide (p.head? = some '/')) p
  have := head_fin_renderRev _ _ hv
  rw [← cleanBytes_eq p hp] at this
  constructor
  · intro h
    rw [h] at this
    simpa using this.symm
  · intro h
    rw [h] at this
    simpa using this

theorem hasDotDot_append (a b : List Char) :
    hasDotDot (a ++ '/' :: b) ↔ hasDotDot a ∨ hasDotDot b := by
  simp [hasDotDot, splitSlash_append]

theorem joinBytes_assoc (a b c : List Char)
    (h : a = [] ∨ (joinBytes b c).head? ≠ some '/' ∨ (¬ hasDotDot b ∧ ¬ hasDotDot c)) :
    joinBytes (joinBytes a b) c = joinBytes a (joinBytes b c) := by
  by_cases ha : a = []
  · subst ha
    by_cases hb : b = []
    · subst hb
      by_cases hc : c = []
      · subst hc; rfl
      · simp [joinBytes, hc, cleanBytes_ne_nil, cleanBytes_idem]
    · simp [joinBytes, hb, cleanBytes_ne_nil, cleanBytes_idem, cleanBytes_clean_append b c hb]
  · have hab : a ++ '/' :: b ≠ [] := by simp
    have e1 : joinBytes (joinBytes a b) c = cleanBytes (a ++ '/' :: (b ++ '/' :: c)) := by
      simp only [joinBytes, if_neg ha, if_neg (cleanBytes_ne_nil _)]
      rw [cleanBytes_clean_append _ c hab]
      simp
    rw [e1]
    have h' : (joinBytes b c).head? ≠ some '/' ∨ (¬ hasDotDot b ∧ ¬ hasDotDot c) := by
      rcases h with h | h
      · exact absurd h ha
      · exact h
    by_cases hb : b = []
    · subst hb
      by_cases hc : c = []
      · subst hc
        simp only [joinBytes, if_neg ha, if_true]
        rw [cleanBytes_append a _ ha, cleanBytes_append a _ ha]
        simp [splitSlash, astep]
      · have hy : joinBytes [] c = cleanBytes c := by simp [joinBytes, hc]
        rw [hy] at h' ⊢
        simp only [joinBytes, if_neg ha]
        rw [cleanBytes_append_clean a c ha hc]
        · rw [cleanBytes_append a _ ha, cleanBytes_append a c ha, splitSlash_append]
          simp [splitSlash, astep]
        · intro hh
          rcases h' with h' | h'
          · exact absurd ((head_cleanBytes c hc).2 hh) h'
          · exact h'.2
    · have hbc : b ++ '/' :: c ≠ [] := by simp
      have hy : joinBytes b c = cleanBytes (b ++ '/' :: c) := by simp [joinBytes, hb]
      rw [hy] at h' ⊢
      simp only [joinBytes, if_neg ha]
      rw [cleanBytes_append_clean a _ ha hbc]
      intro hh
      rcases h' with h' | h'
      · exact absurd ((head_cleanBytes _ hbc).2 hh) h'
      · rw [hasDotDot_append]
        exact fun h2 => h2.elim h'.1 h'.2

theorem foldl_astep_no_dotdot (rooted : Bool) :
    ∀ (E : List (List Char)) (A : Nat × List (List Char)), ['.', '.'] ∉ E →
      E.foldl (astep rooted) A =
        (A.1, (E.filter isSegment).reverse ++ A.2) := by
  intro E
  induction E with
  | nil => intro A _; rfl
  | cons e E ih =>
    intro A h
    have hE : ['.', '.'] ∉ E := fun hm => h (by simp [hm])
    have he : e ≠ ['.', '.'] := fun hh => h (by simp [hh])
    rw [List.foldl_cons, ih _ hE]
    by_cases h1 : e = [] ∨ e = ['.']
    · have hf : ¬ (isSegment e = true) := by
        rcases h1 with h1 | h1 <;> simp [isSegment, h1]
      rw [astep_noop rooted A e h1, List.filter_cons_of_neg hf]
    · have hf : isSegment e = true := by
        have h1a : e ≠ [] := fun hh => h1 (Or.inl hh)
        have h1b : e ≠ ['.'] := fun hh => h1 (Or.inr hh)
        simp [isSegment, h1a, h1b]
      rw [List.filter_cons_of_pos hf]
      simp [astep, h1, he]

theorem renderRev_rooted_eq_sep (k : Nat) (segs : List (List Char))
    (h : (renderRev true k segs).length = 1) : renderRev true k segs = ['/'] := by
  have hl := getLast_renderRev_rooted k segs
  cases hR : renderRev true k segs with
  | nil => rw [hR] at h; simp at h
  | cons c R =>
    rw [hR] at h hl
    have : R = [] := by simpa using h
    subst this
    simp at hl
    rw [hl]

theorem reverse_renderRev_append (k : Nat) (X segs : List (List Char)) :
    (renderRev true k (X ++ segs)).reverse =
      X.reverse.foldl appendSeg (renderRev true k segs).reverse := by
  induction X with
  | nil => rfl
  | cons x X ih =>
    rw [List.cons_append, renderRev_cons, List.reverse_cons, List.foldl_append, ← ih, pushSeg]
    simp only [List.foldl_cons, List.foldl_nil, appendSeg]
    by_cases hlen : (renderRev true k (X ++ segs)).length = 1
    · have hsep := renderRev_rooted_eq_sep k _ hlen
      simp [hsep]
    · have hne : (renderRev true k (X ++ segs)).reverse ≠ ['/'] := by
        intro hh
        apply hlen
        have := congrArg List.length hh
        simpa using this
      simp [hlen, hne]

theorem foldl_appendSeg_prefix (p : List Char) (segs : List (List Char)) :
    p <+: segs.foldl appendSeg p := by
  induction segs generalizing p with
  | nil => exact List.prefix_refl p
  | cons s segs ih =>
    refine List.IsPrefix.trans ?_ (ih (appendSeg p s))
    unfold appendSeg
    split <;> exact List.prefix_append _ _

/-- The join of a rooted base path with an endpoint that has no `..` element. -/
theorem joinBytes_rooted (b e : List Char) (hb : b.head? = some '/') (he : ¬ hasDotDot e) :
    joinBytes b e = (segments e).foldl appendSeg (cleanBytes b) := by
  have hne : b ≠ [] := by
    intro h; simp [h] at hb
  have hd : decide (b.head? = some '/') = true := by simpa using hb
  have h1 := getLast_renderRev_rooted
  have fin_eq : ∀ k segs, finish (renderRev true k segs) = (renderRev true k segs).reverse := by
    intro k segs
    have h := getLast_renderRev_rooted k segs
    unfold finish
    rw [if_neg]
    intro h0
    rw [List.length_eq_zero.1 h0] at h
    simp at h
  simp only [joinBytes, if_neg hne]
  rw [cleanBytes_append b e hne, cleanBytes_eq b hne, hd, fin_eq, fin_eq,
    foldl_astep_no_dotdot true _ _ he]
  simp only
  rw [reverse_renderRev_append, List.reverse_reverse]
  rfl

theorem mem_dots (k : Nat) : ∀ c ∈ dots k, c = '/' ∨ c = '.' := by
  induction k with
  | zero => simp [dots]
  | succ k ih =>
    intro c hc
    rw [dots] at hc
    rcases List.mem_cons.1 hc with hc | hc
    · exact Or.inr hc
    · rcases List.mem_cons.1 hc with hc | hc
      · exact Or.inr hc
      · split at hc
        · rcases List.mem_cons.1 hc with hc | hc
          · exact Or.inl hc
          · exact ih c hc
        · exact ih c hc

theorem mem_renderRev (rooted : Bool) (k : Nat) (segs : List (List Char)) :
    ∀ c ∈ renderRev rooted k segs, c = '/' ∨ c = '.' ∨ ∃ s ∈ segs, c ∈ s := by
  induction segs with
  | nil =>
    intro c hc
    simp only [renderRev, List.foldr_nil, base] at hc
    split at hc
    · simp only [List.mem_singleton] at hc
      exact Or.inl hc
    · rcases mem_dots k c hc with h | h
      · exact Or.inl h
      · exact Or.inr (Or.inl h)
  | cons s segs ih =>
    intro c hc
    rw [renderRev_cons, pushSeg] at hc
    rcases List.mem_append.1 hc with hc | hc
    · exact Or.inr (Or.inr ⟨s, by simp, by simpa using hc⟩)
    · have hout : c = '/' ∨ c ∈ renderRev rooted k segs := by
        split at hc
        · rcases List.mem_cons.1 hc with hc | hc
          · exact Or.inl hc
          · exact Or.inr hc
        · exact Or.inr hc
      rcases hout with h | h
      · exact Or.inl h
      · rcases ih c h with h | h | ⟨s2, hs2, h⟩
        · exact Or.inl h
        · exact Or.inr (Or.inl h)
        · exact Or.inr (Or.inr ⟨s2, by simp [hs2], h⟩)

theorem mem_foldl_astep (rooted : Bool) :
    ∀ (E : List (List Char)) (A : Nat × List (List Char)),
      ∀ s ∈ (E.foldl (astep rooted) A).2, s ∈ A.2 ∨ s ∈ E := by
  intro E
  induction E with
  | nil =>
    intro A s hs
    exact Or.inl hs
  | cons e E ih =>
    intro A s hs
    rw [List.foldl_cons] at hs
    rcases ih _ s hs with h | h
    · unfold astep at h
      split at h
      · exact Or.inl h
      · split at h
        · split at h
          · rename_i x segs hA
            left
            rw [hA]
            simp only at h
            exact List.mem_cons_of_mem _ h
          · split at h
            · exact Or.inl h
            · simp at h
        · simp only [List.mem_cons] at h
          rcases h with h | h
          · exact Or.inr (by simp [h])
          · exact Or.inl h
    · exact Or.inr (by simp [h])

theorem mem_splitSlash (p : List Char) : ∀ e ∈ splitSlash p, ∀ c ∈ e, c ∈ p := by
  induction p with
  | nil => simp [splitSlash]
  | cons x p ih =>
    by_cases hx : x = '/'
    · subst hx
      rw [splitSlash_cons_slash]
      intro e he c hc
      rcases List.mem_cons.1 he with he | he
      · subst he
        simp at hc
      · exact List.mem_cons_of_mem _ (ih e he c hc)
    · obtain ⟨e0, es, hes⟩ : ∃ e0 es, splitSlash p = e0 :: es := by
        cases h : splitSlash p with
        | nil => exact absurd h (splitSlash_ne_nil p)
        | cons e0 es => exact ⟨e0, es, rfl⟩
      intro e he c hc
      rw [splitSlash, if_neg hx, hes] at he
      simp only at he
      rcases List.mem_cons.1 he with he | he
      · subst he
        rcases List.mem_cons.1 hc with hc | hc
        · simp [hc]
        · exact List.mem_cons_of_mem _ (ih e0 (by simp [hes]) c hc)
      · exact List.mem_cons_of_mem _ (ih e (by simp [hes, he]) c hc)

/-- The bytes of a cleaned path are bytes of the path, `/` or `.`. -/
theorem mem_cleanBytes (p : List Char) : ∀ c ∈ cleanBytes p, c = '/' ∨ c = '.' ∨ c ∈ p := by
  intro c hc
  by_cases hp : p = []
  · subst hp
    have : cleanBytes [] = ['.'] := by decide
    rw [this] at hc
    simp only [List.mem_singleton] at hc
    exact Or.inr (Or.inl hc)
  · rw [cleanBytes_eq p hp] at hc
    unfold finish at hc
    split at hc
    · simp only [List.mem_singleton] at hc
      exact Or.inr (Or.inl hc)
    · rw [List.mem_reverse] at hc
      rcases mem_renderRev _ _ _ c hc with h | h | ⟨s, hs, h⟩
      · exact Or.inl h
      · exact Or.inr (Or.inl h)
      · right
        right
        unfold anorm at hs
        rcases mem_foldl_astep _ _ _ s hs with h2 | h2
        · simp at h2
        · exact mem_splitSlash p s h2 c h

end path

/-! ## `url.ParseRequestURI` and `url.Parse` -/

namespace url
open encoding

theorem unescapeBuild_cons_slash (mode : encoding) (s : List Char) :
    unescapeBuild mode ('/' :: s) = '/' :: unescapeBuild mode s := by
  rw [unescapeBuild]
  · simp
  · simp

theorem setPath_ok (u : URL) (p : List Char) (u' : URL) (h : URL.setPath u p = .ok u') :
    u'.Scheme = u.Scheme ∧ u'.Host = u.Host ∧ u'.User = u.User ∧
      u'.Path = String.mk (unescapeBuild encodePath p) := by
  unfold URL.setPath unescape at h
  split at h
  · cases h
  · rename_i path hp
    split at hp
    · simp at hp
    · injection hp with hp
      injection h with h
      subst h
      subst hp
      exact ⟨rfl, rfl, rfl, rfl⟩

theorem parseHier_scheme (u : URL) (rest : List Char) (v : Bool) (u' : URL)
    (h : parseHier u rest v = .ok u') : u'.Scheme = u.Scheme := by
  unfold parseHier at h
  split at h
  · dsimp only at h
    split at h
    · cases h
    · exact (setPath_ok _ _ _ h).1
  · split at h
    · exact (setPath_ok _ _ _ h).1
    · exact (setPath_ok _ _ _ h).1

theorem parseHier_noScheme (u : URL) (rest : List Char) (u' : URL) (hs : u.Scheme = "")
    (h : parseHier u rest true = .ok u') :
    u'.Host = u.Host ∧ u'.User = u.User ∧ u'.Path = String.mk (unescapeBuild encodePath rest) := by
  unfold parseHier at h
  simp only [hs, ne_eq, not_true_eq_false, Bool.not_true, Bool.false_eq_true, false_and,
    or_self, if_false] at h
  exact (setPath_ok _ _ _ h).2

/-- A URL that `parse` in request mode returns with a scheme is the URL that
`parse` returns for the same text outside request mode. -/
theorem parseHier_of_scheme (u : URL) (rest : List Char) (hs : u.Scheme ≠ "") :
    parseHier u rest false = parseHier u rest true := by
  unfold parseHier
  simp [hs]

end url
namespace url
open encoding

theorem head_of_hasPrefix_slash (rest : List Char) (h : strings.HasPrefix rest ['/'] = true) :
    ∃ t, rest = '/' :: t := by
  cases rest with
  | nil => simp [strings.HasPrefix] at h
  | cons c t =>
    simp only [strings.HasPrefix, List.isPrefixOf, Bool.and_true, beq_iff_eq] at h
    exact ⟨t, by rw [h]⟩

theorem parseAfterScheme_shape (scheme rest0 : List Char) (u : URL)
    (h : parseAfterScheme scheme rest0 true = .ok u) :
    u.Scheme ≠ "" ∨
      (u.Scheme = "" ∧ u.Host = "" ∧ u.User = none ∧
        (u.Path = "*" ∨ u.Path.data.head? = some '/')) := by
  unfold parseAfterScheme at h
  dsimp only at h
  generalize (if (decide (strings.HasSuffix rest0 ['?'] = true ∧ strings.Count rest0 '?' = 1))
      = true then rest0.dropLast else (strings.Cut '?' rest0).1) = rest at h
  split at h
  · split at h
    · rename_i hs
      injection h with h
      subst h
      exact Or.inl hs
    · simp at h
  · rename_i hpre
    have hpre' : strings.HasPrefix rest ['/'] = true := by simpa using hpre
    obtain ⟨t, ht⟩ := head_of_hasPrefix_slash _ hpre'
    by_cases hs : String.mk (strings.ToLower scheme) = ""
    · right
      have := parseHier_noScheme _ _ _ hs h
      have hsch := parseHier_scheme _ _ _ _ h
      refine ⟨by rw [hsch]; exact hs, by rw [this.1], by rw [this.2.1], Or.inr ?_⟩
      rw [this.2.2, ht, unescapeBuild_cons_slash]
      rfl
    · left
      rw [parseHier_scheme _ _ _ _ h]
      exact hs

/-- What `parse` accepts in request mode: an absolute URI (non-empty scheme),
or `*`, or an absolute path with neither scheme nor authority. -/
theorem parse_viaRequest_shape (l : List Char) (u : URL) (h : parse l true = .ok u) :
    u.Scheme ≠ "" ∨
      (u.Scheme = "" ∧ u.Host = "" ∧ u.User = none ∧
        (u.Path = "*" ∨ u.Path.data.head? = some '/')) := by
  unfold parse at h
  split at h
  · cases h
  · split at h
    · cases h
    · split at h
      · injection h with h
        subst h
        exact Or.inr ⟨rfl, rfl, rfl, Or.inl rfl⟩
      · split at h
        · cases h
        · exact parseAfterScheme_shape _ _ _ h

theorem parseAfterScheme_of_scheme (scheme rest0 : List Char) (u : URL)
    (h : parseAfterScheme scheme rest0 true = .ok u) (hs : u.Scheme ≠ "") :
    parseAfterScheme scheme rest0 false = .ok u := by
  unfold parseAfterScheme at h ⊢
  dsimp only at h ⊢
  generalize (if (decide (strings.HasSuffix rest0 ['?'] = true ∧ strings.Count rest0 '?' = 1))
      = true then rest0.dropLast else (strings.Cut '?' rest0).1) = rest at h ⊢
  split at h
  · rename_i hpre
    rw [if_pos hpre]
    split at h
    · rename_i hsch
      rw [if_pos hsch]
      exact h
    · simp at h
  · rename_i hpre
    rw [if_neg hpre]
    have hsch : String.mk (strings.ToLower scheme) ≠ "" := by
      have := parseHier_scheme _ _ _ _ h
      rw [this] at hs
      exact hs
    rw [parseHier_of_scheme _ _ hsch]
    exact h

theorem parse_of_scheme (l : List Char) (u : URL) (h : parse l true = .ok u)
    (hs : u.Scheme ≠ "") : parse l false = .ok u := by
  unfold parse at h ⊢
  split at h
  · cases h
  · rename_i h1
    rw [if_neg h1]
    split at h
    · cases h
    · have h2 : ¬ (l = [] ∧ false = true) := by simp
      rw [if_neg h2]
      split at h
      · injection h with h
        subst h
        exact absurd rfl hs
      · rename_i h3
        rw [if_neg h3]
        split at h
        · cases h
        · exact parseAfterScheme_of_scheme _ _ _ h hs

theorem Cut_of_not_mem (sep : Char) (l : List Char) (h : sep ∉ l) :
    strings.Cut sep l = (l, [], false) := by
  induction l with
  | nil => rfl
  | cons c l ih =>
    have hc : c ≠ sep := fun hh => h (by simp [hh])
    have hl : sep ∉ l := fun hh => h (by simp [hh])
    rw [strings.Cut, if_neg hc, ih hl]

/-- For a text with a scheme and without `#`, `url.Parse` returns what
`url.ParseRequestURI` returns. -/
theorem Parse_of_ParseRequestURI (s : String) (u : URL) (h : ParseRequestURI s = .ok u)
    (hs : u.Scheme ≠ "") (hfrag : '#' ∉ s.data) : Parse s = .ok u := by
  unfold ParseRequestURI at h
  split at h
  · cases h
  · rename_i v hv
    injection h with h
    subst h
    unfold Parse
    rw [Cut_of_not_mem '#' s.data hfrag]
    simp [parse_of_scheme _ _ hv hs]

theorem ParseRequestURI_shape (s : String) (u : URL) (h : ParseRequestURI s = .ok u) :
    u.Scheme ≠ "" ∨
      (u.Scheme = "" ∧ u.Host = "" ∧ u.User = none ∧
        (u.Path = "*" ∨ u.Path.data.head? = some '/')) := by
  unfold ParseRequestURI at h
  split at h
  · cases h
  · rename_i v hv
    injection h with h
    subst h
    exact parse_viaRequest_shape _ _ hv

end url
namespace url
open encoding

theorem isAlpha_of_isLower (c : Char) (h : isLower c = true) : isAlpha c = true := by
  simp only [isLower, decide_eq_true_eq] at h
  simp only [isAlpha, decide_eq_true_eq]
  exact Or.inl h

theorem toLowerByte_of_isLower (c : Char) (h : isLower c = true) : strings.toLowerByte c = c := by
  simp only [isLower, decide_eq_true_eq] at h
  unfold strings.toLowerByte
  rw [if_neg]
  intro h2
  have h3 : 'Z'.toNat < 'a'.toNat := by decide
  omega

theorem ToLower_of_isLower (s : List Char) (h : ∀ c ∈ s, isLower c = true) :
    strings.ToLower s = s := by
  induction s with
  | nil => rfl
  | cons c s ih =>
    simp only [strings.ToLower, List.map_cons] at ih ⊢
    rw [toLowerByte_of_isLower c (h c (by simp)), ih (fun x hx => h x (by simp [hx]))]

theorem inert_of_alnum (c : Char) (ha : isAlpha c = true ∨ isDigit c = true) : Inert c := by
  have hne : ∀ d : Char, (isAlpha d = true ∨ isDigit d = true) = False → c ≠ d := by
    intro d hd hcd
    subst hcd
    rw [hd] at ha
    exact ha
  refine ⟨hne _ (by decide), hne _ (by decide), hne _ (by decide), hne _ (by decide),
    hne _ (by decide), hne _ (by decide), hne _ (by decide), ?_⟩
  simp only [isAlpha, isDigit, decide_eq_true_eq] at ha
  have h0 : ' '.toNat = 32 := by decide
  have h1 : 'a'.toNat = 97 := by decide
  have h2 : 'z'.toNat = 122 := by decide
  have h3 : 'A'.toNat = 65 := by decide
  have h4 : 'Z'.toNat = 90 := by decide
  have h5 : '0'.toNat = 48 := by decide
  have h6 : '9'.toNat = 57 := by decide
  omega

theorem plainPathByte_facts (c : Char) (h : plainPathByte c = true) :
    Inert c ∧ c ≠ ':' ∧ shouldEscape c encodePath = false := by
  by_cases ha : isAlpha c = true ∨ isDigit c = true
  · refine ⟨inert_of_alnum c ha, ?_, ?_⟩
    · intro hcd
      subst hcd
      revert ha
      decide
    · unfold shouldEscape
      rw [if_pos ha]
  · have hc : (((c = '/' ∨ c = '.') ∨ c = '-') ∨ c = '_') ∨ c = '~' := by
      simp only [not_or, Bool.not_eq_true] at ha
      simpa [plainPathByte, ha.1, ha.2] using h
    rcases hc with (((rfl | rfl) | rfl) | rfl) | rfl <;> exact ⟨by decide, by decide, by decide⟩

theorem plainHostByte_facts (c : Char) (h : plainHostByte c = true) :
    Inert c ∧ c ≠ ':' ∧ c ≠ '/' ∧ shouldEscape c encodeHost = false := by
  by_cases ha : isAlpha c = true ∨ isDigit c = true
  · refine ⟨inert_of_alnum c ha, ?_, ?_, ?_⟩
    · intro hcd
      subst hcd
      revert ha
      decide
    · intro hcd
      subst hcd
      revert ha
      decide
    · unfold shouldEscape
      rw [if_pos ha]
  · have hc : c = '.' ∨ c = '-' := by
      simp only [not_or, Bool.not_eq_true] at ha
      simpa [plainHostByte, ha.1, ha.2] using h
    rcases hc with rfl | rfl <;> exact ⟨by decide, by decide, by decide, by decide⟩

theorem digit_facts (c : Char) (h : isDigit c = true) :
    Inert c ∧ c ≠ ':' ∧ c ≠ '/' ∧ shouldEscape c encodeHost = false := by
  have hp : plainHostByte c = true := by simp [plainHostByte, h]
  exact plainHostByte_facts c hp

theorem colon_facts : Inert ':' ∧ ':' ≠ '/' ∧ shouldEscape ':' encodeHost = false :=
  ⟨by decide, by decide, by decide⟩

theorem unescapeCheck_cons (mode : encoding) (c : Char) (s : List Char) (hc : c ≠ '%') :
    unescapeCheck mode (c :: s) =
      if (mode = encodeHost ∨ mode = encodeZone) ∧ c.toNat < 128 ∧
          shouldEscape c encodeHost = true then
        some (.InvalidHostError (String.mk [c]))
      else unescapeCheck mode s := by
  rw [unescapeCheck]
  · intro a b t h _
    exact hc h
  · intro h
    exact hc h

theorem unescapeBuild_cons (mode : encoding) (c : Char) (s : List Char) (hc : c ≠ '%')
    (hp : c ≠ '+') : unescapeBuild mode (c :: s) = c :: unescapeBuild mode s := by
  rw [unescapeBuild]
  · intro a b t h _
    exact hc h
  · intro h
    exact hp h

theorem unescape_inert (mode : encoding) (s : List Char) (h : ∀ c ∈ s, Inert c)
    (hm : (mode = encodeHost ∨ mode = encodeZone) → ∀ c ∈ s, shouldEscape c encodeHost = false) :
    unescape s mode = .ok s := by
  have key : unescapeCheck mode s = none ∧ unescapeBuild mode s = s := by
    induction s with
    | nil => exact ⟨rfl, rfl⟩
    | cons c s ih =>
      have hf := h c (by simp)
      have ih := ih (fun x hx => h x (by simp [hx]))
        (fun hmode x hx => hm hmode x (by simp [hx]))
      rw [unescapeCheck_cons mode c s hf.1, unescapeBuild_cons mode c s hf.1 hf.2.1, ih.2]
      refine ⟨?_, rfl⟩
      rw [if_neg, ih.1]
      intro hcond
      have := hm hcond.1 c (by simp)
      rw [this] at hcond
      exact absurd hcond.2.2 (by simp)
  unfold unescape
  rw [key.1, key.2]

theorem escape_inert (mode : encoding) (s : List Char)
    (h : ∀ c ∈ s, Inert c ∧ shouldEscape c mode = false) : escape s mode = s := by
  induction s with
  | nil => rfl
  | cons c s ih =>
    have hc := h c (by simp)
    rw [escape, ih (fun x hx => h x (by simp [hx])), escapeByte,
      if_neg (fun hh => hc.1.2.2.2.2.2.2.1 hh.1), hc.2]
    rfl

theorem Cut_append (sep : Char) (a b : List Char) (h : sep ∉ a) :
    strings.Cut sep (a ++ sep :: b) = (a, b, true) := by
  induction a with
  | nil => simp [strings.Cut]
  | cons c a ih =>
    have hc : c ≠ sep := fun hh => h (by simp [hh])
    have ha : sep ∉ a := fun hh => h (by simp [hh])
    rw [List.cons_append, strings.Cut, if_neg hc, ih ha]

theorem LastIndex_of_not_mem (l : List Char) (c : Char) (h : c ∉ l) :
    strings.LastIndex l c = none := by
  induction l with
  | nil => rfl
  | cons x l ih =>
    have hx : x ≠ c := fun hh => h (by simp [hh])
    have hl : c ∉ l := fun hh => h (by simp [hh])
    rw [strings.LastIndex, ih hl]
    simp [hx]

theorem LastIndex_append (a b : List Char) (c : Char) (h : c ∉ b) :
    strings.LastIndex (a ++ c :: b) c = some a.length := by
  induction a with
  | nil =>
    rw [List.nil_append, strings.LastIndex, LastIndex_of_not_mem b c h]
    simp
  | cons x a ih =>
    rw [List.cons_append, strings.LastIndex, ih]
    rfl

theorem getSchemeLoop_alpha :
    ∀ (sch pre rest : List Char), (∀ c ∈ sch, isAlpha c = true) → pre ++ sch ≠ [] →
      getSchemeLoop (pre ++ sch ++ ':' :: rest) pre.length (sch ++ ':' :: rest) =
        .ok (pre ++ sch, rest) := by
  intro sch
  induction sch with
  | nil =>
    intro pre rest _ hne
    have hpre : pre ≠ [] := by simpa using hne
    have hlen : pre.length ≠ 0 := fun h => hpre (List.length_eq_zero.1 h)
    have h1 : isAlpha ':' = false := by decide
    have h2 : ¬ (isDigit ':' = true ∨ ':' = '+' ∨ ':' = '-' ∨ ':' = '.') := by decide
    simp only [List.nil_append, List.append_nil, getSchemeLoop, h1, Bool.false_eq_true, if_false,
      h2, if_true, hlen, List.take_left']
  | cons c sch ih =>
    intro pre rest h hne
    have hc : isAlpha c = true := h c (by simp)
    have := ih (pre ++ [c]) rest (fun x hx => h x (by simp [hx])) (by simp)
    simp only [List.append_assoc, List.singleton_append, List.length_append, List.length_singleton]
      at this
    simp only [List.cons_append, getSchemeLoop, hc, if_true]
    simpa using this

end url
namespace url
open encoding

theorem hostPort_facts (name port : List Char) (hn : ∀ c ∈ name, plainHostByte c = true)
    (hpt : ∀ c ∈ port, isDigit c = true) :
    ∀ c ∈ hostPort name port, Inert c ∧ c ≠ '/' ∧ shouldEscape c encodeHost = false := by
  intro c hc
  unfold hostPort at hc
  split at hc
  · have := plainHostByte_facts c (hn c hc)
    exact ⟨this.1, this.2.2.1, this.2.2.2⟩
  · simp only [List.mem_append, List.mem_cons] at hc
    rcases hc with hc | rfl | hc
    · have := plainHostByte_facts c (hn c hc)
      exact ⟨this.1, this.2.2.1, this.2.2.2⟩
    · exact colon_facts
    · have := digit_facts c (hpt c hc)
      exact ⟨this.1, this.2.2.1, this.2.2.2⟩

theorem hostPort_ne_nil (name port : List Char) (hne : name ≠ []) : hostPort name port ≠ [] := by
  unfold hostPort
  split
  · exact hne
  · simp

theorem parseHost_plain (name port : List Char)
    (hn : ∀ c ∈ name, plainHostByte c = true) (hpt : ∀ c ∈ port, isDigit c = true) :
    parseHost (hostPort name port) = .ok (hostPort name port) := by
  have hf := hostPort_facts name port hn hpt
  have hbr : strings.HasPrefix (hostPort name port) ['['] = false := by
    cases hh : hostPort name port with
    | nil => rfl
    | cons c t =>
      have hc := (hf c (by rw [hh]; simp)).1.2.2.2.2.2.1
      simp [strings.HasPrefix, List.isPrefixOf, hc.symm]
  have hun : unescape (hostPort name port) encodeHost = .ok (hostPort name port) :=
    unescape_inert encodeHost _ (fun c hc => (hf c hc).1) (fun _ c hc => (hf c hc).2.2)
  have hname : ':' ∉ name := fun hm => (plainHostByte_facts _ (hn _ hm)).2.1 rfl
  have hport : ':' ∉ port := fun hm => (digit_facts _ (hpt _ hm)).2.1 rfl
  unfold parseHost
  rw [hbr]
  simp only [Bool.false_eq_true, if_false]
  by_cases hp : port = []
  · have : hostPort name port = name := by simp [hostPort, hp]
    rw [this] at hun ⊢
    rw [LastIndex_of_not_mem name ':' hname]
    exact hun
  · have hh : hostPort name port = name ++ ':' :: port := by simp [hostPort, hp]
    rw [hh] at hun ⊢
    rw [LastIndex_append name port ':' hport]
    have hvalid : validOptionalPort (List.drop name.length (name ++ ':' :: port)) = true := by
      rw [List.drop_left]
      simp only [validOptionalPort, decide_True, Bool.true_and, List.all_eq_true]
      exact hpt
    simp only [hvalid, Bool.not_true, Bool.false_eq_true, if_false]
    exact hun

theorem parseAuthority_plain (name port : List Char)
    (hn : ∀ c ∈ name, plainHostByte c = true) (hpt : ∀ c ∈ port, isDigit c = true) :
    parseAuthority (hostPort name port) = .ok (none, hostPort name port) := by
  have hf := hostPort_facts name port hn hpt
  have hat : strings.LastIndex (hostPort name port) '@' = none := by
    apply LastIndex_of_not_mem
    intro hm
    exact (hf _ hm).1.2.2.2.2.1 rfl
  unfold parseAuthority
  simp only [hat, parseHost_plain name port hn hpt]

theorem setPath_plain (u : URL) (path : List Char) (h : ∀ c ∈ path, plainPathByte c = true) :
    URL.setPath u path = .ok { u with Path := String.mk path, RawPath := "" } := by
  have hun : unescape path encodePath = .ok path :=
    unescape_inert encodePath path (fun c hc => (plainPathByte_facts c (h c hc)).1)
      (fun hm => by simp at hm)
  have hesc : escape path encodePath = path :=
    escape_inert encodePath path (fun c hc =>
      ⟨(plainPathByte_facts c (h c hc)).1, (plainPathByte_facts c (h c hc)).2.2⟩)
  unfold URL.setPath
  simp only [hun, hesc, if_true]

theorem Cut_host_path (host path : List Char) (hno : '/' ∉ host)
    (hp : path = [] ∨ path.head? = some '/') :
    (strings.Cut '/' (host ++ path)).1 = host := by
  rcases hp with hp | hp
  · subst hp
    rw [List.append_nil, Cut_of_not_mem '/' host hno]
  · cases path with
    | nil => simp at hp
    | cons c t =>
      have hc : c = '/' := by simpa using hp
      subst hc
      rw [Cut_append '/' host t hno]

theorem stringContainsCTLByte_false (l : List Char)
    (h : ∀ c ∈ l, ¬ (c.toNat < ' '.toNat ∨ c.toNat = 127)) : stringContainsCTLByte l = false := by
  unfold stringContainsCTLByte
  rw [List.any_eq_false]
  intro c hc
  have := h c hc
  simpa using this

theorem parseHier_plain (u : URL) (hs : u.Scheme ≠ "") (name port path : List Char)
    (hn : ∀ c ∈ name, plainHostByte c = true)
    (hpt : ∀ c ∈ port, isDigit c = true) (hp : path = [] ∨ path.head? = some '/')
    (hpb : ∀ c ∈ path, plainPathByte c = true) (v : Bool) :
    parseHier u ('/' :: '/' :: (hostPort name port ++ path)) v =
      .ok { u with User := none, Host := String.mk (hostPort name port),
                   Path := String.mk path, RawPath := "" } := by
  have hf := hostPort_facts name port hn hpt
  have hauth := Cut_host_path (hostPort name port) path (fun hm => (hf _ hm).2.1 rfl) hp
  have hcond : (u.Scheme ≠ "" ∨
      ((!v) = true ∧
        (!strings.HasPrefix ('/' :: '/' :: (hostPort name port ++ path)) ['/', '/', '/']) = true)) ∧
      strings.HasPrefix ('/' :: '/' :: (hostPort name port ++ path)) ['/', '/'] = true :=
    ⟨Or.inl hs, by simp [strings.HasPrefix, List.isPrefixOf]⟩
  unfold parseHier
  rw [if_pos hcond]
  have hdrop : List.drop 2 ('/' :: '/' :: (hostPort name port ++ path)) =
      hostPort name port ++ path := rfl
  simp only [hdrop, hauth, List.drop_left', parseAuthority_plain name port hn hpt]
  rw [setPath_plain _ path hpb]

theorem parseAfterScheme_plain (scheme name port path : List Char)
    (h : PlainURL scheme name port path) (v : Bool) :
    parseAfterScheme scheme ('/' :: '/' :: (hostPort name port ++ path)) v =
      .ok (plainValue scheme name port path) := by
  obtain ⟨hsne, hs, hne, hn, hpt, hp, hpb⟩ := h
  have hf := hostPort_facts name port hn hpt
  have hq : '?' ∉ '/' :: '/' :: (hostPort name port ++ path) := by
    intro hm
    simp only [List.mem_cons, List.mem_append] at hm
    rcases hm with hm | hm | hm | hm
    · exact absurd hm (by decide)
    · exact absurd hm (by decide)
    · exact (hf _ hm).1.2.2.1 rfl
    · exact (plainPathByte_facts _ (hpb _ hm)).1.2.2.1 rfl
  have hfq : decide (strings.HasSuffix ('/' :: '/' :: (hostPort name port ++ path)) ['?'] = true ∧
      strings.Count ('/' :: '/' :: (hostPort name port ++ path)) '?' = 1) = false := by
    have hcount : strings.Count ('/' :: '/' :: (hostPort name port ++ path)) '?' = 0 := by
      unfold strings.Count
      exact List.count_eq_zero.2 hq
    rw [hcount]
    simp
  have hcut := Cut_of_not_mem '?' _ hq
  have hlow := ToLower_of_isLower scheme hs
  have hschne : String.mk scheme ≠ "" := by
    intro hh2
    exact hsne (congrArg String.data hh2)
  have hpre : ¬ ((!strings.HasPrefix ('/' :: '/' :: (hostPort name port ++ path)) ['/']) = true) := by
    simp [strings.HasPrefix, List.isPrefixOf]
  unfold parseAfterScheme
  simp only [hfq, hcut, hlow, Bool.false_eq_true, if_false]
  rw [if_neg hpre, parseHier_plain _ hschne name port path hn hpt hp hpb v]
  rfl

/-- A plain absolute URL parses, in either mode, to its scheme, host and path. -/
theorem parse_plain (scheme name port path : List Char) (h : PlainURL scheme name port path)
    (v : Bool) :
    parse (plainText scheme name port path).data v = .ok (plainValue scheme name port path) := by
  have h' := h
  obtain ⟨hsne, hs, hne, hn, hpt, hp, hpb⟩ := h
  have hf := hostPort_facts name port hn hpt
  have hsa : ∀ c ∈ scheme, isAlpha c = true := fun c hc => isAlpha_of_isLower c (hs c hc)
  have hctl : stringContainsCTLByte
      (scheme ++ ':' :: '/' :: '/' :: (hostPort name port ++ path)) = false := by
    apply stringContainsCTLByte_false
    intro c hc
    simp only [List.mem_append, List.mem_cons] at hc
    rcases hc with hc | rfl | rfl | rfl | hc | hc
    · exact (inert_of_alnum c (Or.inl (hsa c hc))).2.2.2.2.2.2.2
    · decide
    · decide
    · decide
    · exact (hf c hc).1.2.2.2.2.2.2.2
    · exact (plainPathByte_facts c (hpb c hc)).1.2.2.2.2.2.2.2
  have hnil : scheme ++ ':' :: '/' :: '/' :: (hostPort name port ++ path) ≠ [] := by simp
  have hstar : scheme ++ ':' :: '/' :: '/' :: (hostPort name port ++ path) ≠ ['*'] := by
    intro hh2
    have := congrArg List.length hh2
    simp at this
    omega
  have hsch : getScheme (scheme ++ ':' :: '/' :: '/' :: (hostPort name port ++ path)) =
      .ok (scheme, '/' :: '/' :: (hostPort name port ++ path)) := by
    have := getSchemeLoop_alpha scheme [] ('/' :: '/' :: (hostPort name port ++ path)) hsa
      (by simpa using hsne)
    simpa [getScheme] using this
  unfold parse plainText
  rw [hctl]
  simp only [Bool.false_eq_true, if_false, hnil, false_and, hstar, hsch]
  exact parseAfterScheme_plain scheme name port path h' v

/-- Serialising the value of a plain absolute URL gives back its text. -/
theorem String_plain (scheme name port path : List Char) (h : PlainURL scheme name port path) :
    URL.String (plainValue scheme name port path) = plainText scheme name port path := by
  obtain ⟨hsne, hs, hne, hn, hpt, hp, hpb⟩ := h
  have hf := hostPort_facts name port hn hpt
  have hschne : String.mk scheme ≠ "" := fun hh2 => hsne (congrArg String.data hh2)
  have hhostne : String.mk (hostPort name port) ≠ "" :=
    fun hh2 => hostPort_ne_nil name port hne (congrArg String.data hh2)
  have hesc : escape (hostPort name port) encodeHost = hostPort name port :=
    escape_inert encodeHost _ (fun c hc => ⟨(hf c hc).1, (hf c hc).2.2⟩)
  have hescp : escape path encodePath = path :=
    escape_inert encodePath path (fun c hc =>
      ⟨(plainPathByte_facts c (hpb c hc)).1, (plainPathByte_facts c (hpb c hc)).2.2⟩)
  have hstar : String.mk path ≠ "*" := by
    intro hh2
    have hd : path = ['*'] := congrArg String.data hh2
    rcases hp with hp | hp
    · rw [hp] at hd; cases hd
    · rw [hd] at hp; simp at hp
  have hpath : URL.EscapedPath (plainValue scheme name port path) = path := by
    unfold URL.EscapedPath plainValue
    simp only [ne_eq, not_true_eq_false, false_and, if_false, hstar, hescp]
  have hhead : ¬ (path ≠ [] ∧ path.head? ≠ some '/' ∧
      (plainValue scheme name port path).Host ≠ "") := by
    intro hh2
    rcases hp with hp | hp
    · exact hh2.1 hp
    · exact hh2.2.1 hp
  have hauth : URL.stringAuthority (plainValue scheme name port path) =
      scheme ++ ':' :: '/' :: '/' :: hostPort name port := by
    unfold URL.stringAuthority plainValue
    simp [hschne, hhostne, hesc]
  have hlen : ¬ ((scheme ++ ':' :: '/' :: '/' :: hostPort name port).length = 0 ∧
      strings.Contains (strings.Cut '/' path).1 ':' = true) := by
    intro hh2
    have := hh2.1
    simp at this
  unfold URL.String plainText
  rw [hpath, hauth]
  simp only [if_neg hhead, if_neg hlen]
  simp [plainValue]

theorem ParseRequestURI_plain (scheme name port path : List Char)
    (h : PlainURL scheme name port path) :
    ParseRequestURI (plainText scheme name port path) = .ok (plainValue scheme name port path) := by
  unfold ParseRequestURI
  rw [parse_plain scheme name port path h true]

theorem Parse_plain (scheme name port path : List Char) (h : PlainURL scheme name port path) :
    Parse (plainText scheme name port path) = .ok (plainValue scheme name port path) := by
  have h' := h
  obtain ⟨hsne, hs, hne, hn, hpt, hp, hpb⟩ := h
  have hf := hostPort_facts name port hn hpt
  apply Parse_of_ParseRequestURI _ _ (ParseRequestURI_plain scheme name port path h')
  · intro hh2
    exact hsne (congrArg String.data hh2)
  · intro hm
    simp only [plainText, List.mem_append, List.mem_cons] at hm
    rcases hm with hm | hm | hm | hm | hm | hm
    · exact (inert_of_alnum _ (Or.inl (isAlpha_of_isLower _ (hs _ hm)))).2.2.2.1 rfl
    · exact absurd hm (by decide)
    · exact absurd hm (by decide)
    · exact absurd hm (by decide)
    · exact (hf _ hm).1.2.2.2.1 rfl
    · exact (plainPathByte_facts _ (hpb _ hm)).1.2.2.2.1 rfl

end url

/-! ## The round trip of `url.ParseRequestURI` and `URL.String` -/

namespace url
open encoding

theorem hex_facts : ∀ n, n < 16 →
    ishex (upperhex n) = true ∧ unhex (upperhex n) = n ∧ upperhex n ≠ '%' := by
  decide

theorem byte_of_hex (c : Char) (hc : c.toNat < 256) :
    Char.ofNat (unhex (upperhex (c.toNat / 16 % 16)) * 16 + unhex (upperhex (c.toNat % 16))) = c := by
  have h1 := (hex_facts (c.toNat / 16 % 16) (Nat.mod_lt _ (by decide))).2.1
  have h2 := (hex_facts (c.toNat % 16) (Nat.mod_lt _ (by decide))).2.1
  rw [h1, h2]
  have : c.toNat / 16 % 16 * 16 + c.toNat % 16 = c.toNat := by omega
  rw [this]
  exact Char.ofNat_toNat c

theorem shouldEscape_percent (m : encoding) : shouldEscape '%' m = true := by
  cases m <;> decide

theorem triple_induction {P : List Char → Prop} (hnil : P [])
    (h3 : ∀ a b s, P s → P ('%' :: a :: b :: s)) (h1 : P ['%']) (h2 : ∀ a, P ['%', a])
    (hc : ∀ c s, c ≠ '%' → P s → P (c :: s)) : ∀ l, P l := by
  have key : ∀ n (l : List Char), l.length ≤ n → P l := by
    intro n
    induction n with
    | zero =>
      intro l hl
      have : l = [] := List.length_eq_zero.1 (Nat.le_zero.1 hl)
      subst this
      exact hnil
    | succ n ih =>
      intro l hl
      match l, hl with
      | [], _ => exact hnil
      | c :: t, hl =>
        by_cases hcp : c = '%'
        · subst hcp
          match t, hl with
          | [], _ => exact h1
          | [a], _ => exact h2 a
          | a :: b :: s, hl =>
            apply h3
            apply ih
            simp at hl
            omega
        · apply hc c t hcp
          apply ih
          simp at hl
          omega
  intro l
  exact key l.length l (Nat.le_refl _)

theorem unescapeCheck_triple (m : encoding) (a b : Char) (s : List Char) :
    unescapeCheck m ('%' :: a :: b :: s) =
      if !ishex a || !ishex b then some (.EscapeError (String.mk ['%', a, b]))
      else if m = encodeHost ∧ unhex a < 8 ∧ ['%', a, b] ≠ ['%', '2', '5'] then
        some (.EscapeError (String.mk ['%', a, b]))
      else if m = encodeZone ∧ ['%', a, b] ≠ ['%', '2', '5'] ∧
          unhex a * 16 + unhex b ≠ ' '.toNat ∧
          shouldEscape (Char.ofNat (unhex a * 16 + unhex b)) encodeHost then
        some (.EscapeError (String.mk ['%', a, b]))
      else unescapeCheck m s := by
  rw [unescapeCheck]

theorem unescapeBuild_triple (m : encoding) (a b : Char) (s : List Char) :
    unescapeBuild m ('%' :: a :: b :: s) =
      Char.ofNat (unhex a * 16 + unhex b) :: unescapeBuild m s := by
  rw [unescapeBuild]

theorem unescapeCheck_short1 (m : encoding) : unescapeCheck m ['%'] ≠ none := by
  rw [unescapeCheck]
  · simp
  · intro a b s h
    cases h

theorem unescapeCheck_short2 (m : encoding) (a : Char) : unescapeCheck m ['%', a] ≠ none := by
  rw [unescapeCheck]
  · simp
  · intro a b s h
    cases h

theorem unescapeBuild_raw (m : encoding) (c : Char) (s : List Char) (hc : c ≠ '%')
    (hm : m ≠ encodeQueryComponent) : unescapeBuild m (c :: s) = c :: unescapeBuild m s := by
  by_cases hp : c = '+'
  · subst hp
    rw [unescapeBuild]
    simp [hm]
  · exact unescapeBuild_cons m c s hc hp


theorem escape_append (a b : List Char) (m : encoding) :
    escape (a ++ b) m = escape a m ++ escape b m := by
  induction a with
  | nil => rfl
  | cons c a ih => rw [List.cons_append, escape, escape, ih, List.append_assoc]

theorem mem_escapeByte (m : encoding) (c x : Char) (h : x ∈ escapeByte m c) :
    (x = c ∧ shouldEscape c m = false) ∨ x = '%' ∨ (∃ n, n < 16 ∧ x = upperhex n) ∨
      (x = '+' ∧ m = encodeQueryComponent) := by
  unfold escapeByte at h
  split at h
  · rename_i hq
    simp only [List.mem_singleton] at h
    exact Or.inr (Or.inr (Or.inr ⟨h, hq.2⟩))
  · split at h
    · simp only [List.mem_cons, List.mem_singleton, List.not_mem_nil, or_false] at h
      rcases h with h | h | h
      · exact Or.inr (Or.inl h)
      · exact Or.inr (Or.inr (Or.inl ⟨_, Nat.mod_lt _ (by decide), h⟩))
      · exact Or.inr (Or.inr (Or.inl ⟨_, Nat.mod_lt _ (by decide), h⟩))
    · rename_i hs
      simp only [List.mem_singleton] at h
      exact Or.inl ⟨h, by simpa using hs⟩

theorem mem_escape (m : encoding) (H : List Char) (x : Char) (h : x ∈ escape H m) :
    (x ∈ H ∧ shouldEscape x m = false) ∨ x = '%' ∨ (∃ n, n < 16 ∧ x = upperhex n) ∨
      (x = '+' ∧ m = encodeQueryComponent) := by
  induction H with
  | nil => simp [escape] at h
  | cons c H ih =>
    rw [escape, List.mem_append] at h
    rcases h with h | h
    · rcases mem_escapeByte m c x h with ⟨h1, h2⟩ | h1 | h1 | h1
      · subst h1
        exact Or.inl ⟨by simp, h2⟩
      · exact Or.inr (Or.inl h1)
      · exact Or.inr (Or.inr (Or.inl h1))
      · exact Or.inr (Or.inr (Or.inr h1))
    · rcases ih h with ⟨h1, h2⟩ | h1 | h1 | h1
      · exact Or.inl ⟨by simp [h1], h2⟩
      · exact Or.inr (Or.inl h1)
      · exact Or.inr (Or.inr (Or.inl h1))
      · exact Or.inr (Or.inr (Or.inr h1))

/-- A byte that every mode escapes, and that is neither `%` nor a hexadecimal
digit, does not occur in escaped text. -/
theorem not_mem_escape (m : encoding) (H : List Char) (x : Char)
    (hx : shouldEscape x m = true) (hp : x ≠ '%') (hh : ∀ n, n < 16 → x ≠ upperhex n)
    (hq : m ≠ encodeQueryComponent) : x ∉ escape H m := by
  intro h
  rcases mem_escape m H x h with ⟨_, h2⟩ | h1 | ⟨n, hn, h1⟩ | ⟨_, h1⟩
  · rw [hx] at h2
    cases h2
  · exact hp h1
  · exact hh n hn h1
  · exact hq h1

theorem sep_not_hex :
    (∀ n, n < 16 → '/' ≠ upperhex n) ∧ (∀ n, n < 16 → '?' ≠ upperhex n) ∧
    (∀ n, n < 16 → '#' ≠ upperhex n) ∧ (∀ n, n < 16 → '@' ≠ upperhex n) ∧
    (∀ n, n < 16 → ':' ≠ upperhex n) ∧
    (∀ n, n < 16 → ¬ ((upperhex n).toNat < ' '.toNat ∨ (upperhex n).toNat = 127)) := by
  decide

theorem shouldEscape_ctl (c : Char) (m : encoding) (h : c.toNat < ' '.toNat ∨ c.toNat = 127) :
    shouldEscape c m = true := by
  have key : ∀ n : Fin 128, (n.val < 32 ∨ n.val = 127) →
      shouldEscape (Char.ofNat n.val) encodePath = true ∧
      shouldEscape (Char.ofNat n.val) encodePathSegment = true ∧
      shouldEscape (Char.ofNat n.val) encodeHost = true ∧
      shouldEscape (Char.ofNat n.val) encodeZone = true ∧
      shouldEscape (Char.ofNat n.val) encodeUserPassword = true ∧
      shouldEscape (Char.ofNat n.val) encodeQueryComponent = true ∧
      shouldEscape (Char.ofNat n.val) encodeFragment = true := by
    decide
  have h32 : ' '.toNat = 32 := by decide
  rw [h32] at h
  have hlt : c.toNat < 128 := by omega
  have := key ⟨c.toNat, hlt⟩ h
  simp only [Char.ofNat_toNat] at this
  cases m
  · exact this.1
  · exact this.2.1
  · exact this.2.2.1
  · exact this.2.2.2.1
  · exact this.2.2.2.2.1
  · exact this.2.2.2.2.2.1
  · exact this.2.2.2.2.2.2

/-- Escaped text holds no control byte. -/
theorem escape_noCTL (m : encoding) (H : List Char) (hq : m ≠ encodeQueryComponent) :
    ∀ x ∈ escape H m, ¬ (x.toNat < ' '.toNat ∨ x.toNat = 127) := by
  intro x hx hctl
  rcases mem_escape m H x hx with ⟨_, h2⟩ | h1 | ⟨n, hn, h1⟩ | ⟨_, h1⟩
  · rw [shouldEscape_ctl x m hctl] at h2
    cases h2
  · subst h1
    revert hctl
    decide
  · subst h1
    exact sep_not_hex.2.2.2.2.2 n hn hctl
  · exact hq h1

theorem unescape_escape (m1 m2 : encoding) (H : List Char) (h : ∀ c ∈ H, StepOK m1 m2 c) :
    unescape (escape H m1) m2 = .ok H := by
  have key : unescapeCheck m2 (escape H m1) = none ∧ unescapeBuild m2 (escape H m1) = H := by
    induction H with
    | nil => exact ⟨rfl, rfl⟩
    | cons c H ih =>
      have ih := ih (fun x hx => h x (by simp [hx]))
      have hc := h c (by simp) (escape H m1)
      rw [escape, hc.1, hc.2, ih.1, ih.2]
      exact ⟨rfl, rfl⟩
  unfold unescape
  rw [key.1, key.2]

theorem stepOK_raw (m1 m2 : encoding) (c : Char) (h1 : m1 ≠ encodeQueryComponent)
    (h2 : m2 ≠ encodeQueryComponent) (hs : shouldEscape c m1 = false)
    (hr : (m2 = encodeHost ∨ m2 = encodeZone) →
      ¬ (c.toNat < 128 ∧ shouldEscape c encodeHost = true)) : StepOK m1 m2 c := by
  intro t
  have hp : c ≠ '%' := by
    intro hh
    subst hh
    rw [shouldEscape_percent] at hs
    cases hs
  have he : escapeByte m1 c = [c] := by
    unfold escapeByte
    rw [if_neg (fun hh => h1 hh.2), hs]
    rfl
  rw [he, List.singleton_append, unescapeCheck_cons m2 c t hp, unescapeBuild_raw m2 c t hp h2]
  refine ⟨?_, rfl⟩
  rw [if_neg]
  intro hh
  exact hr hh.1 hh.2

theorem stepOK_triple (m1 m2 : encoding) (c : Char) (h1 : m1 ≠ encodeQueryComponent)
    (hs : shouldEscape c m1 = true) (hb : c.toNat < 256)
    (hh : m2 = encodeHost → 128 ≤ c.toNat ∨ c = '%')
    (hz : m2 = encodeZone → c = '%' ∨ c = ' ' ∨ shouldEscape c encodeHost = false) :
    StepOK m1 m2 c := by
  intro t
  have he : escapeByte m1 c = ['%', upperhex (c.toNat / 16 % 16), upperhex (c.toNat % 16)] := by
    unfold escapeByte
    rw [if_neg (fun hh => h1 hh.2), hs]
    rfl
  have ha := hex_facts (c.toNat / 16 % 16) (Nat.mod_lt _ (by decide))
  have hb2 := hex_facts (c.toNat % 16) (Nat.mod_lt _ (by decide))
  have hval := byte_of_hex c hb
  have hnum : unhex (upperhex (c.toNat / 16 % 16)) * 16 + unhex (upperhex (c.toNat % 16)) =
      c.toNat := by
    rw [ha.2.1, hb2.2.1]
    omega
  rw [he]
  simp only [List.cons_append, List.nil_append]
  rw [unescapeCheck_triple, unescapeBuild_triple, hval]
  refine ⟨?_, rfl⟩
  rw [if_neg (by simp [ha.1, hb2.1]), if_neg, if_neg]
  · intro hcond
    rcases hz hcond.1 with h | h | h
    · subst h
      exact hcond.2.1 (by decide)
    · subst h
      exact hcond.2.2.1 hnum
    · rw [h] at hcond
      exact absurd hcond.2.2.2 (by simp)
  · intro hcond
    rcases hh hcond.1 with h | h
    · rw [ha.2.1] at hcond
      omega
    · subst h
      exact hcond.2.2 (by decide)


theorem unhex_lt (c : Char) : unhex c < 16 := by
  unfold unhex
  have h1 : 'a'.toNat = 97 := by decide
  have h2 : 'f'.toNat = 102 := by decide
  have h3 : 'A'.toNat = 65 := by decide
  have h4 : 'F'.toNat = 70 := by decide
  have h5 : '0'.toNat = 48 := by decide
  have h6 : '9'.toNat = 57 := by decide
  split
  · rename_i h
    simp only [isDigit, decide_eq_true_eq] at h
    omega
  · split
    · omega
    · split
      · omega
      · omega

theorem toNat_ofNat_of_lt (n : Nat) (h : n < 256) : (Char.ofNat n).toNat = n := by
  have hv : n.isValidChar := Or.inl (by omega)
  simp only [Char.ofNat, hv, Char.ofNatAux, Char.toNat, dif_pos]
  simp [UInt32.toNat, BitVec.toNat_ofNatLt]

/-- A prefix that passes the check of `unescape` is unescaped on its own. -/
theorem unescape_append (m : encoding) (hm : m ≠ encodeQueryComponent) (t : List Char) :
    ∀ pre, unescapeCheck m pre = none →
      unescapeCheck m (pre ++ t) = unescapeCheck m t ∧
        unescapeBuild m (pre ++ t) = unescapeBuild m pre ++ unescapeBuild m t := by
  apply triple_induction
  · intro _
    exact ⟨rfl, rfl⟩
  · intro a b s ih h
    rw [unescapeCheck_triple] at h
    simp only [List.cons_append]
    rw [unescapeCheck_triple, unescapeBuild_triple, unescapeBuild_triple]
    split at h
    · cases h
    · rename_i h1
      rw [if_neg h1]
      split at h
      · cases h
      · rename_i h2
        rw [if_neg h2]
        split at h
        · cases h
        · rename_i h3
          rw [if_neg h3]
          have := ih h
          exact ⟨this.1, by rw [this.2]; rfl⟩
  · intro h
    exact absurd h (unescapeCheck_short1 m)
  · intro a h
    exact absurd h (unescapeCheck_short2 m a)
  · intro c s hc ih h
    rw [unescapeCheck_cons m c s hc] at h
    simp only [List.cons_append]
    rw [unescapeCheck_cons m c _ hc, unescapeBuild_raw m c _ hc hm, unescapeBuild_raw m c _ hc hm]
    split at h
    · cases h
    · rename_i h1
      rw [if_neg h1]
      have := ih h
      exact ⟨this.1, by rw [this.2]; rfl⟩

/-- The text before a byte that is not a hexadecimal digit passes the check
when the whole text does. -/
theorem unescapeCheck_split (m : encoding) (c : Char) (t : List Char) (hc : ishex c = false) :
    ∀ pre, unescapeCheck m (pre ++ c :: t) = none → unescapeCheck m pre = none := by
  apply triple_induction
  · intro _
    rfl
  · intro a b s ih h
    simp only [List.cons_append] at h
    rw [unescapeCheck_triple] at h ⊢
    split at h
    · cases h
    · rename_i h1
      rw [if_neg h1]
      split at h
      · cases h
      · rename_i h2
        rw [if_neg h2]
        split at h
        · cases h
        · rename_i h3
          rw [if_neg h3]
          exact ih h
  · intro h
    exfalso
    simp only [List.cons_append, List.nil_append] at h
    cases t with
    | nil => exact unescapeCheck_short2 m c h
    | cons b s =>
      rw [unescapeCheck_triple] at h
      simp [hc] at h
  · intro a h
    exfalso
    simp only [List.cons_append, List.nil_append] at h
    rw [unescapeCheck_triple] at h
    simp [hc] at h
  · intro c0 s hc0 ih h
    simp only [List.cons_append] at h
    rw [unescapeCheck_cons m c0 _ hc0] at h ⊢
    split at h
    · cases h
    · rename_i h1
      rw [if_neg h1]
      exact ih h

/-- Unescaping a byte string gives a byte string. -/
theorem unescapeBuild_bytes (m : encoding) (hm : m ≠ encodeQueryComponent) :
    ∀ s, unescapeCheck m s = none → (∀ c ∈ s, c.toNat < 256) →
      ∀ c ∈ unescapeBuild m s, c.toNat < 256 := by
  apply triple_induction
  · intro _ _ c hc
    simp [unescapeBuild] at hc
  · intro a b s ih h hb c hc
    rw [unescapeCheck_triple] at h
    rw [unescapeBuild_triple] at hc
    have hs : unescapeCheck m s = none := by
      split at h
      · cases h
      · split at h
        · cases h
        · split at h
          · cases h
          · exact h
    rcases List.mem_cons.1 hc with hc | hc
    · subst hc
      have ha := unhex_lt a
      have hb2 := unhex_lt b
      rw [toNat_ofNat_of_lt _ (by omega)]
      omega
    · exact ih hs (fun x hx => hb x (by simp [hx])) c hc
  · intro h
    exact absurd h (unescapeCheck_short1 m)
  · intro a h
    exact absurd h (unescapeCheck_short2 m a)
  · intro c0 s hc0 ih h hb c hc
    rw [unescapeCheck_cons m c0 s hc0] at h
    rw [unescapeBuild_raw m c0 s hc0 hm] at hc
    have hs : unescapeCheck m s = none := by
      split at h
      · cases h
      · exact h
    rcases List.mem_cons.1 hc with hc | hc
    · subst hc
      exact hb c (by simp)
    · exact ih hs (fun x hx => hb x (by simp [hx])) c hc

/-- The bytes of an unescaped host: a byte that host mode escapes is `%` or
not ASCII, and an ASCII byte other than `%` stood in the text. -/
theorem unescapeBuild_host_chars :
    ∀ s, unescapeCheck encodeHost s = none →
      ∀ c ∈ unescapeBuild encodeHost s,
        (shouldEscape c encodeHost = true → 128 ≤ c.toNat ∨ c = '%') ∧
          (c.toNat < 128 → c ≠ '%' → c ∈ s) := by
  apply triple_induction
  · intro _ c hc
    simp [unescapeBuild] at hc
  · intro a b s ih h c hc
    rw [unescapeCheck_triple] at h
    rw [unescapeBuild_triple] at hc
    split at h
    · cases h
    · split at h
      · cases h
      · rename_i h2
        split at h
        · cases h
        · rcases List.mem_cons.1 hc with hc | hc
          · subst hc
            have ha := unhex_lt a
            have hb2 := unhex_lt b
            have hv := toNat_ofNat_of_lt (unhex a * 16 + unhex b) (by omega)
            by_cases h8 : unhex a < 8
            · have ht : ['%', a, b] = ['%', '2', '5'] := by
                by_contra hne
                exact h2 ⟨rfl, h8, hne⟩
              simp only [List.cons.injEq, true_and, and_true] at ht
              rw [ht.1, ht.2]
              exact ⟨fun _ => Or.inr (by decide), fun _ hne => absurd (by decide) hne⟩
            · refine ⟨fun _ => Or.inl (by omega), fun hlt _ => ?_⟩
              omega
          · have := ih h c hc
            exact ⟨this.1, fun h1 h2 => by simp [this.2 h1 h2]⟩
  · intro h
    exact absurd h (unescapeCheck_short1 _)
  · intro a h
    exact absurd h (unescapeCheck_short2 _ a)
  · intro c0 s hc0 ih h c hc
    rw [unescapeCheck_cons _ c0 s hc0] at h
    rw [unescapeBuild_raw _ c0 s hc0 (by decide)] at hc
    split at h
    · cases h
    · rename_i h1
      rcases List.mem_cons.1 hc with hc | hc
      · subst hc
        refine ⟨fun hs => ?_, fun _ _ => by simp⟩
        by_contra hlt
        simp only [not_or, not_le] at hlt
        exact h1 ⟨Or.inl rfl, hlt.1, hs⟩
      · have := ih h c hc
        exact ⟨this.1, fun h1 h2 => by simp [this.2 h1 h2]⟩

/-- The bytes of an unescaped zone: an ASCII byte that host mode escapes is
`%` or a space. -/
theorem unescapeBuild_zone_chars :
    ∀ s, unescapeCheck encodeZone s = none →
      ∀ c ∈ unescapeBuild encodeZone s,
        c.toNat < 128 → shouldEscape c encodeHost = true → c = '%' ∨ c = ' ' := by
  apply triple_induction
  · intro _ c hc
    simp [unescapeBuild] at hc
  · intro a b s ih h c hc
    rw [unescapeCheck_triple] at h
    rw [unescapeBuild_triple] at hc
    split at h
    · cases h
    · split at h
      · cases h
      · split at h
        · cases h
        · rename_i h3
          rcases List.mem_cons.1 hc with hc | hc
          · subst hc
            intro hlt hs
            have ha := unhex_lt a
            have hb2 := unhex_lt b
            have hv := toNat_ofNat_of_lt (unhex a * 16 + unhex b) (by omega)
            by_cases ht : ['%', a, b] = ['%', '2', '5']
            · simp only [List.cons.injEq, true_and, and_true] at ht
              rw [ht.1, ht.2]
              exact Or.inl (by decide)
            · by_cases hsp : unhex a * 16 + unhex b = ' '.toNat
              · right
                rw [hsp]
                decide
              · exact absurd ⟨rfl, ht, hsp, hs⟩ h3
          · exact ih h c hc
  · intro h
    exact absurd h (unescapeCheck_short1 _)
  · intro a h
    exact absurd h (unescapeCheck_short2 _ a)
  · intro c0 s hc0 ih h c hc
    rw [unescapeCheck_cons _ c0 s hc0] at h
    rw [unescapeBuild_raw _ c0 s hc0 (by decide)] at hc
    split at h
    · cases h
    · rename_i h1
      rcases List.mem_cons.1 hc with hc | hc
      · subst hc
        intro hlt hs
        exact absurd ⟨Or.inr rfl, hlt, hs⟩ h1
      · exact ih h c hc


theorem LastIndex_some_spec (c : Char) :
    ∀ (l : List Char) (i : Nat), strings.LastIndex l c = some i →
      ∃ a b, l = a ++ c :: b ∧ a.length = i ∧ c ∉ b := by
  intro l
  induction l with
  | nil =>
    intro i h
    simp [strings.LastIndex] at h
  | cons x l ih =>
    intro i h
    rw [strings.LastIndex] at h
    cases hl : strings.LastIndex l c with
    | some j =>
      rw [hl] at h
      simp only [Option.some.injEq] at h
      obtain ⟨a, b, hab, hlen, hb⟩ := ih j hl
      exact ⟨x :: a, b, by rw [hab]; rfl, by simp [hlen, h], hb⟩
    | none =>
      rw [hl] at h
      simp only at h
      split at h
      · rename_i hx
        simp only [Option.some.injEq] at h
        refine ⟨[], l, by rw [hx]; rfl, by simp [h], ?_⟩
        intro hm
        have : strings.LastIndex l c ≠ none := by
          clear ih h hx
          induction l with
          | nil => simp at hm
          | cons y l ih2 =>
            rw [strings.LastIndex]
            cases hl2 : strings.LastIndex l c with
            | some j => simp
            | none =>
              simp only
              rcases List.mem_cons.1 hm with hm | hm
              · simp [hm]
              · rw [strings.LastIndex, hl2] at hl
                exact absurd hl2 (ih2 hl2 hm)
        exact this hl
      · cases h

theorem LastIndex_none_spec (c : Char) (l : List Char) (h : strings.LastIndex l c = none) :
    c ∉ l := by
  induction l with
  | nil => simp
  | cons x l ih =>
    intro hm
    rw [strings.LastIndex] at h
    cases hl : strings.LastIndex l c with
    | some j =>
      rw [hl] at h
      cases h
    | none =>
      rw [hl] at h
      simp only at h
      split at h
      · cases h
      · rename_i hx
        rcases List.mem_cons.1 hm with hm2 | hm2
        · exact hx hm2.symm
        · exact ih hl hm2

theorem Index_some_spec (sub : List Char) :
    ∀ (l : List Char) (z : Nat), strings.Index l sub = some z →
      ∃ rest, l = l.take z ++ (sub ++ rest) := by
  intro l
  induction l with
  | nil =>
    intro z h
    rw [strings.Index] at h
    split at h
    · rename_i hs
      simp only [Option.some.injEq] at h
      subst h
      exact ⟨[], by simp [hs]⟩
    · cases h
  | cons x l ih =>
    intro z h
    rw [strings.Index] at h
    split at h
    · rename_i hp
      simp only [Option.some.injEq] at h
      subst h
      obtain ⟨t, ht⟩ := List.isPrefixOf_iff_prefix.1 hp
      exact ⟨t, by simp [ht]⟩
    · cases hl : strings.Index l sub with
      | none => rw [hl] at h; cases h
      | some j =>
        rw [hl] at h
        simp only [Option.map_some', Option.some.injEq] at h
        subst h
        obtain ⟨rest, hr⟩ := ih j hl
        exact ⟨rest, by rw [List.take_succ_cons, List.cons_append, ← hr]⟩

theorem Index_some_min (sub : List Char) (hne : sub ≠ []) :
    ∀ (l : List Char) (z : Nat), strings.Index l sub = some z →
      ∀ pre suf, l.take z = pre ++ suf → sub.isPrefixOf suf = false := by
  intro l
  induction l with
  | nil =>
    intro z h
    rw [strings.Index] at h
    simp [hne] at h
  | cons x l ih =>
    intro z h pre suf hps
    rw [strings.Index] at h
    split at h
    · simp only [Option.some.injEq] at h
      subst h
      simp only [List.take_zero] at hps
      have : suf = [] := by
        have := congrArg List.length hps
        simp at this
        exact List.length_eq_zero.1 (by omega)
      subst this
      cases sub with
      | nil => exact absurd rfl hne
      | cons a s => rfl
    · rename_i hp
      cases hl : strings.Index l sub with
      | none => rw [hl] at h; cases h
      | some j =>
        rw [hl] at h
        simp only [Option.map_some', Option.some.injEq] at h
        subst h
        rw [List.take_succ_cons] at hps
        cases pre with
        | nil =>
          simp only [List.nil_append] at hps
          by_contra hcon
          simp only [Bool.not_eq_false] at hcon
          apply hp
          rw [List.isPrefixOf_iff_prefix] at hcon ⊢
          refine hcon.trans ?_
          rw [← hps]
          exact (List.prefix_cons_inj x).2 (List.take_prefix j l)
        | cons y pre =>
          simp only [List.cons_append, List.cons.injEq] at hps
          exact ih j hl pre suf hps.2

theorem Index_none_spec (sub : List Char) :
    ∀ (l : List Char), strings.Index l sub = none →
      ∀ pre suf, l = pre ++ suf → sub.isPrefixOf suf = false := by
  intro l
  induction l with
  | nil =>
    intro h pre suf hps
    rw [strings.Index] at h
    split at h
    · cases h
    · rename_i hne
      have : suf = [] := by
        have := congrArg List.length hps
        simp at this
        exact List.length_eq_zero.1 (by omega)
      subst this
      cases sub with
      | nil => exact absurd rfl hne
      | cons a s => rfl
  | cons x l ih =>
    intro h pre suf hps
    rw [strings.Index] at h
    split at h
    · cases h
    · rename_i hp
      have hl : strings.Index l sub = none := by
        cases hl : strings.Index l sub with
        | none => rfl
        | some j => rw [hl] at h; cases h
      cases pre with
      | nil =>
        simp only [List.nil_append] at hps
        rw [← hps]
        simpa only [Bool.not_eq_true] using hp
      | cons y pre =>
        simp only [List.cons_append, List.cons.injEq] at hps
        exact ih hl pre suf hps.2


theorem unescape_ok (s r : List Char) (m : encoding) (h : unescape s m = .ok r) :
    unescapeCheck m s = none ∧ r = unescapeBuild m s := by
  unfold unescape at h
  split at h
  · cases h
  · rename_i hc
    injection h with h
    exact ⟨hc, h.symm⟩

theorem pct_not_mem_build :
    ∀ X, unescapeCheck encodeHost X = none →
      (∀ pre suf, X = pre ++ suf → ['%', '2', '5'].isPrefixOf suf = false) →
      '%' ∉ unescapeBuild encodeHost X := by
  apply triple_induction
  · intro _ _
    simp [unescapeBuild]
  · intro a b s ih h hyp
    rw [unescapeCheck_triple] at h
    rw [unescapeBuild_triple]
    split at h
    · cases h
    · split at h
      · cases h
      · rename_i h2
        split at h
        · cases h
        · have h0 := hyp [] _ rfl
          have hne : ['%', a, b] ≠ ['%', '2', '5'] := by
            intro heq
            simp only [List.cons.injEq, true_and, and_true] at heq
            rw [heq.1, heq.2] at h0
            simp [List.isPrefixOf] at h0
          have h8 : ¬ unhex a < 8 := fun h8 => h2 ⟨rfl, h8, hne⟩
          have ha := unhex_lt a
          have hb2 := unhex_lt b
          have hv := toNat_ofNat_of_lt (unhex a * 16 + unhex b) (by omega)
          intro hm
          rcases List.mem_cons.1 hm with hm | hm
          · have := congrArg Char.toNat hm
            rw [hv] at this
            have h37 : '%'.toNat = 37 := by decide
            omega
          · exact ih h (fun pre suf hps => hyp ('%' :: a :: b :: pre) suf (by rw [hps]; rfl)) hm
  · intro h
    exact absurd h (unescapeCheck_short1 _)
  · intro a h
    exact absurd h (unescapeCheck_short2 _ a)
  · intro c0 s hc0 ih h hyp
    rw [unescapeCheck_cons _ c0 s hc0] at h
    rw [unescapeBuild_raw _ c0 s hc0 (by decide)]
    split at h
    · cases h
    · intro hm
      rcases List.mem_cons.1 hm with hm | hm
      · exact hc0 hm.symm
      · exact ih h (fun pre suf hps => hyp (c0 :: pre) suf (by rw [hps]; rfl)) hm

theorem Index_escape (T : List Char) :
    ∀ H : List Char, (∀ c ∈ H, c ≠ '%' ∧ c.toNat < 256) →
      strings.Index (escape H encodeHost ++ T) ['%', '2', '5'] =
        (strings.Index T ['%', '2', '5']).map (· + (escape H encodeHost).length) := by
  intro H
  induction H with
  | nil =>
    intro _
    simp [escape]
  | cons c H ih =>
    intro h
    have ih := ih (fun x hx => h x (by simp [hx]))
    have hc := h c (by simp)
    rw [escape, List.append_assoc]
    by_cases hs : shouldEscape c encodeHost = true
    · have he : escapeByte encodeHost c =
          ['%', upperhex (c.toNat / 16 % 16), upperhex (c.toNat % 16)] := by
        unfold escapeByte
        rw [if_neg (fun hh => by simp at hh), hs]
        rfl
      have ha := hex_facts (c.toNat / 16 % 16) (Nat.mod_lt _ (by decide))
      have hb := hex_facts (c.toNat % 16) (Nat.mod_lt _ (by decide))
      have hne : ¬ (upperhex (c.toNat / 16 % 16) = '2' ∧ upperhex (c.toNat % 16) = '5') := by
        intro hh
        have h1 := ha.2.1
        have h2 := hb.2.1
        rw [hh.1] at h1
        rw [hh.2] at h2
        have e1 : unhex '2' = 2 := by decide
        have e2 : unhex '5' = 5 := by decide
        rw [e1] at h1
        rw [e2] at h2
        have : c.toNat = 37 := by omega
        apply hc.1
        rw [← Char.ofNat_toNat c, this]
      rw [he]
      simp only [List.cons_append, List.nil_append]
      rw [strings.Index, if_neg, strings.Index, if_neg, strings.Index, if_neg, ih]
      · cases strings.Index T ['%', '2', '5'] <;> simp [Nat.add_assoc]
      · simp only [List.isPrefixOf, Bool.and_eq_true, beq_iff_eq, Bool.not_eq_true]
        intro hh
        exact absurd hh.1.symm hb.2.2
      · simp only [List.isPrefixOf, Bool.and_eq_true, beq_iff_eq, Bool.not_eq_true]
        intro hh
        exact absurd hh.1.symm ha.2.2
      · simp only [List.isPrefixOf, Bool.and_eq_true, beq_iff_eq, Bool.not_eq_true]
        intro hh
        exact hne ⟨hh.2.1.symm, hh.2.2.1.symm⟩
    · have he : escapeByte encodeHost c = [c] := by
        unfold escapeByte
        rw [if_neg (fun hh => by simp at hh), if_neg hs]
      rw [he]
      simp only [List.cons_append, List.nil_append]
      rw [strings.Index, if_neg, ih]
      · cases strings.Index T ['%', '2', '5'] <;> simp [Nat.add_assoc]
      · simp only [List.isPrefixOf, Bool.and_eq_true, beq_iff_eq, Bool.not_eq_true]
        intro hh
        exact hc.1 hh.1.symm

theorem hasPrefix_bracket (l : List Char) :
    strings.HasPrefix l ['['] = true ↔ l.head? = some '[' := by
  cases l with
  | nil => simp [strings.HasPrefix]
  | cons c t =>
    simp only [strings.HasPrefix, List.isPrefixOf, Bool.and_true, beq_iff_eq, List.head?_cons,
      Option.some.injEq]
    exact eq_comm

theorem triple_value_host (a b : Char) (s : List Char)
    (h : unescapeCheck encodeHost ('%' :: a :: b :: s) = none) :
    128 ≤ (Char.ofNat (unhex a * 16 + unhex b)).toNat ∨
      Char.ofNat (unhex a * 16 + unhex b) = '%' := by
  rw [unescapeCheck_triple] at h
  split at h
  · cases h
  · split at h
    · cases h
    · rename_i h2
      have ha := unhex_lt a
      have hb2 := unhex_lt b
      have hv := toNat_ofNat_of_lt (unhex a * 16 + unhex b) (by omega)
      by_cases h8 : unhex a < 8
      · have ht : ['%', a, b] = ['%', '2', '5'] := by
          by_contra hne
          exact h2 ⟨rfl, h8, hne⟩
        simp only [List.cons.injEq, true_and, and_true] at ht
        rw [ht.1, ht.2]
        exact Or.inr (by decide)
      · left
        omega

theorem head_build_host :
    ∀ s, unescapeCheck encodeHost s = none →
      ((unescapeBuild encodeHost s).head? = some '[' ↔ s.head? = some '[') := by
  apply triple_induction
  · intro _
    simp [unescapeBuild]
  · intro a b s _ h
    have hv := triple_value_host a b s h
    rw [unescapeBuild_triple]
    simp only [List.head?_cons, Option.some.injEq]
    constructor
    · intro heq
      rw [heq] at hv
      revert hv
      decide
    · intro heq
      exact absurd heq (by decide)
  · intro h
    exact absurd h (unescapeCheck_short1 _)
  · intro a h
    exact absurd h (unescapeCheck_short2 _ a)
  · intro c0 s hc0 _ _
    rw [unescapeBuild_raw _ c0 s hc0 (by decide)]
    simp

theorem head_escape_host (H : List Char) :
    (escape H encodeHost).head? = some '[' ↔ H.head? = some '[' := by
  cases H with
  | nil => simp [escape]
  | cons c H =>
    rw [escape]
    unfold escapeByte
    rw [if_neg (fun hh => by simp at hh)]
    by_cases hs : shouldEscape c encodeHost = true
    · rw [if_pos hs]
      simp only [List.cons_append, List.head?_cons, Option.some.injEq]
      constructor
      · intro h
        exact absurd h (by decide)
      · intro h
        subst h
        exact absurd hs (by decide)
    · rw [if_neg hs]
      simp

/-- What may follow the host name: `]`, `:` and the digits of a port. -/
theorem tail_facts (t : List Char) (ht : ∀ c ∈ t, c = ']' ∨ c = ':' ∨ isDigit c = true) :
    unescapeCheck encodeHost t = none ∧ unescapeBuild encodeHost t = t ∧
      escape t encodeHost = t := by
  have hf : ∀ c ∈ t, Inert c ∧ shouldEscape c encodeHost = false := by
    intro c hc
    rcases ht c hc with h | h | h
    · subst h
      exact ⟨by decide, by decide⟩
    · subst h
      exact ⟨by decide, by decide⟩
    · exact ⟨(digit_facts c h).1, (digit_facts c h).2.2.2⟩
  have hu := unescape_inert encodeHost t (fun c hc => (hf c hc).1) (fun _ c hc => (hf c hc).2)
  have := unescape_ok _ _ _ hu
  exact ⟨this.1, this.2.symm, escape_inert encodeHost t hf⟩

theorem validOptionalPort_spec (P : List Char) (h : validOptionalPort P = true) :
    (∀ c ∈ P, c = ':' ∨ isDigit c = true) ∧ ']' ∉ P ∧
      ∀ port, P = ':' :: port → ':' ∉ port := by
  cases P with
  | nil => simp
  | cons c port =>
    simp only [validOptionalPort, Bool.and_eq_true, decide_eq_true_eq, List.all_eq_true] at h
    obtain ⟨hc, hd⟩ := h
    subst hc
    refine ⟨?_, ?_, ?_⟩
    · intro c hc
      rcases List.mem_cons.1 hc with hc | hc
      · exact Or.inl hc
      · exact Or.inr (hd c hc)
    · intro hm
      rcases List.mem_cons.1 hm with hm | hm
      · exact absurd hm (by decide)
      · exact absurd (hd _ hm) (by decide)
    · intro port2 heq hm
      simp only [List.cons.injEq, true_and] at heq
      subst heq
      exact absurd (hd _ hm) (by decide)


theorem stepOK_host (c : Char) (hb : c.toNat < 256)
    (hs : shouldEscape c encodeHost = true → 128 ≤ c.toNat ∨ c = '%') :
    StepOK encodeHost encodeHost c := by
  by_cases h : shouldEscape c encodeHost = true
  · exact stepOK_triple _ _ c (by decide) h hb (fun _ => hs h) (fun hh => by cases hh)
  · exact stepOK_raw _ _ c (by decide) (by decide) (by simpa using h) (fun _ hh => h hh.2)

theorem stepOK_zone (c : Char) (hb : c.toNat < 256)
    (hs : shouldEscape c encodeHost = true → c = '%' ∨ c = ' ') :
    StepOK encodeHost encodeZone c := by
  by_cases h : shouldEscape c encodeHost = true
  · refine stepOK_triple _ _ c (by decide) h hb (fun hh => by cases hh) (fun _ => ?_)
    rcases hs h with h1 | h1
    · exact Or.inl h1
    · exact Or.inr (Or.inl h1)
  · exact stepOK_raw _ _ c (by decide) (by decide) (by simpa using h) (fun _ hh => h hh.2)

theorem unescape_escape_host (s : List Char) (hc : unescapeCheck encodeHost s = none)
    (hb : ∀ c ∈ s, c.toNat < 256) :
    unescape (escape (unescapeBuild encodeHost s) encodeHost) encodeHost =
      .ok (unescapeBuild encodeHost s) := by
  apply unescape_escape
  intro c hcm
  exact stepOK_host c (unescapeBuild_bytes _ (by decide) s hc hb c hcm)
    (unescapeBuild_host_chars s hc c hcm).1

theorem unescape_escape_zone (s : List Char) (hc : unescapeCheck encodeZone s = none)
    (hb : ∀ c ∈ s, c.toNat < 256) (ha : ∀ c ∈ unescapeBuild encodeZone s, c.toNat < 128) :
    unescape (escape (unescapeBuild encodeZone s) encodeHost) encodeZone =
      .ok (unescapeBuild encodeZone s) := by
  apply unescape_escape
  intro c hcm
  exact stepOK_zone c (unescapeBuild_bytes _ (by decide) s hc hb c hcm)
    (unescapeBuild_zone_chars s hc c hcm (ha c hcm))

theorem drop_succ_append (A : List Char) (c : Char) (P : List Char) :
    (A ++ c :: P).drop (A.length + 1) = P := by
  induction A with
  | nil => rfl
  | cons x A ih => simp [ih]

theorem Index_some_decomp (sub : List Char) (hne : sub ≠ []) (l : List Char) (z : Nat)
    (h : strings.Index l sub = some z) :
    ∃ pre rest, l = pre ++ (sub ++ rest) ∧ pre.length = z ∧
      ∀ p q, pre = p ++ q → sub.isPrefixOf q = false := by
  obtain ⟨rest, hr⟩ := Index_some_spec sub l z h
  refine ⟨l.take z, rest, hr, ?_, Index_some_min sub hne l z h⟩
  have hlen := congrArg List.length hr
  simp only [List.length_append, List.length_take] at hlen
  have hs : 0 < sub.length := List.length_pos.2 hne
  simp only [List.length_take]
  omega

theorem dropWhile_pct (a b : List Char) (ha : '%' ∉ a) :
    (a ++ '%' :: b).dropWhile (fun c => c != '%') = '%' :: b := by
  induction a with
  | nil => simp [List.dropWhile]
  | cons x a ih =>
    have hx : x ≠ '%' := fun hh => ha (by simp [hh])
    have hl : '%' ∉ a := fun hh => ha (by simp [hh])
    rw [List.cons_append, List.dropWhile_cons]
    simp [hx, ih hl]

/-- The host that `parseHost` returns, escaped the way `URL.String` writes it,
parses to itself. -/
theorem parseHost_escape (h H : List Char) (hp : parseHost h = .ok H)
    (hb : ∀ c ∈ h, c.toNat < 256) (hz : ZoneASCII H) :
    parseHost (escape H encodeHost) = .ok H := by
  unfold parseHost at hp
  split at hp
  · rename_i hbr
    have hhead : h.head? = some '[' := (hasPrefix_bracket h).1 hbr
    split at hp
    · cases hp
    · rename_i i hi
      obtain ⟨A, P, hAP, hlen, hP⟩ := LastIndex_some_spec ']' h i hi
      subst hlen
      subst hAP
      dsimp only at hp
      rw [drop_succ_append, List.take_left, List.drop_left] at hp
      split at hp
      · cases hp
      · rename_i hvp
        have hvalid : validOptionalPort P = true := by simpa using hvp
        obtain ⟨hPc, hPb, _⟩ := validOptionalPort_spec P hvalid
        have hT : ∀ c ∈ ']' :: P, c = ']' ∨ c = ':' ∨ isDigit c = true := by
          intro c hc
          rcases List.mem_cons.1 hc with hc | hc
          · exact Or.inl hc
          · exact Or.inr (hPc c hc)
        obtain ⟨hTc, hTb, hTe⟩ := tail_facts (']' :: P) hT
        split at hp
        · rename_i z hzidx
          obtain ⟨A1, rest, hA, hz1, hmin⟩ :=
            Index_some_decomp ['%', '2', '5'] (by simp) A z hzidx
          subst hz1
          subst hA
          have e1 : List.take A1.length (A1 ++ (['%', '2', '5'] ++ rest) ++ ']' :: P) = A1 := by
            rw [List.append_assoc, List.take_left]
          rw [e1, List.drop_left] at hp
          cases h1 : unescape A1 encodeHost with
          | error e => rw [h1] at hp; cases hp
          | ok host1 =>
            cases h2 : unescape (['%', '2', '5'] ++ rest) encodeZone with
            | error e => rw [h1, h2] at hp; cases hp
            | ok host2 =>
              cases h3 : unescape (']' :: P) encodeHost with
              | error e => rw [h1, h2, h3] at hp; cases hp
              | ok host3 =>
                rw [h1, h2, h3] at hp
                simp only [Except.ok.injEq] at hp
                obtain ⟨hc1, hh1⟩ := unescape_ok _ _ _ h1
                obtain ⟨hc2, hh2⟩ := unescape_ok _ _ _ h2
                obtain ⟨_, hh3⟩ := unescape_ok _ _ _ h3
                rw [hTb] at hh3
                have hb1 : ∀ c ∈ A1, c.toNat < 256 := fun c hc => hb c (by simp [hc])
                have hb2 : ∀ c ∈ ['%', '2', '5'] ++ rest, c.toNat < 256 :=
                  fun c hc => hb c (by
                    simp only [List.mem_append] at hc ⊢
                    exact Or.inl (Or.inr hc))
                have hpct : '%' ∉ host1 := by
                  rw [hh1]
                  exact pct_not_mem_build A1 hc1 hmin
                have hz2 : host2 = '%' :: unescapeBuild encodeZone rest := by
                  rw [hh2]
                  simp only [List.cons_append, List.nil_append]
                  rw [unescapeBuild_triple]
                  rfl
                have hA1 : A1.head? = some '[' := by
                  cases A1 with
                  | nil =>
                    simp only [List.nil_append, List.cons_append, List.head?_cons,
                      Option.some.injEq] at hhead
                    exact absurd hhead (by decide)
                  | cons x A1 => simpa using hhead
                have hH1 : host1.head? = some '[' := by
                  rw [hh1, head_build_host _ hc1]
                  exact hA1
                have hHhead : H.head? = some '[' := by
                  rw [← hp]
                  cases host1 with
                  | nil => simp at hH1
                  | cons x t => simpa using hH1
                have hascii : ∀ c ∈ host2, c.toNat < 128 := by
                  intro c hc
                  apply hz hHhead
                  rw [← hp, hz2, List.append_assoc, List.cons_append, dropWhile_pct _ _ hpct,
                    ← List.cons_append, ← hz2]
                  simp [hc]
                have hrt1 := unescape_escape_host _ hc1 hb1
                rw [← hh1] at hrt1
                have hrt2 := unescape_escape_zone _ hc2 hb2 (by rw [← hh2]; exact hascii)
                rw [← hh2] at hrt2
                have hE2 : escape host2 encodeHost =
                    '%' :: '2' :: '5' :: escape (unescapeBuild encodeZone rest) encodeHost := by
                  rw [hz2, escape]
                  rfl
                have hesc : escape H encodeHost =
                    (escape host1 encodeHost ++ escape host2 encodeHost) ++ ']' :: P := by
                  rw [← hp, escape_append, escape_append, hh3, hTe]
                have hpre : strings.HasPrefix (escape H encodeHost) ['['] = true := by
                  rw [hasPrefix_bracket, head_escape_host]
                  exact hHhead
                have hidx : strings.Index (escape host1 encodeHost ++ escape host2 encodeHost)
                    ['%', '2', '5'] = some (escape host1 encodeHost).length := by
                  rw [Index_escape _ host1 (fun c hc =>
                    ⟨fun hh => hpct (hh ▸ hc), by
                      rw [hh1] at hc
                      exact unescapeBuild_bytes _ (by decide) A1 hc1 hb1 c hc⟩), hE2]
                  simp [strings.Index, List.isPrefixOf]
                unfold parseHost
                rw [hpre]
                simp only [if_true]
                rw [hesc, LastIndex_append _ P ']' hPb]
                dsimp only
                rw [drop_succ_append, List.take_left, hvalid, hidx]
                simp only [Bool.not_true, Bool.false_eq_true, if_false]
                rw [List.append_assoc, List.take_left, ← List.append_assoc, List.drop_left,
                  List.drop_left, hrt1, hrt2, h3, hh3]
                simp only [← hp, hh3]
        · rename_i hzidx
          obtain ⟨hchk, hH⟩ := unescape_ok _ _ _ hp
          have hA : unescapeCheck encodeHost A = none :=
            unescapeCheck_split encodeHost ']' P (by decide) A hchk
          have happ := (unescape_append encodeHost (by decide) (']' :: P) A hA).2
          rw [hTb] at happ
          have hHA : H = unescapeBuild encodeHost A ++ ']' :: P := by rw [hH, happ]
          have hrt := unescape_escape_host _ hchk hb
          rw [← hH] at hrt
          have hesc : escape H encodeHost =
              escape (unescapeBuild encodeHost A) encodeHost ++ ']' :: P := by
            rw [hHA, escape_append, hTe]
          have hpre : strings.HasPrefix (escape H encodeHost) ['['] = true := by
            rw [hasPrefix_bracket, head_escape_host, hH, head_build_host _ hchk]
            exact hhead
          have hpct : '%' ∉ unescapeBuild encodeHost A :=
            pct_not_mem_build A hA (Index_none_spec _ A hzidx)
          have hidx : strings.Index (escape (unescapeBuild encodeHost A) encodeHost)
              ['%', '2', '5'] = none := by
            have := Index_escape [] (unescapeBuild encodeHost A) (fun c hc =>
              ⟨fun hh => hpct (hh ▸ hc),
                unescapeBuild_bytes _ (by decide) A hA (fun x hx => hb x (by simp [hx])) c hc⟩)
            simpa [strings.Index] using this
          unfold parseHost
          rw [hpre]
          simp only [if_true]
          rw [hesc, LastIndex_append _ P ']' hPb]
          dsimp only
          rw [drop_succ_append, List.take_left, hvalid, hidx]
          simp only [Bool.not_true, Bool.false_eq_true, if_false]
          rw [← hesc]
          exact hrt
  · rename_i hbr
    have hHchk : unescapeCheck encodeHost h = none ∧ H = unescapeBuild encodeHost h := by
      split at hp
      · dsimp only at hp
        split at hp
        · cases hp
        · exact unescape_ok _ _ _ hp
      · exact unescape_ok _ _ _ hp
    obtain ⟨hchk, hH⟩ := hHchk
    have hrt := unescape_escape_host _ hchk hb
    rw [← hH] at hrt
    have hpre : strings.HasPrefix (escape H encodeHost) ['['] = false := by
      cases hh : strings.HasPrefix (escape H encodeHost) ['['] with
      | false => rfl
      | true =>
        rw [hasPrefix_bracket, head_escape_host, hH, head_build_host _ hchk,
          ← hasPrefix_bracket] at hh
        exact absurd hh hbr
    split at hp
    · rename_i i hi
      dsimp only at hp
      split at hp
      · cases hp
      · rename_i hvp
        obtain ⟨A, P, hAP, hlen, hP⟩ := LastIndex_some_spec ':' h i hi
        subst hlen
        subst hAP
        rw [List.drop_left] at hvp
        have hvalid : validOptionalPort (':' :: P) = true := by simpa using hvp
        obtain ⟨hPc, _, _⟩ := validOptionalPort_spec _ hvalid
        have hT : ∀ c ∈ ':' :: P, c = ']' ∨ c = ':' ∨ isDigit c = true :=
          fun c hc => Or.inr (hPc c hc)
        obtain ⟨hTc, hTb, hTe⟩ := tail_facts (':' :: P) hT
        have hA : unescapeCheck encodeHost A = none :=
          unescapeCheck_split encodeHost ':' P (by decide) A hchk
        have happ := (unescape_append encodeHost (by decide) (':' :: P) A hA).2
        rw [hTb] at happ
        have hesc : escape H encodeHost =
            escape (unescapeBuild encodeHost A) encodeHost ++ ':' :: P := by
          rw [hH, happ, escape_append, hTe]
        unfold parseHost
        rw [hpre]
        simp only [Bool.false_eq_true, if_false]
        rw [hesc, LastIndex_append _ P ':' hP]
        dsimp only
        rw [List.drop_left, hvalid]
        simp only [Bool.not_true, Bool.false_eq_true, if_false]
        rw [← hesc]
        exact hrt
    · rename_i hi
      have hno : ':' ∉ h := LastIndex_none_spec ':' h hi
      have hnoH : ':' ∉ H := by
        intro hm
        rw [hH] at hm
        exact hno ((unescapeBuild_host_chars h hchk ':' hm).2 (by decide) (by decide))
      have hnoE : ':' ∉ escape H encodeHost := by
        intro hm
        rcases mem_escape _ _ _ hm with ⟨h1, _⟩ | h1 | ⟨n, hn, h1⟩ | ⟨h1, _⟩
        · exact hnoH h1
        · exact absurd h1 (by decide)
        · exact sep_not_hex.2.2.2.2.1 n hn h1
        · exact absurd h1 (by decide)
      unfold parseHost
      rw [hpre]
      simp only [Bool.false_eq_true, if_false]
      rw [LastIndex_of_not_mem _ ':' hnoE]
      exact hrt


theorem mem_Cut (sep : Char) (l : List Char) :
    (∀ c ∈ (strings.Cut sep l).1, c ∈ l) ∧ (∀ c ∈ (strings.Cut sep l).2.1, c ∈ l) ∧
      sep ∉ (strings.Cut sep l).1 := by
  induction l with
  | nil => simp [strings.Cut]
  | cons x l ih =>
    rw [strings.Cut]
    split
    · exact ⟨by simp, fun c hc => List.mem_cons_of_mem _ hc, by simp⟩
    · rename_i hx
      refine ⟨?_, ?_, ?_⟩
      · intro c hc
        rcases List.mem_cons.1 hc with hc | hc
        · simp [hc]
        · simp [ih.1 c hc]
      · intro c hc
        simp [ih.2.1 c hc]
      · intro hm
        rcases List.mem_cons.1 hm with hm | hm
        · exact hx hm.symm
        · exact ih.2.2 hm

theorem validUserinfo_byte (c : Char) (h : shouldEscape c encodeUserPassword = false) :
    (isAlpha c || isDigit c ||
      decide (c ∈ ['-', '.', '_', ':', '~', '!', '$', '&', apostrophe, '(', ')', '*', '+', ',',
        ';', '=', '%', '@'])) = true := by
  unfold shouldEscape at h
  split at h
  · rename_i ha
    rcases ha with ha | ha
    · simp [ha]
    · simp [ha]
  · split at h
    · rename_i hm
      exact absurd hm.1 (by decide)
    · split at h
      · rename_i hm
        simp only [List.mem_cons, List.mem_singleton, List.not_mem_nil, or_false] at hm
        rcases hm with rfl | rfl | rfl | rfl <;> decide
      · split at h
        · rename_i hm
          exact absurd hm.2 (by decide)
        · split at h
          · rename_i hm
            exact absurd hm.2 (by decide)
          · split at h
            · rename_i hm
              simp only [decide_eq_false_iff_not, not_or] at h
              have hr := hm.1
              simp only [reserved, List.mem_cons, List.mem_singleton, List.not_mem_nil,
                or_false] at hr
              rcases hr with rfl | rfl | rfl | rfl | rfl | rfl | rfl | rfl | rfl | rfl <;>
                first
                | decide
                | exact absurd rfl h.1
                | exact absurd rfl h.2.1
                | exact absurd rfl h.2.2.1
            · split at h
              · cases h
              · split at h
                · rename_i hm
                  exact absurd hm.2 (by decide)
                · split at h
                  · rename_i hm
                    exact absurd hm.1 (by decide)
                  · cases h

theorem validUserinfo_escape (x : List Char) :
    validUserinfo (escape x encodeUserPassword) = true := by
  unfold validUserinfo
  rw [List.all_eq_true]
  intro c hc
  rcases mem_escape _ _ _ hc with ⟨_, h2⟩ | h1 | ⟨n, hn, h1⟩ | ⟨_, h1⟩
  · exact validUserinfo_byte c h2
  · subst h1
    decide
  · subst h1
    have : ∀ n, n < 16 → (isAlpha (upperhex n) || isDigit (upperhex n) ||
        decide (upperhex n ∈ ['-', '.', '_', ':', '~', '!', '$', '&', apostrophe, '(', ')', '*',
          '+', ',', ';', '=', '%', '@'])) = true := by
      decide
    exact this n hn
  · cases h1

theorem unescape_escape_user (s : List Char) (hc : unescapeCheck encodeUserPassword s = none)
    (hb : ∀ c ∈ s, c.toNat < 256) :
    unescape (escape (unescapeBuild encodeUserPassword s) encodeUserPassword)
        encodeUserPassword = .ok (unescapeBuild encodeUserPassword s) := by
  apply unescape_escape
  intro c hcm
  have hbc := unescapeBuild_bytes _ (by decide) s hc hb c hcm
  by_cases h : shouldEscape c encodeUserPassword = true
  · exact stepOK_triple _ _ c (by decide) h hbc (fun hh => by cases hh) (fun hh => by cases hh)
  · exact stepOK_raw _ _ c (by decide) (by decide) (by simpa using h)
      (fun hh => by rcases hh with hh | hh <;> cases hh)

theorem sep_not_mem_escape (H : List Char) :
    '/' ∉ escape H encodeHost ∧ '?' ∉ escape H encodeHost ∧ '#' ∉ escape H encodeHost ∧
      '@' ∉ escape H encodeHost ∧
      '/' ∉ escape H encodeUserPassword ∧ '?' ∉ escape H encodeUserPassword ∧
      '#' ∉ escape H encodeUserPassword ∧ '@' ∉ escape H encodeUserPassword ∧
      ':' ∉ escape H encodeUserPassword :=
  ⟨not_mem_escape _ H _ (by decide) (by decide) sep_not_hex.1 (by decide),
   not_mem_escape _ H _ (by decide) (by decide) sep_not_hex.2.1 (by decide),
   not_mem_escape _ H _ (by decide) (by decide) sep_not_hex.2.2.1 (by decide),
   not_mem_escape _ H _ (by decide) (by decide) sep_not_hex.2.2.2.1 (by decide),
   not_mem_escape _ H _ (by decide) (by decide) sep_not_hex.1 (by decide),
   not_mem_escape _ H _ (by decide) (by decide) sep_not_hex.2.1 (by decide),
   not_mem_escape _ H _ (by decide) (by decide) sep_not_hex.2.2.1 (by decide),
   not_mem_escape _ H _ (by decide) (by decide) sep_not_hex.2.2.2.1 (by decide),
   not_mem_escape _ H _ (by decide) (by decide) sep_not_hex.2.2.2.2.1 (by decide)⟩

/-- The user information that `parseUserinfo` returns, written the way
`URL.String` writes it, parses to itself. -/
theorem parseUserinfo_String (ui : List Char) (U : Userinfo) (h : parseUserinfo ui = .ok U)
    (hb : ∀ c ∈ ui, c.toNat < 256) : parseUserinfo (Userinfo.String U) = .ok U := by
  unfold parseUserinfo at h
  split at h
  · cases h
  · split at h
    · cases h1 : unescape ui encodeUserPassword with
      | error e => rw [h1] at h; cases h
      | ok name =>
        rw [h1] at h
        simp only [Except.ok.injEq] at h
        subst h
        obtain ⟨hc, hn⟩ := unescape_ok _ _ _ h1
        have hrt := unescape_escape_user ui hc hb
        rw [← hn] at hrt
        unfold parseUserinfo Userinfo.String
        simp only [Bool.false_eq_true, if_false, List.append_nil]
        rw [validUserinfo_escape]
        have hno : strings.Contains (escape name encodeUserPassword) ':' = false := by
          unfold strings.Contains
          simpa using (sep_not_mem_escape name).2.2.2.2.2.2.2.2
        rw [hno, hrt]
        rfl
    · have hm := mem_Cut ':' ui
      cases h1 : unescape (strings.Cut ':' ui).1 encodeUserPassword with
      | error e => rw [h1] at h; cases h
      | ok username =>
        cases h2 : unescape (strings.Cut ':' ui).2.1 encodeUserPassword with
        | error e => rw [h1, h2] at h; cases h
        | ok password =>
          rw [h1, h2] at h
          simp only [Except.ok.injEq] at h
          subst h
          obtain ⟨hc1, hn1⟩ := unescape_ok _ _ _ h1
          obtain ⟨hc2, hn2⟩ := unescape_ok _ _ _ h2
          have hrt1 := unescape_escape_user _ hc1 (fun c hc => hb c (hm.1 c hc))
          have hrt2 := unescape_escape_user _ hc2 (fun c hc => hb c (hm.2.1 c hc))
          rw [← hn1] at hrt1
          rw [← hn2] at hrt2
          have hvalid : validUserinfo (escape username encodeUserPassword ++
              ':' :: escape password encodeUserPassword) = true := by
            have v1 := validUserinfo_escape username
            have v2 := validUserinfo_escape password
            unfold validUserinfo at v1 v2 ⊢
            rw [List.all_append, v1, List.all_cons, v2]
            decide
          have hcut := Cut_append ':' (escape username encodeUserPassword)
            (escape password encodeUserPassword) (sep_not_mem_escape username).2.2.2.2.2.2.2.2
          have hcon : strings.Contains (escape username encodeUserPassword ++
              ':' :: escape password encodeUserPassword) ':' = true := by
            unfold strings.Contains
            simp
          unfold parseUserinfo Userinfo.String
          simp only [if_true]
          rw [hvalid, hcon, hcut]
          simp only [Bool.not_true, Bool.false_eq_true, if_false, hrt1, hrt2]

/-- The authority that `parseAuthority` returns, written the way `URL.String`
writes it, parses to itself. -/
theorem parseAuthority_text (auth : List Char) (user : Option Userinfo) (host : List Char)
    (h : parseAuthority auth = .ok (user, host)) (hb : ∀ c ∈ auth, c.toNat < 256)
    (hz : ZoneASCII host) :
    parseAuthority (userText user ++ escape host encodeHost) = .ok (user, host) := by
  have hat : '@' ∉ escape host encodeHost := (sep_not_mem_escape host).2.2.2.1
  unfold parseAuthority at h
  split at h
  · rename_i hi
    cases h1 : parseHost auth with
    | error e => rw [h1] at h; cases h
    | ok H =>
      rw [h1] at h
      simp only [Except.ok.injEq, Prod.mk.injEq] at h
      obtain ⟨hu, hH⟩ := h
      subst hu
      subst hH
      unfold parseAuthority userText
      simp only [List.nil_append]
      rw [LastIndex_of_not_mem _ '@' hat, parseHost_escape auth H h1 hb hz]
  · rename_i i hi
    obtain ⟨A, B, hAB, hlen, hB⟩ := LastIndex_some_spec '@' auth i hi
    subst hlen
    subst hAB
    rw [drop_succ_append, List.take_left] at h
    cases h1 : parseHost B with
    | error e => rw [h1] at h; cases h
    | ok H =>
      cases h2 : parseUserinfo A with
      | error e => rw [h1, h2] at h; cases h
      | ok U =>
        rw [h1, h2] at h
        simp only [Except.ok.injEq, Prod.mk.injEq] at h
        obtain ⟨hu, hH⟩ := h
        subst hu
        subst hH
        have e : userText (some U) ++ escape H encodeHost =
            Userinfo.String U ++ '@' :: escape H encodeHost := by
          simp [userText]
        unfold parseAuthority
        rw [e, LastIndex_append _ _ '@' hat]
        simp only
        rw [drop_succ_append, List.take_left,
          parseHost_escape B H h1 (fun c hc => hb c (by simp [hc])) hz,
          parseUserinfo_String A U h2 (fun c hc => hb c (by simp [hc]))]

theorem mem_userText (user : Option Userinfo) (x : Char) (h : x ∈ userText user) :
    ∃ U, user = some U ∧
      (x ∈ escape U.username.data encodeUserPassword ∨ x = ':' ∨
        x ∈ escape U.password.data encodeUserPassword ∨ x = '@') := by
  cases user with
  | none => simp [userText] at h
  | some U =>
    refine ⟨U, rfl, ?_⟩
    simp only [userText, Userinfo.String, List.mem_append, List.mem_singleton] at h
    rcases h with (h | h) | h
    · exact Or.inl h
    · split at h
      · rcases List.mem_cons.1 h with h | h
        · exact Or.inr (Or.inl h)
        · exact Or.inr (Or.inr (Or.inl h))
      · simp at h
    · exact Or.inr (Or.inr (Or.inr h))

theorem userText_sep (user : Option Userinfo) :
    '/' ∉ userText user ∧ '?' ∉ userText user ∧ '#' ∉ userText user ∧
      ∀ x ∈ userText user, ¬ (x.toNat < ' '.toNat ∨ x.toNat = 127) := by
  refine ⟨?_, ?_, ?_, ?_⟩
  · intro h
    obtain ⟨U, _, h⟩ := mem_userText user _ h
    rcases h with h | h | h | h
    · exact (sep_not_mem_escape _).2.2.2.2.1 h
    · exact absurd h (by decide)
    · exact (sep_not_mem_escape _).2.2.2.2.1 h
    · exact absurd h (by decide)
  · intro h
    obtain ⟨U, _, h⟩ := mem_userText user _ h
    rcases h with h | h | h | h
    · exact (sep_not_mem_escape _).2.2.2.2.2.1 h
    · exact absurd h (by decide)
    · exact (sep_not_mem_escape _).2.2.2.2.2.1 h
    · exact absurd h (by decide)
  · intro h
    obtain ⟨U, _, h⟩ := mem_userText user _ h
    rcases h with h | h | h | h
    · exact (sep_not_mem_escape _).2.2.2.2.2.2.1 h
    · exact absurd h (by decide)
    · exact (sep_not_mem_escape _).2.2.2.2.2.2.1 h
    · exact absurd h (by decide)
  · intro x h
    obtain ⟨U, _, h⟩ := mem_userText user _ h
    rcases h with h | h | h | h
    · exact escape_noCTL _ _ (by decide) x h
    · subst h
      decide
    · exact escape_noCTL _ _ (by decide) x h
    · subst h
      decide


theorem getSchemeLoop_ok :
    ∀ (t pre X : List Char), (∀ c ∈ t, schemeByte c) → pre ≠ [] →
      getSchemeLoop (pre ++ t ++ ':' :: X) pre.length (t ++ ':' :: X) = .ok (pre ++ t, X) := by
  intro t
  induction t with
  | nil =>
    intro pre X _ hne
    exact getSchemeLoop_alpha [] pre X (by simp) (by simpa using hne)
  | cons c t ih =>
    intro pre X h hne
    have hc : schemeByte c := h c (by simp)
    have := ih (pre ++ [c]) X (fun x hx => h x (by simp [hx])) (by simp)
    simp only [List.append_assoc, List.singleton_append, List.length_append, List.length_singleton]
      at this
    have hlen : pre.length ≠ 0 := fun hh => hne (List.length_eq_zero.1 hh)
    simp only [List.cons_append, getSchemeLoop]
    by_cases ha : isAlpha c = true
    · simp only [ha, if_true]
      simpa using this
    · have hd : isDigit c = true ∨ c = '+' ∨ c = '-' ∨ c = '.' := by
        rcases hc with hc | hc
        · exact absurd hc ha
        · exact hc
      simp only [ha, Bool.false_eq_true, if_false, hd, if_true, hlen]
      simpa using this

theorem getSchemeLoop_inv :
    ∀ (s pre a b : List Char), pre ≠ [] → a ≠ [] →
      getSchemeLoop (pre ++ s) pre.length s = .ok (a, b) →
      ∃ t, s = t ++ ':' :: b ∧ a = pre ++ t ∧ ∀ c ∈ t, schemeByte c := by
  intro s
  induction s with
  | nil =>
    intro pre a b _ ha h
    simp only [getSchemeLoop, Except.ok.injEq, Prod.mk.injEq] at h
    exact absurd h.1.symm ha
  | cons c s ih =>
    intro pre a b hne ha h
    have hlen : pre.length ≠ 0 := fun hh => hne (List.length_eq_zero.1 hh)
    have hraw : pre ++ c :: s = (pre ++ [c]) ++ s := by simp
    have hl : pre.length + 1 = (pre ++ [c]).length := by simp
    rw [getSchemeLoop] at h
    split at h
    · rename_i hc
      rw [hraw, hl] at h
      obtain ⟨t, ht, hat, hcl⟩ := ih (pre ++ [c]) a b (by simp) ha h
      refine ⟨c :: t, by rw [ht]; rfl, by rw [hat]; simp, ?_⟩
      intro x hx
      rcases List.mem_cons.1 hx with hx | hx
      · subst hx
        exact Or.inl hc
      · exact hcl x hx
    · split at h
      · rename_i hc
        rw [hraw, hl] at h
        obtain ⟨t, ht, hat, hcl⟩ := ih (pre ++ [c]) a b (by simp) ha h
        refine ⟨c :: t, by rw [ht]; rfl, by rw [hat]; simp, ?_⟩
        intro x hx
        rcases List.mem_cons.1 hx with hx | hx
        · subst hx
          exact Or.inr hc
        · exact hcl x hx
      · split at h
        · rename_i hc
          simp only [Except.ok.injEq, Prod.mk.injEq] at h
          refine ⟨[], by rw [hc, h.2]; rfl, by rw [← h.1]; simp, by simp⟩
        · simp only [Except.ok.injEq, Prod.mk.injEq] at h
          exact absurd h.1.symm ha

/-- A non-empty scheme found by `getScheme` is a letter followed by scheme
bytes, and stands before the first `:` of the text. -/
theorem getScheme_inv (l sch rest0 : List Char) (h : getScheme l = .ok (sch, rest0))
    (hs : sch ≠ []) :
    ∃ c t, sch = c :: t ∧ isAlpha c = true ∧ (∀ x ∈ t, schemeByte x) ∧
      l = sch ++ ':' :: rest0 := by
  unfold getScheme at h
  cases l with
  | nil =>
    simp only [getSchemeLoop, Except.ok.injEq, Prod.mk.injEq] at h
    exact absurd h.1.symm hs
  | cons c s =>
    rw [getSchemeLoop] at h
    split at h
    · rename_i hc
      have := getSchemeLoop_inv s [c] sch rest0 (by simp) hs (by simpa using h)
      obtain ⟨t, ht, hat, hcl⟩ := this
      exact ⟨c, t, by simpa using hat, hc, hcl, by rw [ht, hat]; simp⟩
    · split at h
      · simp only [if_true, Except.ok.injEq, Prod.mk.injEq] at h
        exact absurd h.1.symm hs
      · split at h
        · simp at h
        · simp only [Except.ok.injEq, Prod.mk.injEq] at h
          exact absurd h.1.symm hs

theorem getScheme_ok (c : Char) (t X : List Char) (hc : isAlpha c = true)
    (ht : ∀ x ∈ t, schemeByte x) : getScheme (c :: t ++ ':' :: X) = .ok (c :: t, X) := by
  unfold getScheme
  have := getSchemeLoop_ok t [c] X ht (by simp)
  simp only [List.cons_append, getSchemeLoop, hc, if_true]
  simpa using this

theorem toLowerByte_upper (c : Char) (h : 'A'.toNat ≤ c.toNat ∧ c.toNat ≤ 'Z'.toNat) :
    (strings.toLowerByte c).toNat = c.toNat + 32 := by
  have h1 : 'A'.toNat = 65 := by decide
  have h2 : 'Z'.toNat = 90 := by decide
  unfold strings.toLowerByte
  rw [if_pos h]
  exact toNat_ofNat_of_lt _ (by omega)

theorem toLowerByte_facts (c : Char) :
    (isAlpha c = true → isAlpha (strings.toLowerByte c) = true) ∧
      (schemeByte c → schemeByte (strings.toLowerByte c)) ∧
      strings.toLowerByte (strings.toLowerByte c) = strings.toLowerByte c := by
  have h1 : 'A'.toNat = 65 := by decide
  have h2 : 'Z'.toNat = 90 := by decide
  have h3 : 'a'.toNat = 97 := by decide
  have h4 : 'z'.toNat = 122 := by decide
  by_cases hu : 'A'.toNat ≤ c.toNat ∧ c.toNat ≤ 'Z'.toNat
  · have hv := toLowerByte_upper c hu
    have hal : isAlpha (strings.toLowerByte c) = true := by
      simp only [isAlpha, decide_eq_true_eq]
      omega
    refine ⟨fun _ => hal, fun _ => Or.inl hal, ?_⟩
    generalize strings.toLowerByte c = d at hv
    unfold strings.toLowerByte
    rw [if_neg]
    omega
  · have he : strings.toLowerByte c = c := by
      unfold strings.toLowerByte
      rw [if_neg hu]
    rw [he]
    exact ⟨id, id, he⟩

theorem ToLower_idem (s : List Char) : strings.ToLower (strings.ToLower s) = strings.ToLower s := by
  unfold strings.ToLower
  rw [List.map_map]
  apply List.map_congr_left
  intro c _
  exact (toLowerByte_facts c).2.2

theorem schemeByte_facts (c : Char) (h : schemeByte c) :
    c ≠ '?' ∧ c ≠ '#' ∧ ¬ (c.toNat < ' '.toNat ∨ c.toNat = 127) := by
  rcases h with h | h | h | h | h
  · have := inert_of_alnum c (Or.inl h)
    exact ⟨this.2.2.1, this.2.2.2.1, this.2.2.2.2.2.2.2⟩
  · have := inert_of_alnum c (Or.inr h)
    exact ⟨this.2.2.1, this.2.2.2.1, this.2.2.2.2.2.2.2⟩
  · subst h
    decide
  · subst h
    decide
  · subst h
    decide


theorem mk_ne_empty (l : List Char) : String.mk l ≠ "" ↔ l ≠ [] := by
  constructor
  · intro h hl
    exact h (by rw [hl])
  · intro h hl
    exact h (congrArg String.data hl)

theorem hasSuffix_question (l : List Char) :
    strings.HasSuffix l ['?'] = true ↔ ∃ r, l = r ++ ['?'] := by
  unfold strings.HasSuffix
  constructor
  · intro h
    cases hr : l.reverse with
    | nil =>
      rw [hr] at h
      simp [List.isPrefixOf] at h
    | cons x t =>
      rw [hr] at h
      simp only [List.reverse_cons, List.reverse_nil, List.nil_append, List.isPrefixOf,
        Bool.and_true, beq_iff_eq] at h
      refine ⟨t.reverse, ?_⟩
      have := congrArg List.reverse hr
      rw [List.reverse_reverse] at this
      rw [this, h]
      simp
  · rintro ⟨r, rfl⟩
    simp [List.isPrefixOf]

/-- How `parse` splits the text after the scheme into the rest and the query. -/
theorem splitQuery_text (body q : List Char) (fq : Bool) (hb : '?' ∉ body)
    (hfq : fq = true → q = []) :
    decide (strings.HasSuffix (body ++ queryText fq q) ['?'] = true ∧
        strings.Count (body ++ queryText fq q) '?' = 1) = fq ∧
      (if fq = true then (body ++ queryText fq q).dropLast
        else (strings.Cut '?' (body ++ queryText fq q)).1) = body ∧
      (if fq = true then [] else (strings.Cut '?' (body ++ queryText fq q)).2.1) = q := by
  have hcount : List.count '?' body = 0 := List.count_eq_zero.2 hb
  cases fq with
  | true =>
    have hq := hfq rfl
    subst hq
    have e : body ++ queryText true [] = body ++ ['?'] := by simp [queryText]
    rw [e]
    refine ⟨?_, ?_, ?_⟩
    · rw [decide_eq_true_eq]
      refine ⟨(hasSuffix_question _).2 ⟨body, rfl⟩, ?_⟩
      unfold strings.Count
      rw [List.count_append, hcount]
      rfl
    · simp
    · simp
  | false =>
    by_cases hq : q = []
    · subst hq
      have e : body ++ queryText false [] = body := by simp [queryText]
      rw [e]
      refine ⟨?_, ?_, ?_⟩
      · rw [decide_eq_false_iff_not]
        intro hh
        unfold strings.Count at hh
        rw [hcount] at hh
        exact absurd hh.2 (by decide)
      · simp [Cut_of_not_mem '?' body hb]
      · simp [Cut_of_not_mem '?' body hb]
    · have e : body ++ queryText false q = body ++ '?' :: q := by simp [queryText, hq]
      rw [e]
      refine ⟨?_, ?_, ?_⟩
      · rw [decide_eq_false_iff_not]
        intro hh
        obtain ⟨r, hr⟩ := (hasSuffix_question _).1 hh.1
        have hc := hh.2
        unfold strings.Count at hc
        rw [List.count_append, hcount, List.count_cons_self] at hc
        have hq0 : List.count '?' q = 0 := by omega
        have hnot : '?' ∉ q := List.count_eq_zero.1 hq0
        have hrev := congrArg List.reverse hr
        simp only [List.reverse_append, List.reverse_cons, List.reverse_nil, List.nil_append,
          List.append_assoc, List.singleton_append] at hrev
        cases hqr : q.reverse with
        | nil =>
          have := congrArg List.reverse hqr
          rw [List.reverse_reverse] at this
          exact hq this
        | cons y ys =>
          rw [hqr] at hrev
          simp only [List.cons_append, List.cons.injEq] at hrev
          apply hnot
          rw [← List.mem_reverse, hqr, hrev.1]
          simp
      · simp [Cut_append '?' body q hb]
      · simp [Cut_append '?' body q hb]

/-- The rest and the query that `parse` finds in the text after the scheme. -/
theorem splitQuery_facts (rest0 : List Char) :
    '?' ∉ (if decide (strings.HasSuffix rest0 ['?'] = true ∧ strings.Count rest0 '?' = 1) = true
        then rest0.dropLast else (strings.Cut '?' rest0).1) ∧
      (decide (strings.HasSuffix rest0 ['?'] = true ∧ strings.Count rest0 '?' = 1) = true →
        (if decide (strings.HasSuffix rest0 ['?'] = true ∧ strings.Count rest0 '?' = 1) = true
          then [] else (strings.Cut '?' rest0).2.1) = []) ∧
      (∀ c ∈ (if decide (strings.HasSuffix rest0 ['?'] = true ∧
          strings.Count rest0 '?' = 1) = true
        then rest0.dropLast else (strings.Cut '?' rest0).1), c ∈ rest0) ∧
      (∀ c ∈ (if decide (strings.HasSuffix rest0 ['?'] = true ∧
          strings.Count rest0 '?' = 1) = true
        then [] else (strings.Cut '?' rest0).2.1), c ∈ rest0) := by
  by_cases hfq : (strings.HasSuffix rest0 ['?'] = true ∧ strings.Count rest0 '?' = 1)
  · simp only [hfq, and_self, decide_True, if_true, List.not_mem_nil, false_implies,
      implies_true, and_true, true_and]
    obtain ⟨r, hr⟩ := (hasSuffix_question _).1 hfq.1
    have hc := hfq.2
    unfold strings.Count at hc
    rw [hr, List.count_append] at hc
    have h1 : List.count '?' ['?'] = 1 := rfl
    rw [h1] at hc
    have hr0 : List.count '?' r = 0 := by omega
    rw [hr, List.dropLast_concat]
    exact ⟨List.count_eq_zero.1 hr0, fun c hc => by simp [hc]⟩
  · have hd : decide (strings.HasSuffix rest0 ['?'] = true ∧ strings.Count rest0 '?' = 1) =
        false := by simpa using hfq
    rw [hd]
    simp only [Bool.false_eq_true, if_false, false_implies, true_and]
    have := mem_Cut '?' rest0
    exact ⟨this.2.2, this.1, this.2.1⟩

theorem unescapeBuild_eq_nil (m : encoding) (p : List Char) (h : unescapeBuild m p = []) :
    p = [] := by
  cases p with
  | nil => rfl
  | cons c t =>
    exfalso
    by_cases hc : c = '%'
    · subst hc
      match t with
      | [] => simp [unescapeBuild] at h
      | [a] =>
        rw [unescapeBuild] at h
        · cases h
        · intro a b s _ hh
          cases hh
        · intro hh
          cases hh
      | a :: b :: s =>
        rw [unescapeBuild_triple] at h
        cases h
    · by_cases hp : c = '+'
      · subst hp
        rw [unescapeBuild] at h
        cases h
      · rw [unescapeBuild_cons m c t hc hp] at h
        cases h

/-- The path that `setPath` stores is written back as the text it was parsed
from, provided the `RawPath` hint, when there is one, is a valid encoding. -/
theorem EscapedPath_setPath (w u : URL) (p : List Char) (h : URL.setPath w p = .ok u)
    (hv : u.RawPath = "" ∨ validEncoded u.RawPath.data encodePath = true)
    (hp : p = [] ∨ p.head? = some '/') : URL.EscapedPath u = p := by
  unfold URL.setPath at h
  cases h1 : unescape p encodePath with
  | error e => rw [h1] at h; cases h
  | ok path =>
    rw [h1] at h
    simp only [Except.ok.injEq] at h
    obtain ⟨_, hpath⟩ := unescape_ok _ _ _ h1
    have hstar : path ≠ ['*'] := by
      rcases hp with hp | hp
      · subst hp
        rw [hpath]
        simp [unescapeBuild]
      · cases p with
        | nil => simp at hp
        | cons c t =>
          simp only [List.head?_cons, Option.some.injEq] at hp
          subst hp
          rw [hpath, unescapeBuild_cons_slash]
          simp
    by_cases he : p = escape path encodePath
    · rw [if_pos he] at h
      subst h
      unfold URL.EscapedPath
      simp only [ne_eq, not_true_eq_false, false_and, if_false]
      rw [if_neg]
      · exact he.symm
      · intro hh
        exact hstar (congrArg String.data hh)
    · rw [if_neg he] at h
      subst h
      have hne : p ≠ [] := by
        intro hh
        apply he
        rw [hpath, hh]
        rfl
      simp only at hv
      have hvalid : validEncoded p encodePath = true := by
        rcases hv with hv | hv
        · exact absurd (congrArg String.data hv) hne
        · exact hv
      unfold URL.EscapedPath
      simp only
      rw [if_pos]
      refine ⟨(mk_ne_empty p).2 hne, hvalid, ?_⟩
      unfold unescapesTo
      rw [h1]
      simp


theorem parseAfterScheme_ToLower (sch rest0 : List Char) (v : Bool) :
    parseAfterScheme (strings.ToLower sch) rest0 v = parseAfterScheme sch rest0 v := by
  unfold parseAfterScheme
  rw [ToLower_idem]

/-- The function `parseAfterScheme` depends on the text after the scheme only through the rest
and the query it splits it into. -/
theorem parseAfterScheme_text (sch body q rest0 : List Char) (fq v : Bool)
    (hb : '?' ∉ body) (hfq : fq = true → q = [])
    (h1 : decide (strings.HasSuffix rest0 ['?'] = true ∧ strings.Count rest0 '?' = 1) = fq)
    (h2 : (if fq = true then rest0.dropLast else (strings.Cut '?' rest0).1) = body)
    (h3 : (if fq = true then [] else (strings.Cut '?' rest0).2.1) = q) :
    parseAfterScheme sch (body ++ queryText fq q) v = parseAfterScheme sch rest0 v := by
  have hs := splitQuery_text body q fq hb hfq
  unfold parseAfterScheme
  dsimp only
  rw [hs.1, hs.2.1, hs.2.2, h1, h2, h3]

theorem setPath_fields (w u : URL) (p : List Char) (h : URL.setPath w p = .ok u) :
    u.Scheme = w.Scheme ∧ u.Opaque = w.Opaque ∧ u.User = w.User ∧ u.Host = w.Host ∧
      u.OmitHost = w.OmitHost ∧ u.ForceQuery = w.ForceQuery ∧ u.RawQuery = w.RawQuery ∧
      u.Fragment = w.Fragment ∧ u.RawFragment = w.RawFragment ∧
      u.Path = String.mk (unescapeBuild encodePath p) := by
  unfold URL.setPath at h
  cases h1 : unescape p encodePath with
  | error e => rw [h1] at h; cases h
  | ok path =>
    rw [h1] at h
    simp only [Except.ok.injEq] at h
    obtain ⟨_, hpath⟩ := unescape_ok _ _ _ h1
    subst h
    subst hpath
    exact ⟨rfl, rfl, rfl, rfl, rfl, rfl, rfl, rfl, rfl, rfl⟩

theorem Cut_drop (sep : Char) (l : List Char) :
    l.drop (strings.Cut sep l).1.length = [] ∨
      (l.drop (strings.Cut sep l).1.length).head? = some sep := by
  induction l with
  | nil => simp [strings.Cut]
  | cons x l ih =>
    rw [strings.Cut]
    split
    · rename_i hx
      right
      simp [hx]
    · simpa using ih

theorem queryText_String (fq : Bool) (q : String) :
    (if fq = true ∨ q ≠ "" then '?' :: q.data else []) = queryText fq q.data := by
  unfold queryText
  have : q ≠ "" ↔ q.data ≠ [] := by
    constructor
    · intro h hd
      apply h
      cases q
      simp only at hd
      rw [hd]
    · intro h hq
      apply h
      rw [hq]
  simp only [this]

/-- The text of a URL with a scheme that is not opaque and has no fragment. -/
theorem String_hier (u : URL) (s p : List Char) (hs : s ≠ []) (hsch : u.Scheme = String.mk s)
    (ho : u.Opaque = "") (hf : u.Fragment = "") (hp : URL.EscapedPath u = p)
    (hpp : p = [] ∨ p.head? = some '/') :
    (URL.String u).data =
      s ++ ':' ::
        (((if u.OmitHost = true ∧ u.Host = "" ∧ u.User = none then []
            else (if u.Host ≠ "" ∨ u.Path ≠ "" ∨ u.User ≠ none then ['/', '/'] else []) ++
                userText u.User ++ escape u.Host.data encodeHost) ++ p) ++
          queryText u.ForceQuery u.RawQuery.data) := by
  have hss : u.Scheme ≠ "" := by
    rw [hsch]
    exact (mk_ne_empty s).2 hs
  have hq := queryText_String u.ForceQuery u.RawQuery
  have hhost : (if u.Host ≠ "" then escape u.Host.data encodeHost else []) =
      escape u.Host.data encodeHost := by
    split
    · rfl
    · rename_i hh
      simp only [ne_eq, not_not] at hh
      rw [hh]
      rfl
  have hbuf : URL.stringAuthority u = s ++ ':' ::
      (if u.OmitHost = true ∧ u.Host = "" ∧ u.User = none then []
        else (if u.Host ≠ "" ∨ u.Path ≠ "" ∨ u.User ≠ none then ['/', '/'] else []) ++
            userText u.User ++ escape u.Host.data encodeHost) := by
    unfold URL.stringAuthority userText
    rw [if_pos hss, if_pos (Or.inl hss), hhost, hsch]
    cases u.User <;> simp
  have hhead : ¬ (p ≠ [] ∧ p.head? ≠ some '/' ∧ u.Host ≠ "") := by
    intro hh
    rcases hpp with h1 | h1
    · exact hh.1 h1
    · exact hh.2.1 h1
  unfold URL.String
  rw [if_neg (by simpa using ho)]
  simp only [hp, hbuf, if_neg hhead]
  rw [if_neg (by simp), hq, hf]
  simp

/-- The text of an opaque URL. -/
theorem String_rootless (u : URL) (s o : List Char) (hs : s ≠ []) (hsch : u.Scheme = String.mk s)
    (ho : u.Opaque = String.mk o) (hu : u.User = none) (hh : u.Host = "") (hp : u.Path = "")
    (hr : u.RawPath = "") (hf : u.Fragment = "") (hom : u.OmitHost = false) :
    (URL.String u).data = s ++ ':' :: (o ++ queryText u.ForceQuery u.RawQuery.data) := by
  have hss : u.Scheme ≠ "" := by
    rw [hsch]
    exact (mk_ne_empty s).2 hs
  by_cases hoe : o = []
  · subst hoe
    have hesc : URL.EscapedPath u = [] := by
      unfold URL.EscapedPath
      rw [hr, hp]
      simp [escape]
    rw [String_hier u s [] hs hsch ho hf hesc (Or.inl rfl), hu, hh, hp, hom]
    simp [userText, escape]
  · have hoo : u.Opaque ≠ "" := by
      rw [ho]
      exact (mk_ne_empty o).2 hoe
    have hq := queryText_String u.ForceQuery u.RawQuery
    unfold URL.String
    rw [if_pos hoo, if_pos hss, hq, hf, hsch, ho]
    simp


theorem Cut_decomp (sep : Char) (l : List Char) :
    l = (strings.Cut sep l).1 ++ l.drop (strings.Cut sep l).1.length := by
  induction l with
  | nil => simp [strings.Cut]
  | cons x l ih =>
    rw [strings.Cut]
    split
    · simp
    · simp only [List.length_cons, List.drop_succ_cons, List.cons_append, List.cons.injEq,
        true_and]
      exact ih

theorem splitQuery_canon (sch rest0 : List Char) :
    ∃ (fq : Bool) (rest q : List Char), '?' ∉ rest ∧ (fq = true → q = []) ∧
      (∀ c ∈ rest, c ∈ rest0) ∧ (∀ c ∈ q, c ∈ rest0) ∧
      ∀ v, parseAfterScheme sch rest0 v = parseAfterScheme sch (rest ++ queryText fq q) v := by
  have hq := splitQuery_facts rest0
  refine ⟨_, _, _, hq.1, hq.2.1, hq.2.2.1, hq.2.2.2, fun v => ?_⟩
  exact (parseAfterScheme_text sch _ _ rest0 _ v hq.1 hq.2.1 rfl rfl rfl).symm

theorem parseAfterScheme_rootless (sch rest q : List Char) (fq v : Bool) (hs : sch ≠ [])
    (hb : '?' ∉ rest) (hfq : fq = true → q = [])
    (hp : strings.HasPrefix rest ['/'] = false) :
    parseAfterScheme sch (rest ++ queryText fq q) v =
      .ok { Scheme := String.mk (strings.ToLower sch), Opaque := String.mk rest,
            ForceQuery := fq, RawQuery := String.mk q } := by
  have hsl : strings.ToLower sch ≠ [] := by
    unfold strings.ToLower
    simpa using hs
  have hsch : String.mk (strings.ToLower sch) ≠ "" := (mk_ne_empty _).2 hsl
  have hq := splitQuery_text rest q fq hb hfq
  unfold parseAfterScheme
  dsimp only
  rw [hq.1, hq.2.1, hq.2.2, hp]
  simp only [Bool.not_false, if_true, if_pos hsch]

theorem parseAfterScheme_hier (sch rest q : List Char) (fq v : Bool)
    (hb : '?' ∉ rest) (hfq : fq = true → q = [])
    (hp : strings.HasPrefix rest ['/'] = true) :
    parseAfterScheme sch (rest ++ queryText fq q) v =
      parseHier { Scheme := String.mk (strings.ToLower sch), ForceQuery := fq,
                  RawQuery := String.mk q } rest v := by
  have hq := splitQuery_text rest q fq hb hfq
  unfold parseAfterScheme
  dsimp only
  rw [hq.1, hq.2.1, hq.2.2, hp]
  simp only [Bool.not_true, Bool.false_eq_true, if_false]

theorem parseHier_authority (u0 : URL) (hs : u0.Scheme ≠ "") (auth rest1 : List Char) (v : Bool)
    (hno : '/' ∉ auth) (hr : rest1 = [] ∨ rest1.head? = some '/') :
    parseHier u0 ('/' :: '/' :: (auth ++ rest1)) v =
      match parseAuthority auth with
      | .error err => .error err
      | .ok (user, host) => URL.setPath { u0 with User := user, Host := String.mk host } rest1 := by
  have hauth := Cut_host_path auth rest1 hno hr
  have hcond : (u0.Scheme ≠ "" ∨
      ((!v) = true ∧
        (!strings.HasPrefix ('/' :: '/' :: (auth ++ rest1)) ['/', '/', '/']) = true)) ∧
      strings.HasPrefix ('/' :: '/' :: (auth ++ rest1)) ['/', '/'] = true :=
    ⟨Or.inl hs, by simp [strings.HasPrefix, List.isPrefixOf]⟩
  unfold parseHier
  rw [if_pos hcond]
  have hdrop : List.drop 2 ('/' :: '/' :: (auth ++ rest1)) = auth ++ rest1 := rfl
  simp only [hdrop, hauth, List.drop_left']

theorem parseHier_omit (u0 : URL) (hs : u0.Scheme ≠ "") (t : List Char) (v : Bool)
    (ht : t.head? ≠ some '/') :
    parseHier u0 ('/' :: t) v = URL.setPath { u0 with OmitHost := true } ('/' :: t) := by
  have hcond : ¬ ((u0.Scheme ≠ "" ∨
      ((!v) = true ∧ (!strings.HasPrefix ('/' :: t) ['/', '/', '/']) = true)) ∧
      strings.HasPrefix ('/' :: t) ['/', '/'] = true) := by
    intro hh
    have h2 := hh.2
    cases t with
    | nil => simp [strings.HasPrefix, List.isPrefixOf] at h2
    | cons c t =>
      simp only [strings.HasPrefix, List.isPrefixOf, Bool.and_true, Bool.and_eq_true,
        beq_iff_eq, true_and] at h2
      apply ht
      rw [h2]
      rfl
  have hcond2 : u0.Scheme ≠ "" ∧ strings.HasPrefix ('/' :: t) ['/'] = true :=
    ⟨hs, by simp [strings.HasPrefix, List.isPrefixOf]⟩
  unfold parseHier
  rw [if_neg hcond, if_pos hcond2]


/-- The text that `URL.String` writes for a URL that `parse` returned in
request mode with a scheme is the lower-cased scheme, `:`, and a text that
`parseAfterScheme` maps to the same URL. -/
theorem parseAfterScheme_String (sch rest0 : List Char) (u : URL)
    (h : parseAfterScheme sch rest0 true = .ok u) (hs : sch ≠ [])
    (hb : ∀ c ∈ rest0, c.toNat < 256)
    (hctl : ∀ c ∈ rest0, ¬ (c.toNat < ' '.toNat ∨ c.toNat = 127))
    (hv : u.RawPath = "" ∨ validEncoded u.RawPath.data encodePath = true)
    (hz : ZoneASCII u.Host.data) :
    ∃ rest0', (URL.String u).data = strings.ToLower sch ++ ':' :: rest0' ∧
      (∀ c ∈ rest0', ¬ (c.toNat < ' '.toNat ∨ c.toNat = 127)) ∧
      ('#' ∉ rest0 → '#' ∉ rest0') ∧
      ∀ v, parseAfterScheme (strings.ToLower sch) rest0' v = .ok u := by
  have hsl : strings.ToLower sch ≠ [] := by
    unfold strings.ToLower
    simpa using hs
  have hsch : String.mk (strings.ToLower sch) ≠ "" := (mk_ne_empty _).2 hsl
  obtain ⟨fq, rest, q, hnoq, hfq, hmr, hmq, hcanon⟩ := splitQuery_canon sch rest0
  rw [hcanon true] at h
  have hqm : ∀ c ∈ queryText fq q, c = '?' ∨ c ∈ q := by
    intro c hc
    unfold queryText at hc
    split at hc
    · rcases List.mem_cons.1 hc with hc | hc
      · exact Or.inl hc
      · exact Or.inr hc
    · simp at hc
  have hqctl : ∀ c ∈ queryText fq q, ¬ (c.toNat < ' '.toNat ∨ c.toNat = 127) := by
    intro c hc
    rcases hqm c hc with hc | hc
    · subst hc
      decide
    · exact hctl c (hmq c hc)
  have hqhash : '#' ∉ rest0 → '#' ∉ queryText fq q := by
    intro hno hc
    rcases hqm _ hc with hc | hc
    · exact absurd hc (by decide)
    · exact hno (hmq _ hc)
  have hsame : u.Scheme ≠ "" → ∀ v,
      parseAfterScheme (strings.ToLower sch) (rest ++ queryText fq q) v = .ok u := by
    intro hscheme v
    rw [parseAfterScheme_ToLower]
    cases v
    · exact parseAfterScheme_of_scheme _ _ _ h hscheme
    · exact h
  have hfinish : u.Scheme ≠ "" →
      (URL.String u).data = strings.ToLower sch ++ ':' :: (rest ++ queryText fq q) →
      ∃ rest0', (URL.String u).data = strings.ToLower sch ++ ':' :: rest0' ∧
        (∀ c ∈ rest0', ¬ (c.toNat < ' '.toNat ∨ c.toNat = 127)) ∧
        ('#' ∉ rest0 → '#' ∉ rest0') ∧
        ∀ v, parseAfterScheme (strings.ToLower sch) rest0' v = .ok u := by
    intro hscheme ht
    refine ⟨rest ++ queryText fq q, ht, ?_, ?_, hsame hscheme⟩
    · intro c hc
      rcases List.mem_append.1 hc with hc | hc
      · exact hctl c (hmr c hc)
      · exact hqctl c hc
    · intro hno hc
      rcases List.mem_append.1 hc with hc | hc
      · exact hno (hmr _ hc)
      · exact hqhash hno hc
  cases hp : strings.HasPrefix rest ['/'] with
  | false =>
    rw [parseAfterScheme_rootless sch rest q fq true hs hnoq hfq hp] at h
    injection h with h
    subst h
    exact hfinish hsch (String_rootless _ (strings.ToLower sch) rest hsl rfl rfl rfl rfl rfl rfl
      rfl rfl)
  | true =>
    rw [parseAfterScheme_hier sch rest q fq true hnoq hfq hp] at h
    obtain ⟨t, ht⟩ := head_of_hasPrefix_slash rest hp
    subst ht
    by_cases h2 : t.head? = some '/'
    · obtain ⟨r2, hr2⟩ : ∃ r2, t = '/' :: r2 := by
        cases t with
        | nil => simp at h2
        | cons c r2 =>
          simp only [List.head?_cons, Option.some.injEq] at h2
          exact ⟨r2, by rw [h2]⟩
      subst hr2
      have hno := (mem_Cut '/' r2).2.2
      have hr1 := Cut_drop '/' r2
      have hdec := Cut_decomp '/' r2
      generalize (strings.Cut '/' r2).1 = auth at hno hr1 hdec
      generalize r2.drop auth.length = rest1 at hr1 hdec
      subst hdec
      rw [parseHier_authority _ hsch auth rest1 true hno hr1] at h
      cases hpa : parseAuthority auth with
      | error e => rw [hpa] at h; cases h
      | ok p =>
        obtain ⟨user, host⟩ := p
        rw [hpa] at h
        simp only at h
        have hf := setPath_fields _ _ _ h
        have hesc := EscapedPath_setPath _ _ _ h hv hr1
        have hscheme : u.Scheme ≠ "" := by
          rw [hf.1]
          exact hsch
        have hzh : ZoneASCII host := by
          have := hz
          rw [hf.2.2.2.1] at this
          exact this
        have hbauth : ∀ c ∈ auth, c.toNat < 256 := fun c hc => hb c (hmr c (by simp [hc]))
        have hpa2 := parseAuthority_text auth user host hpa hbauth hzh
        have htext := String_hier u (strings.ToLower sch) rest1 hsl hf.1 hf.2.1
          hf.2.2.2.2.2.2.2.1 hesc hr1
        rw [hf.2.2.2.2.1, hf.2.2.2.1, hf.2.2.1, hf.2.2.2.2.2.1, hf.2.2.2.2.2.2.1,
          hf.2.2.2.2.2.2.2.2.2] at htext
        simp only [Bool.false_eq_true, false_and, if_false] at htext
        by_cases hempty : host = [] ∧ unescapeBuild encodePath rest1 = [] ∧ user = none
        · obtain ⟨hh, hpth, hu⟩ := hempty
          have hr1e := unescapeBuild_eq_nil _ _ hpth
          subst hh
          subst hu
          subst hr1e
          refine ⟨queryText fq q, ?_, hqctl, hqhash, ?_⟩
          · rw [htext]
            simp [userText, escape, unescapeBuild]
          · intro v
            rw [parseAfterScheme_ToLower]
            have := parseAfterScheme_rootless sch [] q fq v hs (by simp) hfq rfl
            simp only [List.nil_append] at this
            rw [this]
            simp only [URL.setPath, unescape, unescapeCheck, unescapeBuild, escape, if_true,
              Except.ok.injEq] at h
            rw [← h]
        · have hcond : String.mk host ≠ "" ∨
              String.mk (unescapeBuild encodePath rest1) ≠ "" ∨ user ≠ none := by
            by_contra hcon
            simp only [not_or, ne_eq, not_not] at hcon
            exact hempty ⟨congrArg String.data hcon.1, congrArg String.data hcon.2.1, hcon.2.2⟩
          rw [if_pos hcond] at htext
          have hus := userText_sep user
          have hes := sep_not_mem_escape host
          have hnoslash : '/' ∉ userText user ++ escape host encodeHost := by
            intro hm
            rcases List.mem_append.1 hm with hm | hm
            · exact hus.1 hm
            · exact hes.1 hm
          have hbodyq : '?' ∉ '/' :: '/' :: ((userText user ++ escape host encodeHost) ++ rest1) := by
            intro hm
            simp only [List.mem_cons, List.mem_append] at hm
            rcases hm with hm | hm | (hm | hm) | hm
            · exact absurd hm (by decide)
            · exact absurd hm (by decide)
            · exact hus.2.1 hm
            · exact hes.2.1 hm
            · exact hnoq (by simp [hm])
          refine ⟨'/' :: '/' :: ((userText user ++ escape host encodeHost) ++ rest1) ++
            queryText fq q, ?_, ?_, ?_, ?_⟩
          · rw [htext]
            simp
          · intro c hc
            simp only [List.cons_append, List.mem_cons, List.mem_append] at hc
            rcases hc with hc | hc | ((hc | hc) | hc) | hc
            · subst hc
              decide
            · subst hc
              decide
            · exact hus.2.2.2 c hc
            · exact escape_noCTL _ _ (by decide) c hc
            · exact hctl c (hmr c (by simp [hc]))
            · exact hqctl c hc
          · intro hno2 hc
            simp only [List.cons_append, List.mem_cons, List.mem_append] at hc
            rcases hc with hc | hc | ((hc | hc) | hc) | hc
            · exact absurd hc (by decide)
            · exact absurd hc (by decide)
            · exact hus.2.2.1 hc
            · exact hes.2.2.1 hc
            · exact hno2 (hmr _ (by simp [hc]))
            · exact hqhash hno2 hc
          · intro v
            rw [parseAfterScheme_ToLower, parseAfterScheme_hier sch _ q fq v hbodyq hfq
              (by simp [strings.HasPrefix, List.isPrefixOf]),
              parseHier_authority _ hsch _ rest1 v hnoslash hr1, hpa2]
            exact h
    · rw [parseHier_omit _ hsch t true h2] at h
      have hf := setPath_fields _ _ _ h
      have hesc := EscapedPath_setPath _ _ _ h hv (Or.inr rfl)
      have hscheme : u.Scheme ≠ "" := by
        rw [hf.1]
        exact hsch
      apply hfinish hscheme
      rw [String_hier u (strings.ToLower sch) ('/' :: t) hsl hf.1 hf.2.1 hf.2.2.2.2.2.2.2.1 hesc
        (Or.inr rfl), hf.2.2.2.2.1, hf.2.2.2.1, hf.2.2.1, hf.2.2.2.2.2.1, hf.2.2.2.2.2.2.1]
      simp


theorem parseAfterScheme_scheme (sch rest0 : List Char) (v : Bool) (u : URL)
    (h : parseAfterScheme sch rest0 v = .ok u) :
    u.Scheme = String.mk (strings.ToLower sch) := by
  unfold parseAfterScheme at h
  dsimp only at h
  generalize (if (decide (strings.HasSuffix rest0 ['?'] = true ∧ strings.Count rest0 '?' = 1))
      = true then rest0.dropLast else (strings.Cut '?' rest0).1) = rest at h
  split at h
  · split at h
    · injection h with h
      subst h
      rfl
    · split at h
      · cases h
      · split at h
        · cases h
        · exact parseHier_scheme _ _ _ _ h
  · exact parseHier_scheme _ _ _ _ h

theorem parseAfterScheme_true_of_scheme (sch rest0 : List Char) (u : URL)
    (h : parseAfterScheme sch rest0 false = .ok u) (hs : u.Scheme ≠ "") :
    parseAfterScheme sch rest0 true = .ok u := by
  have hsch : String.mk (strings.ToLower sch) ≠ "" := by
    rw [← parseAfterScheme_scheme _ _ _ _ h]
    exact hs
  unfold parseAfterScheme at h ⊢
  dsimp only at h ⊢
  generalize (if (decide (strings.HasSuffix rest0 ['?'] = true ∧ strings.Count rest0 '?' = 1))
      = true then rest0.dropLast else (strings.Cut '?' rest0).1) = rest at h ⊢
  split at h
  · rename_i hpre
    rw [if_pos hpre, if_pos hsch]
    exact h
  · rename_i hpre
    rw [if_neg hpre]
    rw [← parseHier_of_scheme _ _ hsch]
    exact h

theorem parse_true_of_scheme (l : List Char) (u : URL) (h : parse l false = .ok u)
    (hs : u.Scheme ≠ "") : parse l true = .ok u := by
  unfold parse at h ⊢
  split at h
  · cases h
  · rename_i h1
    rw [if_neg h1]
    split at h
    · cases h
    · split at h
      · injection h with h
        subst h
        exact absurd rfl hs
      · rename_i h3
        cases hg : getScheme l with
        | error e => rw [hg] at h; cases h
        | ok p =>
          obtain ⟨sch, rest0⟩ := p
          rw [hg] at h
          simp only at h
          have hne : ¬ (l = [] ∧ true = true) := by
            intro hh
            have hl := hh.1
            subst hl
            simp only [getScheme, getSchemeLoop, Except.ok.injEq, Prod.mk.injEq] at hg
            have := parseAfterScheme_scheme _ _ _ _ h
            rw [← hg.1] at this
            exact hs this
          rw [if_neg hne, if_neg h3]
          simp only
          exact parseAfterScheme_true_of_scheme _ _ _ h hs

/-- For a text with a scheme and without `#`, `url.ParseRequestURI` returns
what `url.Parse` returns. -/
theorem ParseRequestURI_of_Parse (s : String) (u : URL) (h : Parse s = .ok u)
    (hs : u.Scheme ≠ "") (hfrag : '#' ∉ s.data) : ParseRequestURI s = .ok u := by
  unfold Parse at h
  rw [Cut_of_not_mem '#' s.data hfrag] at h
  simp only at h
  cases hp : parse s.data false with
  | error e => rw [hp] at h; cases h
  | ok w =>
    rw [hp] at h
    simp only [if_true, Except.ok.injEq] at h
    subst h
    unfold ParseRequestURI
    rw [parse_true_of_scheme _ _ hp hs]

/-- The round trip of `parse`: the text that `URL.String` writes for a URL
with a scheme that `parse` returned in request mode parses, in either mode, to
the same URL. -/
theorem parse_String (l : List Char) (u : URL) (h : parse l true = .ok u) (hs : u.Scheme ≠ "")
    (hb : ∀ c ∈ l, c.toNat < 256)
    (hv : u.RawPath = "" ∨ validEncoded u.RawPath.data encodePath = true)
    (hz : ZoneASCII u.Host.data) :
    (∀ v, parse (URL.String u).data v = .ok u) ∧ ('#' ∉ l → '#' ∉ (URL.String u).data) := by
  unfold parse at h
  split at h
  · cases h
  · rename_i hctl
    split at h
    · cases h
    · split at h
      · injection h with h
        subst h
        exact absurd rfl hs
      · cases hg : getScheme l with
        | error e => rw [hg] at h; cases h
        | ok p =>
          obtain ⟨sch, rest0⟩ := p
          rw [hg] at h
          simp only at h
          have hsc := parseAfterScheme_scheme _ _ _ _ h
          have hsne : sch ≠ [] := by
            intro hh
            subst hh
            exact hs hsc
          obtain ⟨c, t, hct, hc, htl, hl⟩ := getScheme_inv l sch rest0 hg hsne
          have hctl2 : ∀ x ∈ l, ¬ (x.toNat < ' '.toNat ∨ x.toNat = 127) := by
            intro x hx hh
            apply hctl
            unfold stringContainsCTLByte
            rw [List.any_eq_true]
            exact ⟨x, hx, by simpa using hh⟩
          have hsub : ∀ x ∈ rest0, x ∈ l := by
            intro x hx
            rw [hl]
            simp [hx]
          obtain ⟨rest0', htext, hctl', hhash, hre⟩ :=
            parseAfterScheme_String sch rest0 u h hsne (fun x hx => hb x (hsub x hx))
              (fun x hx => hctl2 x (hsub x hx)) hv hz
          have hlow : strings.ToLower sch =
              strings.toLowerByte c :: strings.ToLower t := by
            rw [hct]
            rfl
          have hlc : isAlpha (strings.toLowerByte c) = true := (toLowerByte_facts c).1 hc
          have hlt : ∀ x ∈ strings.ToLower t, schemeByte x := by
            intro x hx
            unfold strings.ToLower at hx
            obtain ⟨y, hy, hyx⟩ := List.mem_map.1 hx
            rw [← hyx]
            exact (toLowerByte_facts y).2.1 (htl y hy)
          have hls : ∀ x ∈ strings.ToLower sch, schemeByte x := by
            intro x hx
            rw [hlow] at hx
            rcases List.mem_cons.1 hx with hx | hx
            · rw [hx]
              exact Or.inl hlc
            · exact hlt x hx
          constructor
          · intro v
            rw [htext]
            have hc1 : stringContainsCTLByte (strings.ToLower sch ++ ':' :: rest0') = false := by
              apply stringContainsCTLByte_false
              intro x hx
              rcases List.mem_append.1 hx with hx | hx
              · exact (schemeByte_facts x (hls x hx)).2.2
              · rcases List.mem_cons.1 hx with hx | hx
                · subst hx
                  decide
                · exact hctl' x hx
            have hc2 : ¬ (strings.ToLower sch ++ ':' :: rest0' = [] ∧ v = true) := by
              simp
            have hc3 : strings.ToLower sch ++ ':' :: rest0' ≠ ['*'] := by
              rw [hlow]
              intro hh
              have := congrArg List.length hh
              simp at this
            unfold parse
            rw [hc1]
            simp only [Bool.false_eq_true, if_false, if_neg hc2, if_neg hc3]
            rw [hlow, getScheme_ok _ _ _ hlc hlt]
            simp only
            rw [← hlow]
            exact hre v
          · intro hno
            rw [htext]
            intro hm
            rcases List.mem_append.1 hm with hm | hm
            · exact (schemeByte_facts _ (hls _ hm)).2.1 rfl
            · rcases List.mem_cons.1 hm with hm | hm
              · exact absurd hm (by decide)
              · exact hhash (fun hh => hno (hsub _ hh)) hm

/-- The round trip of `url.ParseRequestURI`. -/
theorem ParseRequestURI_String (s : String) (u : URL) (h : ParseRequestURI s = .ok u)
    (hs : u.Scheme ≠ "") (hb : ∀ c ∈ s.data, c.toNat < 256)
    (hv : u.RawPath = "" ∨ validEncoded u.RawPath.data encodePath = true)
    (hz : ZoneASCII u.Host.data) :
    ParseRequestURI (URL.String u) = .ok u ∧
      ('#' ∉ s.data → Parse (URL.String u) = .ok u) := by
  unfold ParseRequestURI at h
  cases hp : parse s.data true with
  | error e => rw [hp] at h; cases h
  | ok w =>
    rw [hp] at h
    simp only [Except.ok.injEq] at h
    subst h
    have := parse_String s.data w hp hs hb hv hz
    constructor
    · unfold ParseRequestURI
      rw [this.1 true]
    · intro hno
      unfold Parse
      rw [Cut_of_not_mem '#' _ (this.2 hno)]
      simp only [this.1 false, if_true]

end url

/-! ## Plain URLs and `path.Join` -/

namespace url
open encoding

theorem removeEmptyPort_plain (name port : List Char)
    (hn : ∀ c ∈ name, plainHostByte c = true) (hpt : ∀ c ∈ port, isDigit c = true) :
    http.removeEmptyPort (hostPort name port) = hostPort name port := by
  have hbr : ']' ∉ hostPort name port := by
    intro hm
    unfold hostPort at hm
    split at hm
    · exact absurd (hn _ hm) (by decide)
    · simp only [List.mem_append, List.mem_cons] at hm
      rcases hm with hm | hm | hm
      · exact absurd (hn _ hm) (by decide)
      · exact absurd hm (by decide)
      · exact absurd (hpt _ hm) (by decide)
  have hname : ':' ∉ name := fun hm => (plainHostByte_facts _ (hn _ hm)).2.1 rfl
  have hport : ':' ∉ port := fun hm => (digit_facts _ (hpt _ hm)).2.1 rfl
  unfold http.removeEmptyPort
  rw [LastIndex_of_not_mem _ ']' hbr]
  by_cases hp : port = []
  · have : hostPort name port = name := by simp [hostPort, hp]
    rw [this, LastIndex_of_not_mem name ':' hname]
    simp
  · have hh : hostPort name port = name ++ ':' :: port := by simp [hostPort, hp]
    rw [hh, LastIndex_append name port ':' hport]
    simp only [if_true]
    unfold strings.TrimSuffix
    rw [if_neg]
    intro hl
    have hl2 : port.getLast? = some ':' := by
      rw [List.getLast?_append] at hl
      cases port with
      | nil => exact absurd rfl hp
      | cons x t =>
        simpa [List.getLast?_cons_cons] using hl
    exact hport (List.mem_of_getLast?_eq_some hl2)

/-- Joining a plain base path and a plain endpoint that begins with `/` gives a
plain path. -/
theorem PlainURL_join (scheme name port base e : List Char) (h : PlainURL scheme name port base)
    (he : e.head? = some '/') (hpe : ∀ c ∈ e, plainPathByte c = true) :
    PlainURL scheme name port (path.joinBytes base e) := by
  obtain ⟨hsne, hs, hne, hn, hpt, hp, hpb⟩ := h
  have hene : e ≠ [] := by
    intro hh
    simp [hh] at he
  have key : ∀ x : List Char, x ≠ [] → x.head? = some '/' → (∀ c ∈ x, plainPathByte c = true) →
      ((path.cleanBytes x).head? = some '/') ∧ ∀ c ∈ path.cleanBytes x, plainPathByte c = true := by
    intro x hx hxh hxp
    refine ⟨(path.head_cleanBytes x hx).2 hxh, ?_⟩
    intro c hc
    rcases path.mem_cleanBytes x c hc with h | h | h
    · subst h
      decide
    · subst h
      decide
    · exact hxp c h
  unfold path.joinBytes
  by_cases hb : base = []
  · rw [if_pos hb, if_neg hene]
    have := key e hene he hpe
    exact ⟨hsne, hs, hne, hn, hpt, Or.inr this.1, this.2⟩
  · rw [if_neg hb]
    have hbh : (base ++ '/' :: e).head? = some '/' := by
      rcases hp with hp | hp
      · exact absurd hp hb
      · cases base with
        | nil => exact absurd rfl hb
        | cons x t => simpa using hp
    have := key (base ++ '/' :: e) (by simp) hbh (by
      intro c hc
      simp only [List.mem_append, List.mem_cons] at hc
      rcases hc with hc | hc | hc
      · exact hpb c hc
      · subst hc
        decide
      · exact hpe c hc)
    exact ⟨hsne, hs, hne, hn, hpt, Or.inr this.1, this.2⟩

end url

/-! ## The constructor `New` and its options -/

namespace linebot

theorem applyOptions_fail {σ : Type} :
    ∀ (pre : List (ClientOption σ)) (f : ClientOption σ) (post : List (ClientOption σ))
      (c : Client) (w : σ) (err : GoError),
      (∀ (i : Nat) (hi : i < pre.length),
        ((pre.get ⟨i, hi⟩) (runOptions (pre.take i) c w).1 (runOptions (pre.take i) c w).2).1
          = none) →
      (f (runOptions pre c w).1 (runOptions pre c w).2).1 = some err →
      applyOptions (pre ++ f :: post) c w =
        (.error err, (f (runOptions pre c w).1 (runOptions pre c w).2).2.2) := by
  intro pre
  induction pre with
  | nil =>
    intro f post c w err _ hf
    simp only [runOptions, List.foldl_nil] at hf
    simp only [List.nil_append, applyOptions, runOptions, List.foldl_nil]
    rcases hfc : f c w with ⟨e, c1, w1⟩
    rw [hfc] at hf
    simp only at hf
    subst hf
    rfl
  | cons o pre ih =>
    intro f post c w err hpre hf
    have h0 := hpre 0 (by simp)
    simp only [List.take_zero, runOptions, List.foldl_nil, List.get_eq_getElem,
      List.getElem_cons_zero] at h0
    rcases hoc : o c w with ⟨e, c1, w1⟩
    rw [hoc] at h0
    simp only at h0
    subst h0
    have hrun : ∀ l : List (ClientOption σ), runOptions (o :: l) c w = runOptions l c1 w1 := by
      intro l
      simp [runOptions, hoc]
    simp only [List.cons_append, applyOptions, hoc]
    rw [hrun] at hf ⊢
    apply ih f post c1 w1 err _ hf
    intro i hi
    have := hpre (i + 1) (by simpa using hi)
    simpa [hrun] using this

end linebot
namespace linebot

theorem New_eq_of_nonempty {σ : Type} (secret token : String) (hs : secret ≠ "")
    (ht : token ≠ "") (options : List (ClientOption σ)) (w : σ) :
    New secret token options w =
      match applyOptions options (newClient secret token) w with
      | (.error err, w1) => (.error err, w1)
      | (.ok c, w1) =>
        match c.EndpointBase with
        | none =>
          match url.ParseRequestURI APIEndpointBase with
          | .error err => (.error err, w1)
          | .ok u => (.ok { c with EndpointBase := some u }, w1)
        | some _ => (.ok c, w1) := by
  simp only [New, if_neg hs, if_neg ht, newClient]

theorem parse_APIEndpointBase :
    url.ParseRequestURI APIEndpointBase = .ok { Scheme := "https", Host := "api.line.me" } := by
  decide

theorem applyOptions_calls {σ : Type} :
    ∀ (calls : List OptionCall) (c : Client) (w : σ),
      (∀ s, OptionCall.WithEndpointBase s ∈ calls → ∃ u, url.ParseRequestURI s = .ok u) →
      applyOptions (calls.map OptionCall.toOption) c w =
        (.ok { ChannelSecret := c.ChannelSecret, ChannelToken := c.ChannelToken,
               EndpointBase :=
                 match (calls.filterMap OptionCall.endpointBase?).getLast? with
                 | none => c.EndpointBase
                 | some s => (url.ParseRequestURI s).toOption
               HttpClient :=
                 ((calls.filterMap OptionCall.httpClient?).getLast?).getD c.HttpClient }, w) := by
  intro calls
  induction calls with
  | nil => intro c w _; rfl
  | cons x calls ih =>
    intro c w hok
    have hok' : ∀ s, OptionCall.WithEndpointBase s ∈ calls →
        ∃ u, url.ParseRequestURI s = .ok u := fun s hs => hok s (by simp [hs])
    cases x with
    | WithHTTPClient p =>
      simp only [List.map_cons, applyOptions, OptionCall.toOption, WithHTTPClient]
      rw [ih _ w hok']
      simp only [List.filterMap_cons, OptionCall.httpClient?, OptionCall.endpointBase?,
        List.getLast?_cons]
      rfl
    | WithEndpointBase s =>
      obtain ⟨u, hu⟩ := hok s (by simp)
      simp only [List.map_cons, applyOptions, OptionCall.toOption, WithEndpointBase, hu]
      rw [ih _ w hok']
      simp only [List.filterMap_cons, OptionCall.httpClient?, OptionCall.endpointBase?,
        List.getLast?_cons]
      cases hl : (List.filterMap OptionCall.endpointBase? calls).getLast? with
      | none => simp [hu, Except.toOption]
      | some t => simp

/-- C1.  If the secret or the token is empty, `New` returns an error and no
client, and leaves the program state as it was: no option is invoked, so the
outcome is the same whatever options are passed. -/
theorem New_rejects_empty_credentials {σ : Type} (secret token : String)
    (options : List (ClientOption σ)) (w : σ) (h : secret = "" ∨ token = "") :
    New secret token options w =
        (.error (.errorString
          (if secret = "" then "missing channel secret" else "missing channel access token")),
          w) ∧
      New secret token options w = New secret token [] w := by
  by_cases hs : secret = ""
  · simp [New, hs]
  · have ht : token = "" := h.resolve_left hs
    simp [New, hs, ht]

theorem New_rejects_empty_credentials_witness :
    ("" = "" ∨ "testtoken" = "") ∧
      New "" "testtoken" [fun c (w : Nat) => (none, c, w + 1), WithEndpointBase "%"] 0 =
        (.error (.errorString "missing channel secret"), 0) :=
  ⟨Or.inl rfl,
    (New_rejects_empty_credentials "" "testtoken"
      [fun c (w : Nat) => (none, c, w + 1), WithEndpointBase "%"] 0 (Or.inl rfl)).1⟩

/-- C2.  With a non-empty secret and token and no options, `New` succeeds; the
client holds the secret and the token, its `EndpointBase` is the parsed
canonical API root `https://api.line.me` (what both `url.ParseRequestURI` and
`url.Parse` return for `APIEndpointBase`), and its `HttpClient` is
`http.DefaultClient`. -/
theorem New_without_options {σ : Type} (secret token : String) (hs : secret ≠ "")
    (ht : token ≠ "") (w : σ) :
    New secret token [] w =
        (.ok { ChannelSecret := secret, ChannelToken := token,
               EndpointBase := some { Scheme := "https", Host := "api.line.me" },
               HttpClient := http.DefaultClient }, w) ∧
      url.ParseRequestURI APIEndpointBase = .ok { Scheme := "https", Host := "api.line.me" } ∧
      url.Parse APIEndpointBase = .ok { Scheme := "https", Host := "api.line.me" } := by
  refine ⟨?_, parse_APIEndpointBase, by decide⟩
  rw [New_eq_of_nonempty secret token hs ht]
  simp [applyOptions, newClient, parse_APIEndpointBase]

theorem New_without_options_witness :
    New "testsecret" "testtoken" [] () =
      (.ok { ChannelSecret := "testsecret", ChannelToken := "testtoken",
             EndpointBase := some { Scheme := "https", Host := "api.line.me" },
             HttpClient := http.DefaultClient }, ()) :=
  (New_without_options "testsecret" "testtoken" (by decide) (by decide) ()).1

/-- C3.  With a non-empty secret and token, if every option of `pre` returns
`nil` when the options are applied in order and the next option `f` returns the
error `err`, then `New` returns no client and exactly `err`, and the program
state is the one left by applying `pre` once in order and then `f`: the options
of `post` are not applied. -/
theorem New_stops_at_first_failing_option {σ : Type} (secret token : String)
    (hs : secret ≠ "") (ht : token ≠ "") (pre : List (ClientOption σ)) (f : ClientOption σ)
    (post : List (ClientOption σ)) (w : σ) (err : GoError)
    (hpre : ∀ (i : Nat) (hi : i < pre.length),
      ((pre.get ⟨i, hi⟩) (runOptions (pre.take i) (newClient secret token) w).1
        (runOptions (pre.take i) (newClient secret token) w).2).1 = none)
    (hf : (f (runOptions pre (newClient secret token) w).1
      (runOptions pre (newClient secret token) w).2).1 = some err) :
    New secret token (pre ++ f :: post) w =
      (.error err,
        (f (runOptions pre (newClient secret token) w).1
          (runOptions pre (newClient secret token) w).2).2.2) := by
  rw [New_eq_of_nonempty secret token hs ht,
    applyOptions_fail pre f post (newClient secret token) w err hpre hf]

theorem New_stops_at_first_failing_option_witness :
    New "testsecret" "testtoken"
        ([fun c (log : List Nat) => (none, c, log ++ [1])] ++
          (fun c (log : List Nat) => (some (GoError.errorString "refused"), c, log ++ [2])) ::
          [fun c (log : List Nat) => (none, c, log ++ [3])]) [] =
      (.error (.errorString "refused"), [1, 2]) :=
  New_stops_at_first_failing_option "testsecret" "testtoken" (by decide) (by decide)
    [fun c (log : List Nat) => (none, c, log ++ [1])]
    (fun c (log : List Nat) => (some (GoError.errorString "refused"), c, log ++ [2]))
    [fun c (log : List Nat) => (none, c, log ++ [3])] [] (.errorString "refused")
    (by
      intro i hi
      have h0 : i = 0 := by simpa using hi
      subst h0
      rfl)
    rfl

/-- C5.  With a non-empty secret and token and a list of `WithHTTPClient` and
`WithEndpointBase` options that all succeed, `New` succeeds and the last writer
wins for each field: `HttpClient` is the very reference passed to the last
`WithHTTPClient` (the default client if there is none), `EndpointBase` is the
parse of the string passed to the last `WithEndpointBase` (of the canonical API
root if there is none), and `ChannelSecret` and `ChannelToken` are the
arguments of `New`. -/
theorem New_last_writer_wins {σ : Type} (secret token : String) (hs : secret ≠ "")
    (ht : token ≠ "") (calls : List OptionCall) (w : σ)
    (hok : ∀ s, OptionCall.WithEndpointBase s ∈ calls → ∃ u, url.ParseRequestURI s = .ok u) :
    ∃ u, url.ParseRequestURI (lastEndpointBase calls) = .ok u ∧
      New secret token (calls.map OptionCall.toOption) w =
        (.ok { ChannelSecret := secret, ChannelToken := token, EndpointBase := some u,
               HttpClient := lastHTTPClient calls }, w) := by
  rw [New_eq_of_nonempty secret token hs ht, applyOptions_calls calls _ w hok]
  unfold lastEndpointBase lastHTTPClient
  cases hl : (List.filterMap OptionCall.endpointBase? calls).getLast? with
  | none =>
    refine ⟨_, parse_APIEndpointBase, ?_⟩
    simp [newClient, parse_APIEndpointBase]
  | some s =>
    have hmem : OptionCall.WithEndpointBase s ∈ calls := by
      have h1 : s ∈ List.filterMap OptionCall.endpointBase? calls :=
        List.mem_of_mem_getLast? hl
      obtain ⟨x, hx, hxs⟩ := List.mem_filterMap.1 h1
      cases x with
      | WithHTTPClient p => simp [OptionCall.endpointBase?] at hxs
      | WithEndpointBase t =>
        simp only [OptionCall.endpointBase?, Option.some.injEq] at hxs
        subst hxs
        exact hx
    obtain ⟨u, hu⟩ := hok s hmem
    refine ⟨u, by simpa using hu, ?_⟩
    simp [newClient, hu, Except.toOption]

theorem New_last_writer_wins_witness :
    New "testsecret" "testtoken"
        ([OptionCall.WithHTTPClient (some 7), OptionCall.WithEndpointBase "https://a.test/x",
          OptionCall.WithHTTPClient (some 8),
          OptionCall.WithEndpointBase "https://example.test/"].map OptionCall.toOption) () =
      (.ok { ChannelSecret := "testsecret", ChannelToken := "testtoken",
             EndpointBase := some { Scheme := "https", Host := "example.test", Path := "/" },
             HttpClient := some 8 }, ()) := by
  obtain ⟨u, hu, h⟩ := New_last_writer_wins "testsecret" "testtoken" (by decide) (by decide)
    [OptionCall.WithHTTPClient (some 7), OptionCall.WithEndpointBase "https://a.test/x",
      OptionCall.WithHTTPClient (some 8), OptionCall.WithEndpointBase "https://example.test/"] ()
    (by
      intro s hs
      simp only [List.mem_cons, OptionCall.WithEndpointBase.injEq, List.mem_singleton,
        false_or, reduceCtorEq, List.not_mem_nil, or_false] at hs
      rcases hs with rfl | rfl
      · exact ⟨{ Scheme := "https", Host := "a.test", Path := "/x" }, by decide⟩
      · exact ⟨{ Scheme := "https", Host := "example.test", Path := "/" }, by decide⟩)
  have hu' : url.ParseRequestURI "https://example.test/" =
      .ok { Scheme := "https", Host := "example.test", Path := "/" } := by decide
  have : u = { Scheme := "https", Host := "example.test", Path := "/" } := by
    have h2 : url.ParseRequestURI "https://example.test/" = .ok u := hu
    rw [hu'] at h2
    injection h2 with h2
    exact h2.symm
  rw [h, this]
  rfl

end linebot
namespace linebot

theorem applyOptions_calls_ok {σ : Type} :
    ∀ (calls : List OptionCall) (c0 : Client) (w : σ) (c : Client) (w' : σ),
      applyOptions (calls.map OptionCall.toOption) c0 w = (.ok c, w') →
      c.EndpointBase = c0.EndpointBase ∨
        ∃ s u, url.ParseRequestURI s = .ok u ∧ c.EndpointBase = some u := by
  intro calls
  induction calls with
  | nil =>
    intro c0 w c w' h
    simp only [List.map_nil, applyOptions, Prod.mk.injEq, Except.ok.injEq] at h
    exact Or.inl (by rw [h.1])
  | cons x calls ih =>
    intro c0 w c w' h
    cases x with
    | WithHTTPClient p =>
      simp only [List.map_cons, applyOptions, OptionCall.toOption, WithHTTPClient] at h
      exact ih { c0 with HttpClient := p } w c w' h
    | WithEndpointBase s =>
      simp only [List.map_cons, applyOptions, OptionCall.toOption, WithEndpointBase] at h
      cases hp : url.ParseRequestURI s with
      | error err =>
        rw [hp] at h
        simp at h
      | ok u =>
        rw [hp] at h
        rcases ih _ _ _ _ h with h1 | h1
        · exact Or.inr ⟨s, u, hp, h1⟩
        · exact Or.inr h1

/-- C6 (amended).  If `New` succeeds with options built from
`WithHTTPClient` and `WithEndpointBase`, the client's `EndpointBase` is not nil
and is what `url.ParseRequestURI` accepts: a URL with a non-empty scheme, or a
URL with no scheme, no user information and no host whose path is `*` or
begins with `/`. -/
theorem New_EndpointBase_shape {σ : Type} (secret token : String) (calls : List OptionCall)
    (w w' : σ) (c : Client)
    (h : New secret token (calls.map OptionCall.toOption) w = (.ok c, w')) :
    ∃ u, c.EndpointBase = some u ∧
      (u.Scheme ≠ "" ∨
        (u.Scheme = "" ∧ u.Host = "" ∧ u.User = none ∧
          (u.Path = "*" ∨ u.Path.data.head? = some '/'))) := by
  have key : ∃ s u, url.ParseRequestURI s = .ok u ∧ c.EndpointBase = some u := by
    unfold New at h
    split at h
    · simp at h
    · split at h
      · simp at h
      · split at h
        · simp at h
        · rename_i c1 w1 happ
          rcases applyOptions_calls_ok calls _ w c1 w1 happ with h1 | h1
          · simp only at h1
            rw [h1] at h
            simp only [parse_APIEndpointBase, Prod.mk.injEq, Except.ok.injEq] at h
            exact ⟨APIEndpointBase, _, parse_APIEndpointBase, by rw [← h.1]⟩
          · obtain ⟨s, u, hu, hc⟩ := h1
            rw [hc] at h
            simp only [Prod.mk.injEq, Except.ok.injEq] at h
            exact ⟨s, u, hu, by rw [← h.1]; exact hc⟩
  obtain ⟨s, u, hu, hc⟩ := key
  exact ⟨u, hc, url.ParseRequestURI_shape s u hu⟩

theorem New_EndpointBase_shape_witness :
    ∃ u, (some { Path := "/foo" } : Option url.URL) = some u ∧
      (u.Scheme ≠ "" ∨
        (u.Scheme = "" ∧ u.Host = "" ∧ u.User = none ∧
          (u.Path = "*" ∨ u.Path.data.head? = some '/'))) :=
  New_EndpointBase_shape "testsecret" "testtoken" [OptionCall.WithEndpointBase "/foo"] () ()
    { ChannelSecret := "testsecret", ChannelToken := "testtoken",
      EndpointBase := some { Path := "/foo" }, HttpClient := http.DefaultClient }
    (by decide)

/-- C6 (counterexample).  `WithEndpointBase "/foo"` succeeds, and `New`
returns a client whose `EndpointBase` has neither scheme nor host. -/
theorem WithEndpointBase_accepts_absolute_path :
    ∃ c u, New "testsecret" "testtoken" [WithEndpointBase "/foo"] () = (.ok c, ()) ∧
      c.EndpointBase = some u ∧ u.Scheme = "" ∧ u.Host = "" :=
  ⟨{ ChannelSecret := "testsecret", ChannelToken := "testtoken",
     EndpointBase := some { Path := "/foo" }, HttpClient := http.DefaultClient },
    { Path := "/foo" }, by decide, rfl, rfl, rfl⟩

/-- C7 (counterexample).  For the absolute URL `https://example.test/a#b` the
stored `EndpointBase` is not the value `url.Parse` yields: `WithEndpointBase`
keeps `#b` in the path, `url.Parse` splits it off as the fragment.  The
absolute URI `http://%41:8080/`, whose host is written with an escaped letter
as RFC 3986 allows, is refused, so construction fails for it.  For
`https://example.test/a b`, which `url.Parse` accepts and for which the stored
URL is the value `url.Parse` yields, serialising the stored URL gives
`https://example.test/a%20b`, and parsing that gives another URL value (one
without the `RawPath` hint).  For the host `[fe80::1%25z]` where `z` is the
byte 0xE9, serialising the stored URL gives `http://[fe80::1%25%E9]/`, which
both parsers refuse. -/
theorem WithEndpointBase_differs_from_Parse :
    (∃ c u, New "testsecret" "testtoken" [WithEndpointBase "https://example.test/a#b"] () =
        (.ok c, ()) ∧
      url.Parse "https://example.test/a#b" = .ok u ∧ c.EndpointBase ≠ some u) ∧
    (∃ err, New "testsecret" "testtoken" [WithEndpointBase "http://%41:8080/"] () =
      (.error err, ())) ∧
    (∃ c u, New "testsecret" "testtoken" [WithEndpointBase "https://example.test/a b"] () =
        (.ok c, ()) ∧ c.EndpointBase = some u ∧
      url.Parse "https://example.test/a b" = .ok u ∧
      u.String = "https://example.test/a%20b" ∧
      url.Parse u.String ≠ .ok u ∧ url.ParseRequestURI u.String ≠ .ok u) ∧
    (∃ c u e1 e2,
      New "testsecret" "testtoken"
          [WithEndpointBase (String.mk ("http://[fe80::1%25".data ++ [Char.ofNat 233] ++ "]/".data))]
          () = (.ok c, ()) ∧
      c.EndpointBase = some u ∧
      url.Parse (String.mk ("http://[fe80::1%25".data ++ [Char.ofNat 233] ++ "]/".data)) = .ok u ∧
      u.String = "http://[fe80::1%25%E9]/" ∧
      url.Parse u.String = .error e1 ∧ url.ParseRequestURI u.String = .error e2) :=
  ⟨⟨{ ChannelSecret := "testsecret", ChannelToken := "testtoken",
      EndpointBase :=
        some { Scheme := "https", Host := "example.test", Path := "/a#b", RawPath := "/a#b" },
      HttpClient := http.DefaultClient },
    { Scheme := "https", Host := "example.test", Path := "/a", Fragment := "b" },
    by decide, by decide, by decide⟩,
   ⟨.urlError "parse" "http://%41:8080/" (.EscapeError "%41"), by decide⟩,
   ⟨{ ChannelSecret := "testsecret", ChannelToken := "testtoken",
      EndpointBase :=
        some { Scheme := "https", Host := "example.test", Path := "/a b", RawPath := "/a b" },
      HttpClient := http.DefaultClient },
    { Scheme := "https", Host := "example.test", Path := "/a b", RawPath := "/a b" },
    by decide, rfl, by decide, by decide, by decide, by decide⟩,
   ⟨{ ChannelSecret := "testsecret", ChannelToken := "testtoken",
      EndpointBase :=
        some { Scheme := "http",
               Host := String.mk ("[fe80::1%".data ++ [Char.ofNat 233] ++ "]".data),
               Path := "/" },
      HttpClient := http.DefaultClient },
    { Scheme := "http", Host := String.mk ("[fe80::1%".data ++ [Char.ofNat 233] ++ "]".data),
      Path := "/" },
    .urlError "parse" "http://[fe80::1%25%E9]/" (.EscapeError "%E9"),
    .urlError "parse" "http://[fe80::1%25%E9]/" (.EscapeError "%E9"),
    by decide, rfl, by decide, by decide, by decide, by decide⟩⟩

/-- C7 (amended).  With a non-empty secret and token: for every string `s`
without `#` that `url.Parse` accepts with a non-empty scheme, `New` with
`WithEndpointBase s` succeeds and stores exactly the URL value that
`url.Parse s` yields; and when `s` is a byte string, the `RawPath` hint of that
value is empty or a valid encoding, and the zone of a bracketed host is ASCII,
serialising the stored URL and parsing it again, with `url.Parse` or with
`url.ParseRequestURI`, gives the same URL value.  In particular, for every
plain absolute URL `scheme://name[:port][/path]`, `New` succeeds, the stored
URL is the value `url.Parse` yields, serialising it gives back the string, and
parsing the serialised URL again gives the same URL value. -/
theorem WithEndpointBase_stores_Parse {σ : Type} (secret token : String)
    (hs : secret ≠ "") (ht : token ≠ "") (w : σ) :
    (∀ (s : String) (u : url.URL), url.Parse s = .ok u → u.Scheme ≠ "" → '#' ∉ s.data →
        New secret token [WithEndpointBase s] w =
            (.ok { ChannelSecret := secret, ChannelToken := token, EndpointBase := some u,
                   HttpClient := http.DefaultClient }, w) ∧
          ((∀ c ∈ s.data, c.toNat < 256) →
            (u.RawPath = "" ∨ url.validEncoded u.RawPath.data url.encoding.encodePath = true) →
            url.ZoneASCII u.Host.data →
            url.Parse u.String = .ok u ∧ url.ParseRequestURI u.String = .ok u)) ∧
      (∀ scheme name port path : List Char, url.PlainURL scheme name port path →
        New secret token [WithEndpointBase (url.plainText scheme name port path)] w =
            (.ok { ChannelSecret := secret, ChannelToken := token,
                   EndpointBase := some (url.plainValue scheme name port path),
                   HttpClient := http.DefaultClient }, w) ∧
          url.Parse (url.plainText scheme name port path) =
            .ok (url.plainValue scheme name port path) ∧
          (url.plainValue scheme name port path).String = url.plainText scheme name port path ∧
          url.Parse (url.plainValue scheme name port path).String =
            .ok (url.plainValue scheme name port path)) := by
  have key : ∀ (s : String) (u : url.URL), url.ParseRequestURI s = .ok u →
      New secret token [WithEndpointBase s] w =
        (.ok { ChannelSecret := secret, ChannelToken := token, EndpointBase := some u,
               HttpClient := http.DefaultClient }, w) := by
    intro s u h
    rw [New_eq_of_nonempty secret token hs ht]
    simp [applyOptions, WithEndpointBase, h, newClient]
  constructor
  · intro s u hP hsch hfrag
    have hR := url.ParseRequestURI_of_Parse s u hP hsch hfrag
    refine ⟨key s u hR, fun hb hv hz => ?_⟩
    have := url.ParseRequestURI_String s u hR hsch hb hv hz
    exact ⟨this.2 hfrag, this.1⟩
  · intro scheme name port path h
    refine ⟨key _ _ (url.ParseRequestURI_plain scheme name port path h),
      url.Parse_plain scheme name port path h, url.String_plain scheme name port path h, ?_⟩
    rw [url.String_plain scheme name port path h]
    exact url.Parse_plain scheme name port path h

theorem WithEndpointBase_stores_Parse_witness :
    (New "testsecret" "testtoken"
        [WithEndpointBase "https://user:p%40ss@[fe80::1%25en0]:8080/a%2Fb?x=1"] () =
        (.ok { ChannelSecret := "testsecret", ChannelToken := "testtoken",
               EndpointBase :=
                 some { Scheme := "https",
                        User := some { username := "user", password := "p@ss", passwordSet := true },
                        Host := "[fe80::1%en0]:8080", Path := "/a/b", RawPath := "/a%2Fb",
                        RawQuery := "x=1" },
               HttpClient := http.DefaultClient }, ())) ∧
      (url.Parse
          (url.URL.String
            { Scheme := "https",
              User := some { username := "user", password := "p@ss", passwordSet := true },
              Host := "[fe80::1%en0]:8080", Path := "/a/b", RawPath := "/a%2Fb",
              RawQuery := "x=1" }) =
        .ok { Scheme := "https",
              User := some { username := "user", password := "p@ss", passwordSet := true },
              Host := "[fe80::1%en0]:8080", Path := "/a/b", RawPath := "/a%2Fb",
              RawQuery := "x=1" }) ∧
      (url.PlainURL "http".data "127.0.0.1".data "8080".data "/base".data ∧
        url.plainText "http".data "127.0.0.1".data "8080".data "/base".data =
          "http://127.0.0.1:8080/base" ∧
        (url.plainValue "http".data "127.0.0.1".data "8080".data "/base".data).String =
          url.plainText "http".data "127.0.0.1".data "8080".data "/base".data) :=
  ⟨((WithEndpointBase_stores_Parse "testsecret" "testtoken" (by decide) (by decide)
      ()).1 "https://user:p%40ss@[fe80::1%25en0]:8080/a%2Fb?x=1"
      { Scheme := "https",
        User := some { username := "user", password := "p@ss", passwordSet := true },
        Host := "[fe80::1%en0]:8080", Path := "/a/b", RawPath := "/a%2Fb", RawQuery := "x=1" }
      (by decide) (by decide) (by decide)).1,
   (((WithEndpointBase_stores_Parse "testsecret" "testtoken" (by decide) (by decide)
      ()).1 "https://user:p%40ss@[fe80::1%25en0]:8080/a%2Fb?x=1"
      { Scheme := "https",
        User := some { username := "user", password := "p@ss", passwordSet := true },
        Host := "[fe80::1%en0]:8080", Path := "/a/b", RawPath := "/a%2Fb", RawQuery := "x=1" }
      (by decide) (by decide) (by decide)).2 (by decide) (by decide) (by decide)).1,
   by decide, by decide,
   ((WithEndpointBase_stores_Parse "testsecret" "testtoken" (by decide) (by decide)
      ()).2 "http".data "127.0.0.1".data "8080".data "/base".data (by decide)).2.2.1⟩

end linebot

/-! ## The request builders -/

namespace linebot

theorem NewRequest_header {β : Type} (method urlStr : String) (body : Option β)
    (req : http.Request β) (h : http.NewRequest method urlStr body = .ok req) :
    req.Header = http.Header.empty := by
  unfold http.NewRequest at h
  dsimp only at h
  generalize (if method = "" then "GET" else method) = m at h
  split at h
  · cases h
  · cases hp : url.Parse urlStr with
    | error e => rw [hp] at h; cases h
    | ok u =>
      rw [hp] at h
      injection h with h
      subst h
      rfl

theorem do_record {κ β : Type} (version : String) (client : Client) (ctx : Option κ)
    (req : http.Request β) :
    client.do version (http.Transport.record κ β) ctx req =
      { req with
        Header := (req.Header.Set "Authorization" ("Bearer " ++ client.ChannelToken)).Set
          "User-Agent" ("LINE-BotSDK-Go/" ++ version) } := by
  unfold Client.do http.Transport.record
  cases ctx <;> rfl

theorem do_send {κ β ρ : Type} (version : String) (T : http.Transport κ β ρ) (client : Client)
    (ctx : Option κ) (req : http.Request β) :
    client.do version T ctx req =
      T.send ctx client.HttpClient (client.do version (http.Transport.record κ β) ctx req) := by
  rw [do_record]
  unfold Client.do http.Transport.send
  cases ctx <;> rfl

theorem canonical_keys :
    http.CanonicalMIMEHeaderKey "Authorization" = "Authorization" ∧
      http.CanonicalMIMEHeaderKey "User-Agent" = "User-Agent" ∧
      http.CanonicalMIMEHeaderKey "Content-Type" = "Content-Type" := by
  decide

theorem header_after_do (h : http.Header) (token version : String) :
    ((h.Set "Authorization" ("Bearer " ++ token)).Set "User-Agent"
        ("LINE-BotSDK-Go/" ++ version)) "Authorization" = some ["Bearer " ++ token] ∧
      ((h.Set "Authorization" ("Bearer " ++ token)).Set "User-Agent"
        ("LINE-BotSDK-Go/" ++ version)) "User-Agent" = some ["LINE-BotSDK-Go/" ++ version] ∧
      ((h.Set "Authorization" ("Bearer " ++ token)).Set "User-Agent"
        ("LINE-BotSDK-Go/" ++ version)) "Content-Type" = h "Content-Type" := by
  have h1 : ("Authorization" : String) ≠ "User-Agent" := by decide
  have h2 : ("Content-Type" : String) ≠ "User-Agent" := by decide
  have h3 : ("Content-Type" : String) ≠ "Authorization" := by decide
  simp only [http.Header.Set, canonical_keys.1, canonical_keys.2.1, if_neg h1, if_neg h2,
    if_neg h3, if_true, and_self]

/-- The URL that `Client.url` composes from a plain base URL and a plain
endpoint that begins with `/` parses to the base URL with the joined path. -/
theorem url_plain (client : Client) (endpoint : String) (scheme name port base : List Char)
    (h : url.PlainURL scheme name port base)
    (hc : client.EndpointBase = some (url.plainValue scheme name port base))
    (he : endpoint.data.head? = some '/')
    (hpe : ∀ c ∈ endpoint.data, url.plainPathByte c = true) :
    client.url endpoint =
        some (url.plainText scheme name port (path.joinBytes base endpoint.data)) ∧
      url.Parse (url.plainText scheme name port (path.joinBytes base endpoint.data)) =
        .ok (url.plainValue scheme name port (path.joinBytes base endpoint.data)) := by
  have hj := url.PlainURL_join scheme name port base endpoint.data h he hpe
  refine ⟨?_, url.Parse_plain _ _ _ _ hj⟩
  unfold Client.url
  rw [hc]
  simp only [Option.some.injEq]
  rw [← url.String_plain _ _ _ _ hj]
  have hjoin : path.Join [(url.plainValue scheme name port base).Path, endpoint] =
      String.mk (path.joinBytes base endpoint.data) := by
    have := path.Join_pair (url.plainValue scheme name port base).Path endpoint
    cases hJ : path.Join [(url.plainValue scheme name port base).Path, endpoint] with
    | mk d =>
      rw [hJ] at this
      simp only at this
      rw [this]
      rfl
  rw [hjoin]
  rfl


theorem NewRequest_of_Parse {β : Type} (method urlStr : String) (body : Option β) (v : url.URL)
    (hm : method ≠ "") (hv : http.validMethod method = true) (h : url.Parse urlStr = .ok v) :
    http.NewRequest method urlStr body =
      .ok { Method := method,
            URL := { v with Host := String.mk (http.removeEmptyPort v.Host.data) },
            Header := http.Header.empty, Body := body,
            Host := String.mk (http.removeEmptyPort v.Host.data) } := by
  unfold http.NewRequest
  simp only [if_neg hm, hv, h, Bool.not_true, Bool.false_eq_true, if_false]

theorem NewRequest_of_Parse_error {β : Type} (method urlStr : String) (body : Option β)
    (err : GoError) (hm : method ≠ "") (hv : http.validMethod method = true)
    (h : url.Parse urlStr = .error err) :
    http.NewRequest method urlStr body = .error err := by
  unfold http.NewRequest
  simp only [if_neg hm, hv, h, Bool.not_true, Bool.false_eq_true, if_false]

theorem header_map_after_do (token version : String) (k : String) :
    (((http.Header.empty.Set "Authorization" ("Bearer " ++ token)).Set "User-Agent"
        ("LINE-BotSDK-Go/" ++ version)) k =
      if k = "User-Agent" then some ["LINE-BotSDK-Go/" ++ version]
      else if k = "Authorization" then some ["Bearer " ++ token]
      else none) ∧
    ((((http.Header.empty.Set "Content-Type" "application/json; charset=UTF-8").Set
        "Authorization" ("Bearer " ++ token)).Set "User-Agent"
        ("LINE-BotSDK-Go/" ++ version)) k =
      if k = "User-Agent" then some ["LINE-BotSDK-Go/" ++ version]
      else if k = "Authorization" then some ["Bearer " ++ token]
      else if k = "Content-Type" then some ["application/json; charset=UTF-8"]
      else none) := by
  simp only [http.Header.Set, canonical_keys.1, canonical_keys.2.1, canonical_keys.2.2,
    http.Header.empty, and_self]


/-- C4.  The request that `get` and `post` hand to the transport carries
`Authorization: Bearer <ChannelToken>` and `User-Agent: LINE-BotSDK-Go/<version>`,
each as the only value of its header; the request of `post` carries
`Content-Type: application/json; charset=UTF-8` and the request of `get` has no
`Content-Type` header.  `do` replaces any earlier value of the two headers, and
whatever the transport is, what it receives is the request recorded here.
Both builders do hand over a request exactly when `url.Parse` accepts the URL
that `Client.url` composes: with a nil `EndpointBase` they panic, when
`url.Parse` fails they return its error, and otherwise the request of `get` has
method `GET`, no body and no header besides the two above, and the request of
`post` has method `POST`, the given body, the same URL and the three headers
and no other.  That is the case for every plain base URL and every endpoint
that begins with `/` and is made of plain path bytes. -/
theorem get_post_headers {κ β : Type} (version : String) (client : Client) (ctx : Option κ)
    (endpoint : String) (body : Option β) :
    (∀ r, client.get version (http.Transport.record κ β) ctx endpoint = some (.ok r) →
        r.Header "Authorization" = some ["Bearer " ++ client.ChannelToken] ∧
        r.Header "User-Agent" = some ["LINE-BotSDK-Go/" ++ version] ∧
        r.Header "Content-Type" = none) ∧
      (∀ r, client.post version (http.Transport.record κ β) ctx endpoint body = some (.ok r) →
        r.Header "Authorization" = some ["Bearer " ++ client.ChannelToken] ∧
        r.Header "User-Agent" = some ["LINE-BotSDK-Go/" ++ version] ∧
        r.Header "Content-Type" = some ["application/json; charset=UTF-8"]) ∧
      (∀ req : http.Request β,
        (client.do version (http.Transport.record κ β) ctx req).Header "Authorization" =
            some ["Bearer " ++ client.ChannelToken] ∧
          (client.do version (http.Transport.record κ β) ctx req).Header "User-Agent" =
            some ["LINE-BotSDK-Go/" ++ version]) ∧
      (∀ (ρ : Type) (T : http.Transport κ β ρ),
        client.get version T ctx endpoint =
            (client.get version (http.Transport.record κ β) ctx endpoint).map
              (Except.map (T.send ctx client.HttpClient)) ∧
          client.post version T ctx endpoint body =
            (client.post version (http.Transport.record κ β) ctx endpoint body).map
              (Except.map (T.send ctx client.HttpClient))) ∧
      (client.EndpointBase = none →
        client.get version (http.Transport.record κ β) ctx endpoint = none ∧
        client.post version (http.Transport.record κ β) ctx endpoint body = none) ∧
      (∀ u err, client.EndpointBase = some u →
        url.Parse (url.URL.String { u with Path := path.Join [u.Path, endpoint] }) = .error err →
        client.get version (http.Transport.record κ β) ctx endpoint = some (.error err) ∧
        client.post version (http.Transport.record κ β) ctx endpoint body = some (.error err)) ∧
      (∀ u v, client.EndpointBase = some u →
        url.Parse (url.URL.String { u with Path := path.Join [u.Path, endpoint] }) = .ok v →
        ∃ rg rp,
          client.get version (http.Transport.record κ β) ctx endpoint = some (.ok rg) ∧
          client.post version (http.Transport.record κ β) ctx endpoint body = some (.ok rp) ∧
          rg.Method = "GET" ∧ rp.Method = "POST" ∧ rg.Body = none ∧ rp.Body = body ∧
          rg.URL = { v with Host := String.mk (http.removeEmptyPort v.Host.data) } ∧
          rp.URL = rg.URL ∧
          (∀ k, rg.Header k =
            if k = "User-Agent" then some ["LINE-BotSDK-Go/" ++ version]
            else if k = "Authorization" then some ["Bearer " ++ client.ChannelToken]
            else none) ∧
          (∀ k, rp.Header k =
            if k = "User-Agent" then some ["LINE-BotSDK-Go/" ++ version]
            else if k = "Authorization" then some ["Bearer " ++ client.ChannelToken]
            else if k = "Content-Type" then some ["application/json; charset=UTF-8"]
            else none)) ∧
      (∀ scheme name port base : List Char, url.PlainURL scheme name port base →
        client.EndpointBase = some (url.plainValue scheme name port base) →
        endpoint.data.head? = some '/' →
        (∀ c ∈ endpoint.data, url.plainPathByte c = true) →
        ∃ rg rp,
          client.get version (http.Transport.record κ β) ctx endpoint = some (.ok rg) ∧
          client.post version (http.Transport.record κ β) ctx endpoint body = some (.ok rp) ∧
          rg.Method = "GET" ∧ rp.Method = "POST" ∧ rp.Body = body ∧
          rg.URL = url.plainValue scheme name port (path.joinBytes base endpoint.data) ∧
          rp.URL = url.plainValue scheme name port (path.joinBytes base endpoint.data) ∧
          rg.Header "Content-Type" = none ∧
          rp.Header "Content-Type" = some ["application/json; charset=UTF-8"]) := by
  have hG : ("GET" : String) ≠ "" := by decide
  have hP : ("POST" : String) ≠ "" := by decide
  have hGv : http.validMethod "GET" = true := by decide
  have hPv : http.validMethod "POST" = true := by decide
  have hok : ∀ (urlStr : String) (v : url.URL), client.url endpoint = some urlStr →
      url.Parse urlStr = .ok v →
      client.get version (http.Transport.record κ β) ctx endpoint =
        some (.ok { Method := "GET",
                    URL := { v with Host := String.mk (http.removeEmptyPort v.Host.data) },
                    Header := (http.Header.empty.Set "Authorization"
                      ("Bearer " ++ client.ChannelToken)).Set "User-Agent"
                      ("LINE-BotSDK-Go/" ++ version),
                    Body := none, Host := String.mk (http.removeEmptyPort v.Host.data) }) ∧
      client.post version (http.Transport.record κ β) ctx endpoint body =
        some (.ok { Method := "POST",
                    URL := { v with Host := String.mk (http.removeEmptyPort v.Host.data) },
                    Header := ((http.Header.empty.Set "Content-Type"
                      "application/json; charset=UTF-8").Set "Authorization"
                      ("Bearer " ++ client.ChannelToken)).Set "User-Agent"
                      ("LINE-BotSDK-Go/" ++ version),
                    Body := body, Host := String.mk (http.removeEmptyPort v.Host.data) }) := by
    intro urlStr v hu hp
    constructor
    · simp only [Client.get, hu, NewRequest_of_Parse _ _ _ v hG hGv hp, do_record]
    · simp only [Client.post, hu, NewRequest_of_Parse _ _ _ v hP hPv hp, do_record]
  refine ⟨?_, ?_, ?_, ?_, ?_, ?_, ?_, ?_⟩
  · intro r h
    unfold Client.get at h
    split at h
    · cases h
    · split at h
      · simp at h
      · rename_i req hreq
        have hh := NewRequest_header _ _ _ _ hreq
        simp only [Option.some.injEq, Except.ok.injEq] at h
        subst h
        rw [do_record]
        have := header_after_do req.Header client.ChannelToken version
        refine ⟨this.1, this.2.1, ?_⟩
        dsimp only
        rw [this.2.2, hh]
        rfl
  · intro r h
    unfold Client.post at h
    split at h
    · cases h
    · split at h
      · simp at h
      · rename_i req hreq
        simp only [Option.some.injEq, Except.ok.injEq] at h
        subst h
        rw [do_record]
        have := header_after_do (req.Header.Set "Content-Type" "application/json; charset=UTF-8")
          client.ChannelToken version
        refine ⟨this.1, this.2.1, ?_⟩
        dsimp only
        rw [this.2.2]
        simp [http.Header.Set, canonical_keys.2.2]
  · intro req
    rw [do_record]
    have := header_after_do req.Header client.ChannelToken version
    exact ⟨this.1, this.2.1⟩
  · intro ρ T
    constructor
    · unfold Client.get
      cases client.url endpoint with
      | none => rfl
      | some urlStr =>
        dsimp only
        cases http.NewRequest "GET" urlStr (none : Option β) with
        | error err => rfl
        | ok req =>
          simp only [Option.map_some', Except.map]
          rw [do_send]
    · unfold Client.post
      cases client.url endpoint with
      | none => rfl
      | some urlStr =>
        dsimp only
        cases http.NewRequest "POST" urlStr body with
        | error err => rfl
        | ok req =>
          simp only [Option.map_some', Except.map]
          rw [do_send]
  · intro h
    simp only [Client.get, Client.post, Client.url, h, and_self]
  · intro u err h hp
    simp only [Client.get, Client.post, Client.url, h,
      NewRequest_of_Parse_error _ _ _ err hG hGv hp,
      NewRequest_of_Parse_error _ _ _ err hP hPv hp, and_self]
  · intro u v h hp
    have := hok _ v (by simp only [Client.url, h]) hp
    exact ⟨_, _, this.1, this.2, rfl, rfl, rfl, rfl, rfl, rfl,
      fun k => (header_map_after_do client.ChannelToken version k).1,
      fun k => (header_map_after_do client.ChannelToken version k).2⟩
  · intro scheme name port base hpl hc he hpe
    have hu := url_plain client endpoint scheme name port base hpl hc he hpe
    have := hok _ _ hu.1 hu.2
    have hj := url.PlainURL_join scheme name port base endpoint.data hpl he hpe
    have hhost : { url.plainValue scheme name port (path.joinBytes base endpoint.data) with
        Host := String.mk (http.removeEmptyPort
          (url.plainValue scheme name port (path.joinBytes base endpoint.data)).Host.data) } =
        url.plainValue scheme name port (path.joinBytes base endpoint.data) := by
      simp only [url.plainValue, url.removeEmptyPort_plain name port hpl.2.2.2.1 hpl.2.2.2.2.1]
    refine ⟨_, _, this.1, this.2, rfl, rfl, rfl, hhost, hhost, ?_, ?_⟩
    · have h1 : ("Content-Type" : String) ≠ "User-Agent" := by decide
      have h2 : ("Content-Type" : String) ≠ "Authorization" := by decide
      exact ((header_map_after_do client.ChannelToken version "Content-Type").1).trans
        (by rw [if_neg h1, if_neg h2])
    · have h1 : ("Content-Type" : String) ≠ "User-Agent" := by decide
      have h2 : ("Content-Type" : String) ≠ "Authorization" := by decide
      exact ((header_map_after_do client.ChannelToken version "Content-Type").2).trans
        (by rw [if_neg h1, if_neg h2, if_pos rfl])

theorem get_post_headers_witness :
    ∃ rg rp,
      Client.get "1.0.0" (http.Transport.record Unit Unit)
          { ChannelSecret := "testsecret", ChannelToken := "testtoken",
            EndpointBase := some { Scheme := "https", Host := "api.line.me" },
            HttpClient := http.DefaultClient } none APIEndpointPushMessage = some (.ok rg) ∧
      Client.post "1.0.0" (http.Transport.record Unit Unit)
          { ChannelSecret := "testsecret", ChannelToken := "testtoken",
            EndpointBase := some { Scheme := "https", Host := "api.line.me" },
            HttpClient := http.DefaultClient } none APIEndpointPushMessage (some ()) =
        some (.ok rp) ∧
      rg.Method = "GET" ∧ rp.Method = "POST" ∧ rp.Body = some () ∧
      rg.URL.String = "https://api.line.me/v2/bot/message/push" ∧
      rp.URL.String = "https://api.line.me/v2/bot/message/push" ∧
      (rg.Header "Authorization" = some ["Bearer testtoken"] ∧
        rg.Header "User-Agent" = some ["LINE-BotSDK-Go/1.0.0"] ∧
        rg.Header "Content-Type" = none) ∧
      (rp.Header "Authorization" = some ["Bearer testtoken"] ∧
        rp.Header "User-Agent" = some ["LINE-BotSDK-Go/1.0.0"] ∧
        rp.Header "Content-Type" = some ["application/json; charset=UTF-8"]) :=
  ⟨_, _, rfl, rfl, rfl, rfl, rfl, by decide, by decide,
    (get_post_headers "1.0.0"
      { ChannelSecret := "testsecret", ChannelToken := "testtoken",
        EndpointBase := some { Scheme := "https", Host := "api.line.me" },
        HttpClient := http.DefaultClient } (none : Option Unit) APIEndpointPushMessage
      (some ())).1 _ rfl,
    (get_post_headers "1.0.0"
      { ChannelSecret := "testsecret", ChannelToken := "testtoken",
        EndpointBase := some { Scheme := "https", Host := "api.line.me" },
        HttpClient := http.DefaultClient } (none : Option Unit) APIEndpointPushMessage
      (some ())).2.1 _ rfl⟩

end linebot

/-! ## URL composition -/

namespace path

/-- The number of iterations allowed to the loop of `path.Clean` does not
matter once it reaches the number of unread bytes: the loop then runs to its
end, where the whole input has been read. -/
theorem cleanLoop_fuel (rooted : Bool) (fuel fuel' : Nat) (rest out : List Char) (dd : Nat)
    (h : rest.length ≤ fuel) (h' : rest.length ≤ fuel') :
    cleanLoop rooted fuel rest out dd = cleanLoop rooted fuel' rest out dd := by
  rw [cleanLoop_eq_run rooted fuel rest out dd h, cleanLoop_eq_run rooted fuel' rest out dd h']

theorem data_eq_nil_iff (s : String) : s.data = [] ↔ s = "" := by
  constructor
  · intro h
    exact String.ext h
  · intro h
    rw [h]

end path

namespace linebot

/-- C8.  The path that `Client.url` composes, `path.Join` of the base path and
the endpoint, never contains two consecutive `/`. -/
theorem url_path_no_double_separator (base endpoint : String) :
    ¬ (['/', '/'] <:+: (path.Join [base, endpoint]).data) := by
  rw [path.Join_pair]
  unfold path.joinBytes
  split
  · split
    · simp
    · exact path.not_infix_of_noDoubleSlash _ (path.noDoubleSlash_cleanBytes _)
  · exact path.not_infix_of_noDoubleSlash _ (path.noDoubleSlash_cleanBytes _)

/-- C9 (counterexample).  With base path `/base`, the endpoint made from the
template `/v2/bot/profile/%s` and the identifier `../../../../x` is composed to
the path `/x`, which does not begin with `/base`.  And a base path that is not
clean is not kept as it stands: with base path `/a//b` the endpoint `/x` is
composed to `/a/b/x`. -/
theorem url_leaves_base_path :
    path.Join ["/base", "/v2/bot/profile/../../../../x"] = "/x" ∧
      ¬ ("/base".data <+: (path.Join ["/base", "/v2/bot/profile/../../../../x"]).data) ∧
      Client.url
          { ChannelSecret := "testsecret", ChannelToken := "testtoken",
            EndpointBase := some { Scheme := "https", Host := "example.test", Path := "/base" },
            HttpClient := http.DefaultClient }
          "/v2/bot/profile/../../../../x" = some "https://example.test/x" ∧
      path.Join ["/a//b", "/x"] = "/a/b/x" ∧
      ¬ ("/a//b".data <+: (path.Join ["/a//b", "/x"]).data) := by
  decide

/-- C9 (amended).  For an endpoint without `..` element: with an
empty base path the composed path is the cleaned endpoint, and with a base path
that begins with `/` the composed path is the cleaned base path `path.Clean b`
followed by the segments of the endpoint, each after one separator, so it
begins with the cleaned base path. -/
theorem Join_keeps_base_path (b e : String) (he : ¬ path.hasDotDot e.data) :
    (b = "" → path.Join [b, e] = if e = "" then "" else path.Clean e) ∧
      (b.data.head? = some '/' →
        (path.Join [b, e]).data =
            (path.segments e.data).foldl path.appendSeg (path.Clean b).data ∧
          (path.Clean b).data <+: (path.Join [b, e]).data) := by
  constructor
  · intro hb
    subst hb
    apply String.ext
    rw [path.Join_pair]
    by_cases hE : e = ""
    · subst hE; rfl
    · have : e.data ≠ [] := fun h => hE ((path.data_eq_nil_iff e).1 h)
      simp [path.joinBytes, this, hE, path.Clean]
  · intro hb
    have h := path.joinBytes_rooted b.data e.data hb he
    rw [path.Join_pair, h]
    exact ⟨rfl, path.foldl_appendSeg_prefix _ _⟩

theorem Join_keeps_base_path_witness :
    ¬ path.hasDotDot "/v2/bot/message/push".data ∧
      path.Clean "/base/" = "/base" ∧
      "/base".data <+: (path.Join ["/base/", "/v2/bot/message/push"]).data ∧
      path.Join ["/base/", "/v2/bot/message/push"] = "/base/v2/bot/message/push" :=
  ⟨by decide, by decide,
    ((Join_keeps_base_path "/base/" "/v2/bot/message/push" (by decide)).2 (by decide)).2,
    by decide⟩

/-- C10 (counterexample).  Joining `/base` with `/..` and then with
`x` gives `/x`, joining `/base` with the join of `/..` and `x` gives `/base/x`. -/
theorem Join_not_associative :
    path.Join [path.Join ["/base", "/.."], "x"] = "/x" ∧
      path.Join ["/base", path.Join ["/..", "x"]] = "/base/x" ∧
      path.Join [path.Join ["/base", "/.."], "x"] ≠
        path.Join ["/base", path.Join ["/..", "x"]] := by
  decide

/-- C10 (amended).  `path.Join` is associative on `a`, `b`, `c`
whenever `a` is empty, or the join of `b` and `c` is not a rooted path, or
neither `b` nor `c` has a `..` element. -/
theorem Join_assoc (a b c : String)
    (h : a = "" ∨ (path.Join [b, c]).data.head? ≠ some '/' ∨
      (¬ path.hasDotDot b.data ∧ ¬ path.hasDotDot c.data)) :
    path.Join [path.Join [a, b], c] = path.Join [a, path.Join [b, c]] := by
  apply String.ext
  rw [path.Join_pair, path.Join_pair, path.Join_pair, path.Join_pair]
  apply path.joinBytes_assoc
  rcases h with h | h | h
  · exact Or.inl ((path.data_eq_nil_iff a).2 h)
  · exact Or.inr (Or.inl (by rw [← path.Join_pair]; exact h))
  · exact Or.inr (Or.inr h)

theorem Join_assoc_witness :
    path.Join [path.Join ["/base", "/v2/bot"], "/message/push"] =
        path.Join ["/base", path.Join ["/v2/bot", "/message/push"]] ∧
      path.Join ["/base", path.Join ["/v2/bot", "/message/push"]] =
        "/base/v2/bot/message/push" :=
  ⟨Join_assoc "/base" "/v2/bot" "/message/push" (Or.inr (Or.inr (by decide))), by decide⟩

end linebot
